import Mathlib

/-!
# alcazar-gen: the SAT encoding of Alcazar boards and the wall-minimising generator

A shallow embedding of `src/formula.cpp` (`c2f`, `f2c`, `allWalls`, `getEdgeFields`,
`buildFormula`) and of `src/generator.cpp` (`generate`), followed by the properties
proved about them.

Conventions of the embedding.

* C++ `int` values are `Int`; a loop `for (int i = lo; i < hi; ++i)` is a traversal of
  `intRange lo hi`.
* The solver object is replaced by what `buildFormula` does to it: the list of clauses
  passed to `addClause`, in the order of the source.  Every `newVar()` call yields a
  fresh variable; variables are named after the registry key they are stored under.
* The four `std::map` registries are total lookup functions; keys are told apart by
  value (a wall by its position and its orientation).  `operator[]` on a key that was
  never allocated yields a value-initialised `Minisat::Lit`; that literal is the
  parameter `dflt` of every definition below.
* Loops that need not end (`for (;;)`, `while`) take a `fuel` argument, the number of
  passes they may make, and return `none` when it is used up.
-/

namespace Alcazar

/-! ## Geometry -/

/-- Modelled from the spec: the value type `Coordinates` of `coordinates.h` (an `(x, y)`
pair of `int`s with accessors `x()`, `y()` and `offset`). -/
structure Coordinates where
  x : Int
  y : Int
deriving DecidableEq, Repr

/-- Modelled from the spec: `Coordinates::offset(dx, dy)`, the coordinate moved by `(dx, dy)`. -/
def Coordinates.offset (c : Coordinates) (dx dy : Int) : Coordinates :=
  ⟨c.x + dx, c.y + dy⟩

/-- Modelled from the spec: `enum class Orientation` of `wall.h`. -/
inductive Orientation where
  | H
  | V
deriving DecidableEq, Repr

/-- Modelled from the spec: the value type `Wall` of `wall.h`, a position and an orientation. -/
structure Wall where
  pos : Coordinates
  orientation : Orientation
deriving DecidableEq, Repr

/-- The integers `lo, lo+1, ..., hi-1` in increasing order: the values taken by the
counter of `for (int i = lo; i < hi; ++i)`. -/
def intRange (lo hi : Int) : List Int :=
  (List.range (hi - lo).toNat).map fun (i : Nat) => lo + (i : Int)

/-- Function `c2f` of `formula.cpp`: the index of a cell, as the exact value of the
expression `c.x() + c.y() * width`.  The source evaluates the expression in `int`; the
two agree as long as the product and the sum stay in the range of `int` (see `c2fInt`),
which is the case for every index of a grid with `width * height` at most `INT_MAX`. -/
def c2f (c : Coordinates) (width : Int) : Int :=
  c.x + c.y * width

/-- The value that the 32-bit two's-complement arithmetic of `int` yields when the exact
result is `z`: the representative of `z` modulo `2^32` in `[-2^31, 2^31)`. -/
def wrapInt (z : Int) : Int :=
  (z + 2147483648) % 4294967296 - 2147483648

/-- Function `c2f` of `formula.cpp` in the arithmetic of `int`: the product
`c.y() * width` and the sum `c.x() + ...` are both wrapped to 32 bits. -/
def c2fInt (c : Coordinates) (width : Int) : Int :=
  wrapInt (c.x + wrapInt (c.y * width))

/-- Function `f2c` of `formula.cpp`: the cell of an index (`%` and `/` of C++ truncate). -/
def f2c (f : Int) (width : Int) : Coordinates :=
  ⟨f.tmod width, f.tdiv width⟩

/-- Function `allWalls` of `formula.cpp`: the V-walls row by row, then the H-walls. -/
def allWalls (width height : Int) : List Wall :=
  ((intRange 0 height).flatMap fun y =>
    (intRange 0 (width + 1)).map fun x => Wall.mk ⟨x, y⟩ Orientation.V) ++
  ((intRange 0 (height + 1)).flatMap fun y =>
    (intRange 0 width).map fun x => Wall.mk ⟨x, y⟩ Orientation.H)

/-- Function `getEdgeFields` of `formula.cpp`: first and last row, then first and last
column without their ends. -/
def getEdgeFields (width height : Int) : List Int :=
  ((intRange 0 width).flatMap fun x =>
    [c2f ⟨x, 0⟩ width, c2f ⟨x, height - 1⟩ width]) ++
  ((intRange 1 (height - 1)).flatMap fun y =>
    [c2f ⟨0, y⟩ width, c2f ⟨width - 1, y⟩ width])

/-! ## Literals, clauses, assignments -/

/-- The `enum class Orientation2` of `formula.cpp`: the two bits of a node orientation. -/
inductive Orientation2 where
  | NW
  | NE
deriving DecidableEq, Repr

/-- The solver variables, named by the registry entry that `buildFormula` stores them in:
`fp2lit[{field, pathpos}]`, `w2lit[wall]`, `edge2lit[wall]`, `node2lit[{c, o}]`. -/
inductive Var where
  | fp (field pathpos : Int)
  | wall (w : Wall)
  | edge (w : Wall)
  | node (c : Coordinates) (o : Orientation2)
deriving DecidableEq, Repr

/-- A `Minisat::Lit`: a variable and a sign (`sign = true` is the negated literal). -/
structure Lit where
  var : Var
  sign : Bool
deriving DecidableEq, Repr

/-- The call `Minisat::mkLit(v)`: the positive literal of a variable. -/
def mkLit (v : Var) : Lit := ⟨v, false⟩

/-- The `operator~` of `Minisat::Lit`. -/
def Lit.not (l : Lit) : Lit := ⟨l.var, !l.sign⟩

/-- A clause (`Minisat::vec<Minisat::Lit>`). -/
abbrev Clause := List Lit

/-- An assignment of truth values to the variables. -/
abbrev Assignment := Var → Bool

/-- The value of a literal under an assignment. -/
def Lit.eval (σ : Assignment) (l : Lit) : Bool := xor (σ l.var) l.sign

/-- The value of a clause under an assignment. -/
def Clause.eval (σ : Assignment) (c : Clause) : Bool := c.any (Lit.eval σ)

/-- The assignment satisfies every clause of the list. -/
def Satisfies (σ : Assignment) (cs : List Clause) : Prop :=
  ∀ c ∈ cs, Clause.eval σ c = true

/-- Executable form of `Satisfies`. -/
def satisfiesB (σ : Assignment) (cs : List Clause) : Bool :=
  cs.all (Clause.eval σ)

/-- The assignment makes every literal of the list true (the assumptions of a `solve` call). -/
def Holds (σ : Assignment) (assumptions : List Lit) : Prop :=
  ∀ l ∈ assumptions, Lit.eval σ l = true

/-! ## The registries after variable allocation -/

/-- The lookup `fp2lit[{field, pathpos}]` after the allocation loop over `[0, pathLength)²`. -/
def fp2lit (dflt : Lit) (pathLength : Int) (field pathpos : Int) : Lit :=
  if 0 ≤ field ∧ field < pathLength ∧ 0 ≤ pathpos ∧ pathpos < pathLength then
    mkLit (Var.fp field pathpos)
  else dflt

/-- The lookup `w2lit[wall]` after the allocation loop over `allWalls(width, height)`. -/
def w2lit (dflt : Lit) (width height : Int) (w : Wall) : Lit :=
  if w ∈ allWalls width height then mkLit (Var.wall w) else dflt

/-- The lookup `edge2lit[wall]` after the allocation loop over `allWalls(width, height)`. -/
def edge2lit (dflt : Lit) (width height : Int) (w : Wall) : Lit :=
  if w ∈ allWalls width height then mkLit (Var.edge w) else dflt

/-- The lookup `node2lit[{c, o}]` after the allocation loop over the cells of the grid. -/
def node2lit (dflt : Lit) (width height : Int) (c : Coordinates) (o : Orientation2) : Lit :=
  if 0 ≤ c.x ∧ c.x < width ∧ 0 ≤ c.y ∧ c.y < height then mkLit (Var.node c o) else dflt

/-- The `std::set<Coordinates> allCoordinates` of `buildFormula` (and its copy
`nodeCoordinates`), listed in insertion order.  The order in which a `std::set` is
traversed only permutes the emitted clauses. -/
def allCoordinates (width height : Int) : List Coordinates :=
  (intRange 0 width).flatMap fun x => (intRange 0 height).map fun y => ⟨x, y⟩

/-! ## `buildFormula`, block by block in the order of the source -/

/-- Lines 116-121: the clause `~w2lit[wall] | edge2lit[wall]` of every wall. -/
def wallEdgeClauses (dflt : Lit) (width height : Int) : List Clause :=
  (allWalls width height).map fun wall =>
    [(w2lit dflt width height wall).not, edge2lit dflt width height wall]

/-- Lines 145-160: the eight clauses of one coordinate `c`
("each coordinate has exactly 2 walls and 2 open"). -/
def cellWallClauses (dflt : Lit) (width height : Int) (c : Coordinates) : List Clause :=
  let walln := edge2lit dflt width height (Wall.mk c Orientation.H)
  let wallw := edge2lit dflt width height (Wall.mk c Orientation.V)
  let walls := edge2lit dflt width height (Wall.mk (c.offset 0 1) Orientation.H)
  let walle := edge2lit dflt width height (Wall.mk (c.offset 1 0) Orientation.V)
  [ [walln.not, walle.not, walls.not],
    [walln.not, walle.not, wallw.not],
    [walln.not, walls.not, wallw.not],
    [walle.not, walls.not, wallw.not],
    [walln, walle, walls],
    [walln, walle, wallw],
    [walln, walls, wallw],
    [walle, walls, wallw] ]

/-- Lines 143-161: the loop over `allCoordinates`. -/
def cellClauses (dflt : Lit) (width height : Int) : List Clause :=
  (allCoordinates width height).flatMap (cellWallClauses dflt width height)

/-- Lines 163-187: "corners must have at least one wall". -/
def cornerClauses (dflt : Lit) (width height : Int) : List Clause :=
  let e := edge2lit dflt width height
  [ [e (Wall.mk ⟨0, 0⟩ Orientation.H), e (Wall.mk ⟨0, 0⟩ Orientation.V)],
    [e (Wall.mk ⟨width - 1, 0⟩ Orientation.H), e (Wall.mk ⟨width, 0⟩ Orientation.V)],
    [e (Wall.mk ⟨0, height⟩ Orientation.H), e (Wall.mk ⟨0, height - 1⟩ Orientation.V)],
    [e (Wall.mk ⟨width - 1, height⟩ Orientation.H),
      e (Wall.mk ⟨width, height - 1⟩ Orientation.V)] ]

/-- Lines 201-204: "every node must be oriented along a wall", for the node `nc`. -/
def nodeAlongClauses (dflt : Lit) (width height : Int) (nc : Coordinates) : List Clause :=
  let nw := node2lit dflt width height nc Orientation2.NW
  let ne := node2lit dflt width height nc Orientation2.NE
  let sw := (node2lit dflt width height nc Orientation2.NE).not
  let se := (node2lit dflt width height nc Orientation2.NW).not
  let walln := edge2lit dflt width height (Wall.mk (nc.offset 1 0) Orientation.V)
  let wallw := edge2lit dflt width height (Wall.mk (nc.offset 0 1) Orientation.H)
  let walle := edge2lit dflt width height (Wall.mk (nc.offset 1 1) Orientation.H)
  let walls := edge2lit dflt width height (Wall.mk (nc.offset 1 1) Orientation.V)
  [ [nw.not, ne.not, walln],
    [sw.not, se.not, walls],
    [ne.not, se.not, walle],
    [nw.not, sw.not, wallw] ]

/-- Lines 207-210: "every node must be away from a corner", for the node `nc`. -/
def nodeAwayClauses (dflt : Lit) (width height : Int) (nc : Coordinates) : List Clause :=
  let nw := node2lit dflt width height nc Orientation2.NW
  let ne := node2lit dflt width height nc Orientation2.NE
  let sw := (node2lit dflt width height nc Orientation2.NE).not
  let se := (node2lit dflt width height nc Orientation2.NW).not
  let walln := edge2lit dflt width height (Wall.mk (nc.offset 1 0) Orientation.V)
  let wallw := edge2lit dflt width height (Wall.mk (nc.offset 0 1) Orientation.H)
  let walle := edge2lit dflt width height (Wall.mk (nc.offset 1 1) Orientation.H)
  let walls := edge2lit dflt width height (Wall.mk (nc.offset 1 1) Orientation.V)
  [ [walln, walle, ne.not],
    [walls, walle, se.not],
    [walln, wallw, nw.not],
    [walls, wallw, sw.not] ]

/-- Lines 189-211: the loop over `nodeCoordinates`. -/
def nodeClauses (dflt : Lit) (width height : Int) : List Clause :=
  (allCoordinates width height).flatMap fun nc =>
    nodeAlongClauses dflt width height nc ++ nodeAwayClauses dflt width height nc

/-- Lines 218-237: the seven clauses of the horizontal non-border wall at `(x, y)`. -/
def horizontalWallClausesAt (dflt : Lit) (width height : Int) (x y : Int) : List Clause :=
  let wall := edge2lit dflt width height (Wall.mk ⟨x, y⟩ Orientation.H)
  let walln := edge2lit dflt width height (Wall.mk ⟨x, y - 1⟩ Orientation.H)
  let walls := edge2lit dflt width height (Wall.mk ⟨x, y + 1⟩ Orientation.H)
  let nodew_ne := node2lit dflt width height ⟨x - 1, y - 1⟩ Orientation2.NE
  let nodew_se := (node2lit dflt width height ⟨x - 1, y - 1⟩ Orientation2.NW).not
  let nodee_nw := node2lit dflt width height ⟨x, y - 1⟩ Orientation2.NW
  let nodee_sw := (node2lit dflt width height ⟨x, y - 1⟩ Orientation2.NE).not
  [ [nodew_ne.not, nodew_se.not, nodee_nw.not, nodee_sw.not],
    [nodew_ne.not, nodee_nw.not, walln.not],
    [nodew_se.not, nodee_sw.not, walls.not],
    [wall.not, nodew_ne, nodee_nw],
    [wall.not, nodew_ne, nodee_sw],
    [wall.not, nodew_se, nodee_nw],
    [wall.not, nodew_se, nodee_sw] ]

/-- Lines 213-239: "every horizontal non-border wall". -/
def horizontalWallClauses (dflt : Lit) (width height : Int) : List Clause :=
  (intRange 1 (height - 1 + 1)).flatMap fun y =>
    (intRange 1 (width - 1)).flatMap fun x =>
      horizontalWallClausesAt dflt width height x y

/-- Lines 246-265: the seven clauses of the vertical non-border wall at `(x, y)`. -/
def verticalWallClausesAt (dflt : Lit) (width height : Int) (x y : Int) : List Clause :=
  let wall := edge2lit dflt width height (Wall.mk ⟨x, y⟩ Orientation.V)
  let wallw := edge2lit dflt width height (Wall.mk ⟨x - 1, y⟩ Orientation.V)
  let walle := edge2lit dflt width height (Wall.mk ⟨x + 1, y⟩ Orientation.V)
  let noden_se := (node2lit dflt width height ⟨x - 1, y - 1⟩ Orientation2.NW).not
  let noden_sw := (node2lit dflt width height ⟨x - 1, y - 1⟩ Orientation2.NE).not
  let nodes_ne := node2lit dflt width height ⟨x - 1, y⟩ Orientation2.NE
  let nodes_nw := node2lit dflt width height ⟨x - 1, y⟩ Orientation2.NW
  [ [noden_se.not, noden_sw.not, nodes_ne.not, nodes_nw.not],
    [noden_se.not, nodes_ne.not, walle.not],
    [noden_sw.not, nodes_nw.not, wallw.not],
    [wall.not, noden_se, nodes_ne],
    [wall.not, noden_se, nodes_nw],
    [wall.not, noden_sw, nodes_ne],
    [wall.not, noden_sw, nodes_nw] ]

/-- Lines 241-267: "every vertical non-border wall". -/
def verticalWallClauses (dflt : Lit) (width height : Int) : List Clause :=
  (intRange 1 (height - 1)).flatMap fun y =>
    (intRange 1 (width - 1 + 1)).flatMap fun x =>
      verticalWallClausesAt dflt width height x y

/-- Lines 274-281: the four clauses of the non-border cell `(x, y)`. -/
def innerCellClausesAt (dflt : Lit) (width height : Int) (x y : Int) : List Clause :=
  let a := (node2lit dflt width height ⟨x, y⟩ Orientation2.NW).not
  let b := node2lit dflt width height ⟨x, y + 1⟩ Orientation2.NE
  let c := (node2lit dflt width height ⟨x + 1, y⟩ Orientation2.NE).not
  let d := node2lit dflt width height ⟨x + 1, y + 1⟩ Orientation2.NW
  [ [a.not, b.not, c.not],
    [a.not, b.not, d.not],
    [a.not, c.not, d.not],
    [b.not, c.not, d.not] ]

/-- Lines 269-283: "every non-border cell". -/
def innerCellClauses (dflt : Lit) (width height : Int) : List Clause :=
  (intRange 1 (height - 1)).flatMap fun y =>
    (intRange 1 (width - 1)).flatMap fun x =>
      innerCellClausesAt dflt width height x y

/-- Lines 288-299: "every field must appear on the path". -/
def fieldCoverClauses (dflt : Lit) (pathLength : Int) : List Clause :=
  (intRange 0 pathLength).map fun field =>
    (intRange 0 pathLength).map fun pos => fp2lit dflt pathLength field pos

/-- Lines 301-314: "every field must not appear twice on the path". -/
def fieldOnceClauses (dflt : Lit) (pathLength : Int) : List Clause :=
  (intRange 0 pathLength).flatMap fun field =>
    (intRange 0 pathLength).flatMap fun pos1 =>
      (intRange (pos1 + 1) pathLength).map fun pos2 =>
        [(fp2lit dflt pathLength field pos1).not, (fp2lit dflt pathLength field pos2).not]

/-- Lines 316-327: "some field must be the path's ith step". -/
def posCoverClauses (dflt : Lit) (pathLength : Int) : List Clause :=
  (intRange 0 pathLength).map fun pos =>
    (intRange 0 pathLength).map fun field => fp2lit dflt pathLength field pos

/-- Lines 329-342: "two fields must not be the path's ith step at the same time". -/
def posOnceClauses (dflt : Lit) (pathLength : Int) : List Clause :=
  (intRange 0 pathLength).flatMap fun pos =>
    (intRange 0 pathLength).flatMap fun field1 =>
      (intRange (field1 + 1) pathLength).map fun field2 =>
        [(fp2lit dflt pathLength field1 pos).not, (fp2lit dflt pathLength field2 pos).not]

/-- Lines 288-342: the four families of the Hamiltonian-path encoding. -/
def hamiltonClauses (dflt : Lit) (pathLength : Int) : List Clause :=
  fieldCoverClauses dflt pathLength ++ fieldOnceClauses dflt pathLength ++
  posCoverClauses dflt pathLength ++ posOnceClauses dflt pathLength

/-- Lines 347-353: the vector `neighbours` of the coordinate `c`. -/
def neighbours (width height : Int) (c : Coordinates) : List Coordinates :=
  (if c.x > 0 then [c.offset (-1) 0] else []) ++
  (if c.x + 1 < width then [c.offset 1 0] else []) ++
  (if c.y > 0 then [c.offset 0 (-1)] else []) ++
  (if c.y + 1 < height then [c.offset 0 1] else [])

/-- Lines 348-353: the set `nonNeighbours` of the coordinate `c`: a copy of
`allCoordinates` from which `c` and its existing neighbours are erased. -/
def nonNeighbours (width height : Int) (c : Coordinates) : List Coordinates :=
  let s0 := (allCoordinates width height).erase c
  let s1 := if c.x > 0 then s0.erase (c.offset (-1) 0) else s0
  let s2 := if c.x + 1 < width then s1.erase (c.offset 1 0) else s1
  let s3 := if c.y > 0 then s2.erase (c.offset 0 (-1)) else s2
  if c.y + 1 < height then s3.erase (c.offset 0 1) else s3

/-- Lines 344-376: "consecutive path positions only between neighbours". -/
def neighbourClauses (dflt : Lit) (width height : Int) : List Clause :=
  let pathLength := width * height
  (allCoordinates width height).flatMap fun c =>
    let field := c2f c width
    (intRange 0 (pathLength - 1)).flatMap fun p =>
      [ (fp2lit dflt pathLength field p).not ::
          (neighbours width height c).map fun n => fp2lit dflt pathLength (c2f n width) (p + 1),
        (fp2lit dflt pathLength field (p + 1)).not ::
          (neighbours width height c).map fun n => fp2lit dflt pathLength (c2f n width) p ] ++
      (nonNeighbours width height c).map fun n =>
        [(fp2lit dflt pathLength field p).not,
          (fp2lit dflt pathLength (c2f n width) (p + 1)).not]

/-- Lines 385-421: the clauses of coordinate `c` and position `p` among
"no consecutive path positions between fields separated by wall". -/
def wallBlockClausesAt (dflt : Lit) (width height : Int) (c : Coordinates) (p : Int) :
    List Clause :=
  let pathLength := width * height
  let field := c2f c width
  let lit1 := fp2lit dflt pathLength field p
  (if c.x > 0 then
    [[(w2lit dflt width height (Wall.mk c Orientation.V)).not, lit1.not,
      (fp2lit dflt pathLength (c2f (c.offset (-1) 0) width) (p + 1)).not]] else []) ++
  (if c.x + 1 < width then
    [[(w2lit dflt width height (Wall.mk (c.offset 1 0) Orientation.V)).not, lit1.not,
      (fp2lit dflt pathLength (c2f (c.offset 1 0) width) (p + 1)).not]] else []) ++
  (if c.y > 0 then
    [[(w2lit dflt width height (Wall.mk c Orientation.H)).not, lit1.not,
      (fp2lit dflt pathLength (c2f (c.offset 0 (-1)) width) (p + 1)).not]] else []) ++
  (if c.y + 1 < height then
    [[(w2lit dflt width height (Wall.mk (c.offset 0 1) Orientation.H)).not, lit1.not,
      (fp2lit dflt pathLength (c2f (c.offset 0 1) width) (p + 1)).not]] else [])

/-- Lines 378-423: the loop over `allCoordinates` and the positions `p` with
`p + 1 < pathLength`. -/
def wallBlockClauses (dflt : Lit) (width height : Int) : List Clause :=
  (allCoordinates width height).flatMap fun c =>
    (intRange 0 (width * height - 1)).flatMap fun p =>
      wallBlockClausesAt dflt width height c p

/-- Lines 425-436: "path must start/end at edge". -/
def entryExitClauses (dflt : Lit) (width height : Int) : List Clause :=
  let pathLength := width * height
  [ (getEdgeFields width height).map fun field => fp2lit dflt pathLength field 0,
    (getEdgeFields width height).map fun field =>
      fp2lit dflt pathLength field (pathLength - 1) ]

/-- Lines 438-450: "avoid symmetry -> enforce: entry < exit". -/
def symmetryClauses (dflt : Lit) (width height : Int) : List Clause :=
  let pathLength := width * height
  (getEdgeFields width height).flatMap fun field1 =>
    (getEdgeFields width height).flatMap fun field2 =>
      if field2 < field1 then
        [[(fp2lit dflt pathLength field1 0).not,
          (fp2lit dflt pathLength field2 (pathLength - 1)).not]]
      else []

/-- The two clauses `~litw | ~lit1`, `~litw | ~lit2` emitted for a border wall `w` next to
the field `field` (lines 456-472 and 477-493). -/
def borderPair (dflt : Lit) (width height : Int) (w : Wall) (field : Int) : List Clause :=
  let pathLength := width * height
  let litw := w2lit dflt width height w
  [ [litw.not, (fp2lit dflt pathLength field 0).not],
    [litw.not, (fp2lit dflt pathLength field (pathLength - 1)).not] ]

/-- Lines 452-494: "walls can block entry/exit fields", top/bottom and left/right edge. -/
def borderClauses (dflt : Lit) (width height : Int) : List Clause :=
  ((intRange 1 (width - 2)).flatMap fun x =>
    borderPair dflt width height (Wall.mk ⟨x, 0⟩ Orientation.H) (c2f ⟨x, 0⟩ width) ++
    borderPair dflt width height (Wall.mk ⟨x, height⟩ Orientation.H)
      (c2f ⟨x, height - 1⟩ width)) ++
  ((intRange 1 (height - 2)).flatMap fun y =>
    borderPair dflt width height (Wall.mk ⟨0, y⟩ Orientation.V) (c2f ⟨0, y⟩ width) ++
    borderPair dflt width height (Wall.mk ⟨width, y⟩ Orientation.V)
      (c2f ⟨width - 1, y⟩ width))

/-- The two clauses `~litw1 | ~litw2 | ~lit1`, `~litw1 | ~litw2 | ~lit2` of one corner
(lines 496-538). -/
def cornerPair (dflt : Lit) (width height : Int) (w1 w2 : Wall) (field : Int) : List Clause :=
  let pathLength := width * height
  let litw1 := w2lit dflt width height w1
  let litw2 := w2lit dflt width height w2
  [ [litw1.not, litw2.not, (fp2lit dflt pathLength field 0).not],
    [litw1.not, litw2.not, (fp2lit dflt pathLength field (pathLength - 1)).not] ]

/-- Lines 495-538: the four corners. -/
def cornerEntryClauses (dflt : Lit) (width height : Int) : List Clause :=
  cornerPair dflt width height (Wall.mk ⟨0, 0⟩ Orientation.V) (Wall.mk ⟨0, 0⟩ Orientation.H)
    (c2f ⟨0, 0⟩ width) ++
  cornerPair dflt width height (Wall.mk ⟨width, 0⟩ Orientation.V)
    (Wall.mk ⟨width - 1, 0⟩ Orientation.H) (c2f ⟨width - 1, 0⟩ width) ++
  cornerPair dflt width height (Wall.mk ⟨0, height - 1⟩ Orientation.V)
    (Wall.mk ⟨0, height⟩ Orientation.H) (c2f ⟨0, height - 1⟩ width) ++
  cornerPair dflt width height (Wall.mk ⟨width, height - 1⟩ Orientation.V)
    (Wall.mk ⟨width - 1, height⟩ Orientation.H) (c2f ⟨width - 1, height - 1⟩ width)

/-- Function `buildFormula` of `formula.cpp`: every clause passed to `addClause`, in
order. -/
def buildFormula (dflt : Lit) (width height : Int) : List Clause :=
  wallEdgeClauses dflt width height ++
  cellClauses dflt width height ++
  cornerClauses dflt width height ++
  nodeClauses dflt width height ++
  horizontalWallClauses dflt width height ++
  verticalWallClauses dflt width height ++
  innerCellClauses dflt width height ++
  hamiltonClauses dflt (width * height) ++
  neighbourClauses dflt width height ++
  wallBlockClauses dflt width height ++
  entryExitClauses dflt width height ++
  symmetryClauses dflt width height ++
  borderClauses dflt width height ++
  cornerEntryClauses dflt width height

/-! ## `generate` -/

/-- Modelled from the spec: the SAT adapter of §4.2 (`solve` under assumptions and
`modelValue`).  `solve k clauses assumptions` is the outcome of the `k`-th `solve` call
of a run when the solver holds `clauses`: `some model` for "satisfiable" (the model that
`modelValue` then reads), `none` for "unsatisfiable".  Letting the outcome depend on `k`
covers a solver whose answers depend on its internal state. -/
structure SatSolver where
  solve : Nat → List Clause → List Lit → Option Assignment

/-- The clauses are satisfiable together with the assumptions. -/
def Satisfiable (cs : List Clause) (assumptions : List Lit) : Prop :=
  ∃ σ : Assignment, Satisfies σ cs ∧ Holds σ assumptions

/-- Soundness of the solver: a returned model satisfies the clauses and the assumptions. -/
def SatSolver.Sound (S : SatSolver) : Prop :=
  ∀ k cs assumptions m, S.solve k cs assumptions = some m →
    Satisfies m cs ∧ Holds m assumptions

/-- Completeness of the solver on the clause list `cs`: "unsatisfiable" is only answered
when no assignment satisfies the clauses and the assumptions. -/
def SatSolver.CompleteOn (S : SatSolver) (cs : List Clause) : Prop :=
  ∀ k assumptions, S.solve k cs assumptions = none → ¬ Satisfiable cs assumptions

/-- Modelled from the spec: the `Board` of `board.h`, reduced to its dimensions and the
walls installed by `addWall`. -/
structure Board where
  width : Int
  height : Int
  walls : List Wall
deriving DecidableEq

/-- Modelled from the spec: `Board::addWall`, installing one more wall. -/
def Board.addWall (b : Board) (w : Wall) : Board :=
  { b with walls := b.walls ++ [w] }

/-- Modelled from the spec: the two cells that a wall lies between (§3): a V-wall at
`(x, y)` separates `(x-1, y)` and `(x, y)`, an H-wall at `(x, y)` separates `(x, y-1)` and
`(x, y)`. -/
def Wall.cells (w : Wall) : Coordinates × Coordinates :=
  match w.orientation with
  | Orientation.V => (w.pos.offset (-1) 0, w.pos)
  | Orientation.H => (w.pos.offset 0 (-1), w.pos)

/-- Modelled from the spec: a path-blocking wall (§4.5), "a wall whose installation would
sever two consecutive positions" of the path. -/
def pathBlocking (path : List Coordinates) (w : Wall) : Bool :=
  (path.zip path.tail).any fun step =>
    (step.1 = w.cells.1 && step.2 = w.cells.2) || (step.1 = w.cells.2 && step.2 = w.cells.1)

/-- Modelled from the spec: `Path::getNonblockingWalls`, the walls of the given list that
are not path-blocking (§4.5).  Which border walls are offered at all is left to the list
that is passed in. -/
def getNonblockingWalls (path : List Coordinates) (walls : List Wall) : List Wall :=
  walls.filter fun w => !pathBlocking path w

/-- Lines 38-48 of `generator.cpp`: the vector `edgeFields`, with `Board::index(x, y)`
modelled from the spec as `c2f`. -/
def generatorEdgeFields (w h : Int) : List Int :=
  ((intRange 0 w).flatMap fun x => [c2f ⟨x, 0⟩ w, c2f ⟨x, h - 1⟩ w]) ++
  ((intRange 1 (h - 1)).flatMap fun y => [c2f ⟨0, y⟩ w, c2f ⟨w - 1, y⟩ w])

/-- Lines 57-76: the assumptions of the initial `solve` call. -/
def initialAssumptions (dflt : Lit) (w h : Int) (possibleWalls : List Wall)
    (entryField exitField : Int) : List Lit :=
  [fp2lit dflt (w * h) entryField 0, fp2lit dflt (w * h) exitField (w * h - 1)] ++
  possibleWalls.map fun wall => (w2lit dflt w h wall).not

/-- Lines 55-79: the retry loops.  `rng i` is the `i`-th value drawn from the random
engine; a `uniform_int_distribution(0, n-1)` turns it into `rng i % n`.  Every pass of
the inner loop consumes one unit of `fuel`; `none` means the fuel ran out.  The result is
the model of the successful `solve` call, the number of values drawn and the number of
`solve` calls made. -/
def sampleLoop (S : SatSolver) (dflt : Lit) (w h : Int) (rng : Nat → Nat)
    (possibleWalls : List Wall) : Nat → Nat → Nat → Option (Assignment × Nat × Nat)
  | 0, _, _ => none
  | fuel + 1, draws, calls =>
    let edgeFields := generatorEdgeFields w h
    let entryField := edgeFields.getD (rng draws % edgeFields.length) 0
    let exitField := edgeFields.getD (rng (draws + 1) % edgeFields.length) 0
    if entryField < exitField then
      match S.solve calls (buildFormula dflt w h)
          (initialAssumptions dflt w h possibleWalls entryField exitField) with
      | some m => some (m, draws + 2, calls + 1)
      | none => sampleLoop S dflt w h rng possibleWalls fuel (draws + 2) (calls + 1)
    else sampleLoop S dflt w h rng possibleWalls fuel (draws + 2) calls

/-- Lines 83-96: the pairs `(field, pos)` at which the body of the `if` runs, in the
order of the two nested loops. -/
def pathHits (dflt : Lit) (pathLength : Int) (m : Assignment) : List (Int × Int) :=
  (intRange 0 pathLength).flatMap fun field =>
    (intRange 0 pathLength).flatMap fun pos =>
      if Lit.eval m (fp2lit dflt pathLength field pos) = true then [(field, pos)] else []

/-- Lines 92: the calls `path.set(pos, b.coord(field))` made by the extractor, in order,
with `Board::coord` modelled from the spec as `f2c`. -/
def pathSets (dflt : Lit) (w h : Int) (m : Assignment) : List (Int × Coordinates) :=
  (pathHits dflt (w * h) m).map fun hit => (hit.2, f2c hit.1 w)

/-- Modelled from the spec: `Path(pathLength)` followed by the given `set` calls; a
`Path` is the list of its `pathLength` coordinates. -/
def buildPath (pathLength : Int) (sets : List (Int × Coordinates)) : List Coordinates :=
  sets.foldl (fun path s => path.set s.1.toNat s.2)
    (List.replicate pathLength.toNat (Coordinates.mk 0 0))

/-- Lines 81-96: the `Path` filled by the extractor. -/
def extractPath (dflt : Lit) (w h : Int) (m : Assignment) : List Coordinates :=
  buildPath (w * h) (pathSets dflt w h m)

/-- Lines 82-97: the clause `pathClause` added to the solver. -/
def pathClause (dflt : Lit) (pathLength : Int) (m : Assignment) : Clause :=
  (pathHits dflt pathLength m).map fun hit => (fp2lit dflt pathLength hit.1 hit.2).not

/-- The state of the loop of lines 112-150: the vector `candidateWalls`, the vector
`essentialWalls`, the set `openWalls` (a duplicate-free list; the order in which a
`std::set` is traversed only permutes the assumptions), the number of values drawn from
the random engine and the number of `solve` calls made. -/
structure LoopState where
  candidateWalls : List Wall
  essentialWalls : List Wall
  openWalls : List Wall
  draws : Nat
  calls : Nat

/-- Lines 119-124: `candidateWalls` after `std::swap(candidateWalls[wallIndex],
candidateWalls.back())` (when `wallIndex` is not the last index) and `pop_back()`. -/
def swapPop (candidateWalls : List Wall) (wallIndex : Nat)
    (h : wallIndex < candidateWalls.length) : List Wall :=
  let wall := candidateWalls.get ⟨wallIndex, h⟩
  let back := candidateWalls.get ⟨candidateWalls.length - 1, by omega⟩
  let swapped :=
    if wallIndex + 1 ≠ candidateWalls.length then
      (candidateWalls.set wallIndex back).set (candidateWalls.length - 1) wall
    else candidateWalls
  swapped.dropLast

/-- Lines 126-138: the assumptions of the `solve` call of one pass. -/
def loopAssumptions (w2l : Wall → Lit) (wall : Wall)
    (candidateWalls essentialWalls openWalls : List Wall) : List Lit :=
  (w2l wall).not :: (candidateWalls.map w2l ++ essentialWalls.map w2l ++
    openWalls.map fun v => (w2l v).not)

/-- Lines 114-149: one pass of the wall-minimisation loop, entered with a non-empty
`candidateWalls`; the solver holds the clauses `cs`. -/
def minimizeStep (S : SatSolver) (cs : List Clause) (w2l : Wall → Lit) (rng : Nat → Nat)
    (st : LoopState) (h : st.candidateWalls ≠ []) : LoopState :=
  have hlen : 0 < st.candidateWalls.length := List.length_pos.mpr h
  let wallIndex := rng st.draws % st.candidateWalls.length
  have hidx : wallIndex < st.candidateWalls.length := Nat.mod_lt _ hlen
  let wall := st.candidateWalls.get ⟨wallIndex, hidx⟩
  let candidateWalls := swapPop st.candidateWalls wallIndex hidx
  let assumptions := loopAssumptions w2l wall candidateWalls st.essentialWalls st.openWalls
  match S.solve st.calls cs assumptions with
  | some _ =>
    { candidateWalls := candidateWalls
      essentialWalls := st.essentialWalls ++ [wall]
      openWalls := st.openWalls
      draws := st.draws + 1
      calls := st.calls + 1 }
  | none =>
    { candidateWalls := candidateWalls
      essentialWalls := st.essentialWalls
      openWalls := st.openWalls.insert wall
      draws := st.draws + 1
      calls := st.calls + 1 }

/-- Lines 112-150: `while (!candidateWalls.empty())`, with at most `fuel` passes; `none`
means the fuel ran out before the candidate list was empty. -/
def minimizeLoop (S : SatSolver) (cs : List Clause) (w2l : Wall → Lit) (rng : Nat → Nat) :
    Nat → LoopState → Option LoopState
  | fuel, st =>
    if h : st.candidateWalls = [] then some st
    else
      match fuel with
      | 0 => none
      | n + 1 => minimizeLoop S cs w2l rng n (minimizeStep S cs w2l rng st h)

/-- Lines 116-138: the vector `assumptions` that the pass entered in the state `st` hands
to `solve`. -/
def stepAssumptions (w2l : Wall → Lit) (rng : Nat → Nat) (st : LoopState)
    (h : st.candidateWalls ≠ []) : List Lit :=
  have hlen : 0 < st.candidateWalls.length := List.length_pos.mpr h
  let wallIndex := rng st.draws % st.candidateWalls.length
  have hidx : wallIndex < st.candidateWalls.length := Nat.mod_lt _ hlen
  let wall := st.candidateWalls.get ⟨wallIndex, hidx⟩
  let candidateWalls := swapPop st.candidateWalls wallIndex hidx
  loopAssumptions w2l wall candidateWalls st.essentialWalls st.openWalls

/-- Lines 112-150: the state of the loop after `k` passes, or the state in which the loop
ended if it ended earlier. -/
def loopAfter (S : SatSolver) (cs : List Clause) (w2l : Wall → Lit) (rng : Nat → Nat) :
    Nat → LoopState → LoopState
  | 0, st => st
  | k + 1, st =>
    if h : st.candidateWalls = [] then st
    else loopAfter S cs w2l rng k (minimizeStep S cs w2l rng st h)

/-- Lines 99-111: the state in which the loop is entered.  `possibleWalls` and
`openWalls0` are what `Board::getPossibleWalls` and `Board::getOpenWalls` return on the
fresh board. -/
def initialLoopState (path : List Coordinates) (possibleWalls openWalls0 : List Wall)
    (draws calls : Nat) : LoopState :=
  let openWalls := openWalls0.foldl (fun s v => s.insert v) []
  let candidateWalls := getNonblockingWalls path possibleWalls
  { candidateWalls := candidateWalls
    essentialWalls := []
    openWalls := candidateWalls.foldl (fun s v => s.erase v) openWalls
    draws := draws
    calls := calls }

/-- What a run of `generate` computes on the way to its board: the model of the initial
`solve` call, the extracted path, the blocking clause and the final state of the loop. -/
structure Run where
  model : Assignment
  path : List Coordinates
  blocking : Clause
  final : LoopState

/-- Lines 28-150 of `generator.cpp`, with `Board::encode` modelled from the spec as
`buildFormula`.  `fuel` bounds the number of passes of each loop. -/
def generateRun (S : SatSolver) (dflt : Lit) (rng : Nat → Nat)
    (possibleWalls openWalls0 : List Wall) (fuel : Nat) (w h : Int) : Option Run :=
  match sampleLoop S dflt w h rng possibleWalls fuel 0 0 with
  | none => none
  | some (m, draws, calls) =>
    let path := extractPath dflt w h m
    let blocking := pathClause dflt (w * h) m
    match minimizeLoop S (buildFormula dflt w h ++ [blocking]) (w2lit dflt w h) rng fuel
        (initialLoopState path possibleWalls openWalls0 draws calls) with
    | none => none
    | some final => some ⟨m, path, blocking, final⟩

/-- Function `generate` of `generator.cpp`: the board with the essential walls installed. -/
def generate (S : SatSolver) (dflt : Lit) (rng : Nat → Nat)
    (possibleWalls openWalls0 : List Wall) (fuel : Nat) (w h : Int) : Option Board :=
  (generateRun S dflt rng possibleWalls openWalls0 fuel w h).map fun r =>
    r.final.essentialWalls.foldl Board.addWall ⟨w, h, []⟩

/-- The assumptions that describe a wall set exactly: `wall(v)` for the walls of
`installed` and `¬wall(v)` for every other wall of the grid. -/
def boardAssumptions (dflt : Lit) (w h : Int) (installed : List Wall) : List Lit :=
  installed.map (w2lit dflt w h) ++
  ((allWalls w h).filter fun v => v ∉ installed).map fun v => (w2lit dflt w h v).not

/-- The `F[f, p]` values of an assignment form a bijection between the cells and the path
positions `[0, pathLength)`: every cell has exactly one position and every position has
exactly one cell. -/
def PathBijection (pathLength : Int) (σ : Assignment) : Prop :=
  (∀ f, 0 ≤ f → f < pathLength →
    (∃ p, 0 ≤ p ∧ p < pathLength ∧ σ (Var.fp f p) = true) ∧
    (∀ p1 p2, 0 ≤ p1 → p1 < pathLength → 0 ≤ p2 → p2 < pathLength →
      σ (Var.fp f p1) = true → σ (Var.fp f p2) = true → p1 = p2)) ∧
  (∀ p, 0 ≤ p → p < pathLength →
    (∃ f, 0 ≤ f ∧ f < pathLength ∧ σ (Var.fp f p) = true) ∧
    (∀ f1 f2, 0 ≤ f1 → f1 < pathLength → 0 ≤ f2 → f2 < pathLength →
      σ (Var.fp f1 p) = true → σ (Var.fp f2 p) = true → f1 = f2))

/-- The cell lies on the boundary of the grid (first or last column or row). -/
def edgeCell (width height : Int) (c : Coordinates) : Prop :=
  c.x = 0 ∨ c.x = width - 1 ∨ c.y = 0 ∨ c.y = height - 1

/-- Two cells are cardinal neighbours: they differ by exactly 1 in exactly one coordinate. -/
def adjacent (c n : Coordinates) : Prop :=
  (n.y = c.y ∧ (n.x = c.x + 1 ∨ n.x = c.x - 1)) ∨
  (n.x = c.x ∧ (n.y = c.y + 1 ∨ n.y = c.y - 1))

/-- The four directions of the table in the comment of `enum class Orientation2`. -/
inductive Direction where
  | N
  | E
  | S
  | W
deriving DecidableEq, Repr

/-- The table in the comment of `enum class Orientation2` (lines 90-98): the direction
encoded by the two bits `NW`, `NE` of a node (`00 → S`, `01 → E`, `10 → W`, `11 → N`). -/
def direction (nw ne : Bool) : Direction :=
  match nw, ne with
  | false, false => Direction.S
  | false, true => Direction.E
  | true, false => Direction.W
  | true, true => Direction.N

/-- Lines 195-198: the wall segments that the node block looks up for the node `nc` as
`walln`, `walle`, `walls` and `wallw`. -/
def nodeSegment (nc : Coordinates) : Direction → Wall
  | Direction.N => Wall.mk (nc.offset 1 0) Orientation.V
  | Direction.E => Wall.mk (nc.offset 1 1) Orientation.H
  | Direction.S => Wall.mk (nc.offset 1 1) Orientation.V
  | Direction.W => Wall.mk (nc.offset 0 1) Orientation.H

/-- The direction that an assignment encodes at the node `nc`: the table applied to the
values of the literals `node2lit[{nc, NW}]` and `node2lit[{nc, NE}]` (lines 191-192). -/
def nodeDirection (dflt : Lit) (width height : Int) (σ : Assignment) (nc : Coordinates) :
    Direction :=
  direction (Lit.eval σ (node2lit dflt width height nc Orientation2.NW))
    (Lit.eval σ (node2lit dflt width height nc Orientation2.NE))

/-- Lines 274-277: the four literals `a`, `b`, `c`, `d` of the non-border cell `(x, y)`. -/
def innerCellLits (dflt : Lit) (width height : Int) (x y : Int) : List Lit :=
  [ (node2lit dflt width height ⟨x, y⟩ Orientation2.NW).not,
    node2lit dflt width height ⟨x, y + 1⟩ Orientation2.NE,
    (node2lit dflt width height ⟨x + 1, y⟩ Orientation2.NE).not,
    node2lit dflt width height ⟨x + 1, y + 1⟩ Orientation2.NW ]

/-- The number of literals of the list that are true under the assignment. -/
def trueCount (σ : Assignment) (ls : List Lit) : Nat :=
  ls.countP (Lit.eval σ)

/-- The three wall lists of a loop state are duplicate-free and pairwise disjoint, and
together they hold exactly the walls of `cand0` and `open0`. -/
def Partitioned (cand0 open0 : List Wall) (st : LoopState) : Prop :=
  (st.candidateWalls.Nodup ∧ st.essentialWalls.Nodup ∧ st.openWalls.Nodup) ∧
  ((∀ v ∈ st.candidateWalls, v ∉ st.essentialWalls) ∧
    (∀ v ∈ st.candidateWalls, v ∉ st.openWalls) ∧
    (∀ v ∈ st.essentialWalls, v ∉ st.openWalls)) ∧
  ∀ v, v ∈ st.candidateWalls ∨ v ∈ st.essentialWalls ∨ v ∈ st.openWalls ↔
    v ∈ cand0 ∨ v ∈ open0

/-- The assumption list mentions each wall of `cand0` and `open0` exactly once and nothing
else: its variables are pairwise different, they are exactly the wall variables of these
walls, and no literal occurs together with its negation. -/
def MentionsOnce (cand0 open0 : List Wall) (assumptions : List Lit) : Prop :=
  (assumptions.map Lit.var).Nodup ∧
  (∀ x : Var, x ∈ assumptions.map Lit.var ↔
    ∃ v : Wall, (v ∈ cand0 ∨ v ∈ open0) ∧ x = Var.wall v) ∧
  ∀ l ∈ assumptions, l.not ∉ assumptions

/-- The clause set of `buildFormula` without the four "away from a corner" clauses of
every node (lines 207-210 dropped from the loop of lines 189-211): the formula that the
redundancy property compares `buildFormula` with. -/
def buildFormulaWithoutAway (dflt : Lit) (width height : Int) : List Clause :=
  wallEdgeClauses dflt width height ++
  cellClauses dflt width height ++
  cornerClauses dflt width height ++
  ((allCoordinates width height).flatMap fun nc => nodeAlongClauses dflt width height nc) ++
  horizontalWallClauses dflt width height ++
  verticalWallClauses dflt width height ++
  innerCellClauses dflt width height ++
  hamiltonClauses dflt (width * height) ++
  neighbourClauses dflt width height ++
  wallBlockClauses dflt width height ++
  entryExitClauses dflt width height ++
  symmetryClauses dflt width height ++
  borderClauses dflt width height ++
  cornerEntryClauses dflt width height

/-! ## Concrete data for the examples -/

/-- The value-initialised `Minisat::Lit` (`x = 0`): the positive literal of the first
variable handed out by `newVar()`, which `buildFormula` stores as `fp2lit[{0, 0}]`. -/
def minisatDefault : Lit := mkLit (Var.fp 0 0)

/-- The assignment that makes exactly the listed variables true. -/
def assignmentOf (trueVars : List Var) : Assignment := fun v => decide (v ∈ trueVars)

/-- A model of `buildFormula 2 1`: the path `0, 1`, no wall. -/
def model21 : Assignment :=
  assignmentOf [Var.fp 0 0, Var.fp 1 1,
    Var.edge ⟨⟨0, 0⟩, Orientation.V⟩, Var.edge ⟨⟨1, 0⟩, Orientation.V⟩,
    Var.edge ⟨⟨2, 0⟩, Orientation.V⟩,
    Var.node ⟨0, 0⟩ Orientation2.NW, Var.node ⟨0, 0⟩ Orientation2.NE,
    Var.node ⟨1, 0⟩ Orientation2.NW, Var.node ⟨1, 0⟩ Orientation2.NE]

/-- A model of `buildFormula 2 2`: the path `0, 1, 3, 2`, no wall. -/
def model22 : Assignment :=
  assignmentOf [Var.fp 0 0, Var.fp 1 1, Var.fp 2 3, Var.fp 3 2,
    Var.edge ⟨⟨0, 0⟩, Orientation.V⟩, Var.edge ⟨⟨1, 0⟩, Orientation.V⟩,
    Var.edge ⟨⟨2, 0⟩, Orientation.V⟩, Var.edge ⟨⟨0, 1⟩, Orientation.V⟩,
    Var.edge ⟨⟨1, 1⟩, Orientation.V⟩, Var.edge ⟨⟨2, 1⟩, Orientation.V⟩,
    Var.node ⟨0, 0⟩ Orientation2.NW, Var.node ⟨0, 0⟩ Orientation2.NE,
    Var.node ⟨0, 1⟩ Orientation2.NW, Var.node ⟨0, 1⟩ Orientation2.NE,
    Var.node ⟨1, 0⟩ Orientation2.NW, Var.node ⟨1, 0⟩ Orientation2.NE,
    Var.node ⟨1, 1⟩ Orientation2.NW, Var.node ⟨1, 1⟩ Orientation2.NE]

/-- A model of `buildFormula 2 2`: the path `0, 2, 3, 1`, no wall. -/
def model22b : Assignment :=
  assignmentOf [Var.fp 0 0, Var.fp 1 3, Var.fp 2 1, Var.fp 3 2,
    Var.edge ⟨⟨0, 0⟩, Orientation.V⟩, Var.edge ⟨⟨1, 0⟩, Orientation.V⟩,
    Var.edge ⟨⟨2, 0⟩, Orientation.V⟩, Var.edge ⟨⟨0, 1⟩, Orientation.V⟩,
    Var.edge ⟨⟨1, 1⟩, Orientation.V⟩, Var.edge ⟨⟨2, 1⟩, Orientation.V⟩,
    Var.node ⟨0, 0⟩ Orientation2.NW, Var.node ⟨0, 0⟩ Orientation2.NE,
    Var.node ⟨0, 1⟩ Orientation2.NW, Var.node ⟨0, 1⟩ Orientation2.NE,
    Var.node ⟨1, 0⟩ Orientation2.NW, Var.node ⟨1, 0⟩ Orientation2.NE,
    Var.node ⟨1, 1⟩ Orientation2.NW, Var.node ⟨1, 1⟩ Orientation2.NE]

/-- A model of `buildFormula 2 2`: the path `0, 1, 3, 2` with the wall between the cells
`0` and `2` installed. -/
def model22w : Assignment :=
  assignmentOf [Var.fp 0 0, Var.fp 1 1, Var.fp 2 3, Var.fp 3 2,
    Var.edge ⟨⟨0, 0⟩, Orientation.V⟩, Var.edge ⟨⟨2, 0⟩, Orientation.V⟩,
    Var.edge ⟨⟨0, 1⟩, Orientation.V⟩, Var.edge ⟨⟨2, 1⟩, Orientation.V⟩,
    Var.edge ⟨⟨1, 0⟩, Orientation.H⟩, Var.wall ⟨⟨0, 1⟩, Orientation.H⟩,
    Var.edge ⟨⟨0, 1⟩, Orientation.H⟩, Var.edge ⟨⟨1, 2⟩, Orientation.H⟩,
    Var.node ⟨0, 0⟩ Orientation2.NW, Var.node ⟨0, 1⟩ Orientation2.NE,
    Var.node ⟨1, 0⟩ Orientation2.NW, Var.node ⟨1, 0⟩ Orientation2.NE,
    Var.node ⟨1, 1⟩ Orientation2.NW, Var.node ⟨1, 1⟩ Orientation2.NE]

/-- A model of `buildFormula 3 2` in which the border wall above the cell `1` is
installed and the path `1, 0, 3, 4, 5, 2` enters at the cell `1`. -/
def model32w : Assignment :=
  assignmentOf [Var.fp 0 1, Var.fp 1 0, Var.fp 2 5, Var.fp 3 2, Var.fp 4 3, Var.fp 5 4,
    Var.edge ⟨⟨0, 0⟩, Orientation.V⟩, Var.edge ⟨⟨1, 0⟩, Orientation.V⟩,
    Var.edge ⟨⟨3, 0⟩, Orientation.V⟩, Var.edge ⟨⟨0, 1⟩, Orientation.V⟩,
    Var.edge ⟨⟨1, 1⟩, Orientation.V⟩, Var.edge ⟨⟨2, 1⟩, Orientation.V⟩,
    Var.edge ⟨⟨3, 1⟩, Orientation.V⟩, Var.wall ⟨⟨1, 0⟩, Orientation.H⟩,
    Var.edge ⟨⟨1, 0⟩, Orientation.H⟩, Var.edge ⟨⟨2, 0⟩, Orientation.H⟩,
    Var.node ⟨0, 0⟩ Orientation2.NW, Var.node ⟨0, 0⟩ Orientation2.NE,
    Var.node ⟨0, 1⟩ Orientation2.NW, Var.node ⟨0, 1⟩ Orientation2.NE,
    Var.node ⟨1, 1⟩ Orientation2.NW, Var.node ⟨1, 1⟩ Orientation2.NE,
    Var.node ⟨2, 0⟩ Orientation2.NW, Var.node ⟨2, 0⟩ Orientation2.NE,
    Var.node ⟨2, 1⟩ Orientation2.NW, Var.node ⟨2, 1⟩ Orientation2.NE]

/-- A model of `buildFormula 3 3`: the path `0, 3, 6, 7, 8, 5, 4, 1, 2` with the V-wall at
`(1, 1)` and the H-wall at `(1, 2)` installed. -/
def model33w : Assignment :=
  assignmentOf [Var.fp 0 0, Var.fp 1 7, Var.fp 2 8, Var.fp 3 1, Var.fp 4 6, Var.fp 5 5,
    Var.fp 6 2, Var.fp 7 3, Var.fp 8 4,
    Var.edge ⟨⟨0, 0⟩, Orientation.V⟩, Var.edge ⟨⟨1, 0⟩, Orientation.V⟩,
    Var.edge ⟨⟨2, 0⟩, Orientation.V⟩, Var.edge ⟨⟨3, 0⟩, Orientation.V⟩,
    Var.edge ⟨⟨0, 1⟩, Orientation.V⟩, Var.wall ⟨⟨1, 1⟩, Orientation.V⟩,
    Var.edge ⟨⟨1, 1⟩, Orientation.V⟩, Var.edge ⟨⟨3, 1⟩, Orientation.V⟩,
    Var.edge ⟨⟨0, 2⟩, Orientation.V⟩, Var.edge ⟨⟨1, 2⟩, Orientation.V⟩,
    Var.edge ⟨⟨3, 2⟩, Orientation.V⟩, Var.wall ⟨⟨1, 2⟩, Orientation.H⟩,
    Var.edge ⟨⟨1, 2⟩, Orientation.H⟩, Var.edge ⟨⟨2, 2⟩, Orientation.H⟩,
    Var.node ⟨0, 0⟩ Orientation2.NW, Var.node ⟨0, 0⟩ Orientation2.NE,
    Var.node ⟨0, 1⟩ Orientation2.NW, Var.node ⟨0, 1⟩ Orientation2.NE,
    Var.node ⟨0, 2⟩ Orientation2.NW, Var.node ⟨0, 2⟩ Orientation2.NE,
    Var.node ⟨1, 0⟩ Orientation2.NW, Var.node ⟨1, 0⟩ Orientation2.NE,
    Var.node ⟨1, 1⟩ Orientation2.NW,
    Var.node ⟨2, 0⟩ Orientation2.NW, Var.node ⟨2, 0⟩ Orientation2.NE,
    Var.node ⟨2, 1⟩ Orientation2.NW, Var.node ⟨2, 1⟩ Orientation2.NE,
    Var.node ⟨2, 2⟩ Orientation2.NW, Var.node ⟨2, 2⟩ Orientation2.NE]

/-- An assignment for the 3×3 grid in which exactly three of the four literals of the
centre cell are true: `¬NW(1,1)`, `NE(1,2)` and `¬NE(2,1)`, but not `NW(2,2)`. -/
def threeInward : Assignment :=
  assignmentOf [Var.node ⟨1, 2⟩ Orientation2.NE]

/-- A model of `buildFormula 2 2`: the path `0, 1, 3, 2`, no wall, in which the node
`(1, 0)` of the last column has the bits `NW = 0`, `NE = 1`. -/
def model22e : Assignment :=
  assignmentOf [Var.fp 0 0, Var.fp 1 1, Var.fp 2 3, Var.fp 3 2,
    Var.edge ⟨⟨0, 0⟩, Orientation.V⟩, Var.edge ⟨⟨1, 0⟩, Orientation.V⟩,
    Var.edge ⟨⟨2, 0⟩, Orientation.V⟩, Var.edge ⟨⟨0, 1⟩, Orientation.V⟩,
    Var.edge ⟨⟨1, 1⟩, Orientation.V⟩, Var.edge ⟨⟨2, 1⟩, Orientation.V⟩,
    Var.node ⟨0, 0⟩ Orientation2.NW, Var.node ⟨0, 0⟩ Orientation2.NE,
    Var.node ⟨0, 1⟩ Orientation2.NW, Var.node ⟨0, 1⟩ Orientation2.NE,
    Var.node ⟨1, 0⟩ Orientation2.NE,
    Var.node ⟨1, 1⟩ Orientation2.NW, Var.node ⟨1, 1⟩ Orientation2.NE]

/-- The literal is not a positive wall literal: if its variable is a `wall(v)`, it is
negated. -/
def Lit.wallNeg (l : Lit) : Prop :=
  ∀ v : Wall, l.var = Var.wall v → l.sign = true

/-- Every occurrence of a wall literal in the clauses is negated. -/
def WallNegative (cs : List Clause) : Prop :=
  ∀ c ∈ cs, ∀ l ∈ c, Lit.wallNeg l

/-- Some assignment satisfies the clauses and installs, among the walls of the grid,
exactly the walls selected by `installed`. -/
def SatisfiableWith (cs : List Clause) (w h : Int) (installed : Wall → Prop) : Prop :=
  ∃ σ : Assignment, Satisfies σ cs ∧
    ∀ v ∈ allWalls w h, (σ (Var.wall v) = true ↔ installed v)

/-- The assignment `σ` with the wall variables restricted to the walls selected by `keep`. -/
def restrictWalls (σ : Assignment) (keep : Wall → Bool) : Assignment
  | Var.wall v => keep v && σ (Var.wall v)
  | x => σ x

/-- The second invariant of the loop: the candidate and essential walls are walls of the
grid, and for every essential wall `u` the clauses are satisfiable with the candidate and
essential walls other than `u` installed (and no other wall). -/
def EssentialInv (cs : List Clause) (w h : Int) (st : LoopState) : Prop :=
  (∀ v, v ∈ st.candidateWalls ∨ v ∈ st.essentialWalls → v ∈ allWalls w h) ∧
  ∀ u ∈ st.essentialWalls,
    SatisfiableWith cs w h
      (fun v => v ≠ u ∧ (v ∈ st.candidateWalls ∨ v ∈ st.essentialWalls))

/-- A solver for the examples: it tries the listed assignments in order and answers with
the first one that satisfies the clauses and the assumptions. -/
def tryingSolver (candidates : List Assignment) : SatSolver :=
  ⟨fun _ cs assumptions =>
    candidates.find? fun m => satisfiesB m cs && assumptions.all (Lit.eval m)⟩

/-- The interior walls of the 2×2 grid. -/
def interiorWalls22 : List Wall :=
  [⟨⟨1, 0⟩, Orientation.V⟩, ⟨⟨1, 1⟩, Orientation.V⟩, ⟨⟨0, 1⟩, Orientation.H⟩,
    ⟨⟨1, 1⟩, Orientation.H⟩]

/-- The walls that the second pass of the minimisation starts from as open: every wall of
the grid that is not installed. -/
def otherWalls (w h : Int) (installed : List Wall) : List Wall :=
  (allWalls w h).filter fun v => v ∉ installed

theorem mem_intRange {lo hi x : Int} : x ∈ intRange lo hi ↔ lo ≤ x ∧ x < hi := by
  unfold intRange
  simp only [List.mem_map, List.mem_range]
  constructor
  · rintro ⟨i, hi', rfl⟩
    omega
  · rintro ⟨h1, h2⟩
    refine ⟨(x - lo).toNat, ?_, ?_⟩ <;> omega

theorem mem_allCoordinates {width height : Int} {c : Coordinates} :
    c ∈ allCoordinates width height ↔ 0 ≤ c.x ∧ c.x < width ∧ 0 ≤ c.y ∧ c.y < height := by
  unfold allCoordinates
  simp only [List.mem_flatMap, List.mem_map, mem_intRange]
  constructor
  · rintro ⟨x, hx, y, hy, rfl⟩
    exact ⟨hx.1, hx.2, hy.1, hy.2⟩
  · rintro ⟨h1, h2, h3, h4⟩
    exact ⟨c.x, ⟨h1, h2⟩, c.y, ⟨h3, h4⟩, rfl⟩

theorem mem_allWalls {width height : Int} {w : Wall} :
    w ∈ allWalls width height ↔
      (w.orientation = Orientation.V ∧ 0 ≤ w.pos.x ∧ w.pos.x ≤ width ∧
        0 ≤ w.pos.y ∧ w.pos.y < height) ∨
      (w.orientation = Orientation.H ∧ 0 ≤ w.pos.x ∧ w.pos.x < width ∧
        0 ≤ w.pos.y ∧ w.pos.y ≤ height) := by
  unfold allWalls
  simp only [List.mem_append, List.mem_flatMap, List.mem_map, mem_intRange]
  constructor
  · rintro (⟨y, hy, x, hx, rfl⟩ | ⟨y, hy, x, hx, rfl⟩)
    · left; simp; omega
    · right; simp; omega
  · rintro (⟨ho, h1, h2, h3, h4⟩ | ⟨ho, h1, h2, h3, h4⟩)
    · left
      refine ⟨w.pos.y, ⟨h3, h4⟩, w.pos.x, ⟨h1, by omega⟩, ?_⟩
      cases w; simp_all
    · right
      refine ⟨w.pos.y, ⟨h3, by omega⟩, w.pos.x, ⟨h1, h2⟩, ?_⟩
      cases w; simp_all

@[simp] theorem eval_mkLit (σ : Assignment) (v : Var) : Lit.eval σ (mkLit v) = σ v := by
  simp [Lit.eval, mkLit]

@[simp] theorem eval_not (σ : Assignment) (l : Lit) : Lit.eval σ l.not = !Lit.eval σ l := by
  cases l with
  | mk v s => cases s <;> simp [Lit.eval, Lit.not]

theorem clause_eval_iff (σ : Assignment) (c : Clause) :
    Clause.eval σ c = true ↔ ∃ l ∈ c, Lit.eval σ l = true := by
  simp [Clause.eval, List.any_eq_true]

theorem satisfies_append (σ : Assignment) (a b : List Clause) :
    Satisfies σ (a ++ b) ↔ Satisfies σ a ∧ Satisfies σ b := by
  simp only [Satisfies, List.mem_append]
  constructor
  · intro h
    exact ⟨fun c hc => h c (Or.inl hc), fun c hc => h c (Or.inr hc)⟩
  · rintro ⟨h1, h2⟩ c (hc | hc)
    · exact h1 c hc
    · exact h2 c hc

theorem satisfies_of_subset {σ : Assignment} {a b : List Clause}
    (hsub : ∀ c ∈ a, c ∈ b) (h : Satisfies σ b) : Satisfies σ a :=
  fun c hc => h c (hsub c hc)

theorem satisfiesB_iff (σ : Assignment) (cs : List Clause) :
    satisfiesB σ cs = true ↔ Satisfies σ cs := by
  simp [satisfiesB, Satisfies, List.all_eq_true]

theorem fp2lit_inRange (dflt : Lit) {pathLength field pathpos : Int}
    (hf : 0 ≤ field ∧ field < pathLength) (hp : 0 ≤ pathpos ∧ pathpos < pathLength) :
    fp2lit dflt pathLength field pathpos = mkLit (Var.fp field pathpos) := by
  unfold fp2lit
  rw [if_pos ⟨hf.1, hf.2, hp.1, hp.2⟩]

theorem w2lit_mem (dflt : Lit) {width height : Int} {w : Wall}
    (h : w ∈ allWalls width height) : w2lit dflt width height w = mkLit (Var.wall w) := by
  unfold w2lit
  rw [if_pos h]

theorem edge2lit_mem (dflt : Lit) {width height : Int} {w : Wall}
    (h : w ∈ allWalls width height) : edge2lit dflt width height w = mkLit (Var.edge w) := by
  unfold edge2lit
  rw [if_pos h]

/-! ## The blocks of `buildFormula` are part of the formula -/

theorem hamilton_sub (dflt : Lit) (width height : Int) :
    ∀ c ∈ hamiltonClauses dflt (width * height), c ∈ buildFormula dflt width height := by
  intro c hc
  simp only [buildFormula, List.mem_append]
  tauto

theorem cell_sub (dflt : Lit) (width height : Int) :
    ∀ c ∈ cellClauses dflt width height, c ∈ buildFormula dflt width height := by
  intro c hc
  simp only [buildFormula, List.mem_append]
  tauto

theorem neighbour_sub (dflt : Lit) (width height : Int) :
    ∀ c ∈ neighbourClauses dflt width height, c ∈ buildFormula dflt width height := by
  intro c hc
  simp only [buildFormula, List.mem_append]
  tauto

theorem wallBlock_sub (dflt : Lit) (width height : Int) :
    ∀ c ∈ wallBlockClauses dflt width height, c ∈ buildFormula dflt width height := by
  intro c hc
  simp only [buildFormula, List.mem_append]
  tauto

theorem entryExit_sub (dflt : Lit) (width height : Int) :
    ∀ c ∈ entryExitClauses dflt width height, c ∈ buildFormula dflt width height := by
  intro c hc
  simp only [buildFormula, List.mem_append]
  tauto

theorem symmetry_sub (dflt : Lit) (width height : Int) :
    ∀ c ∈ symmetryClauses dflt width height, c ∈ buildFormula dflt width height := by
  intro c hc
  simp only [buildFormula, List.mem_append]
  tauto

/-! ## The Hamiltonian-path clauses -/

theorem fieldCover_iff (dflt : Lit) (L : Int) (σ : Assignment) :
    Satisfies σ (fieldCoverClauses dflt L) ↔
      ∀ f, 0 ≤ f → f < L → ∃ p, 0 ≤ p ∧ p < L ∧ σ (Var.fp f p) = true := by
  unfold Satisfies fieldCoverClauses
  constructor
  · intro h f hf0 hfL
    have := h _ (List.mem_map.mpr ⟨f, mem_intRange.mpr ⟨hf0, hfL⟩, rfl⟩)
    rw [clause_eval_iff] at this
    obtain ⟨l, hl, hev⟩ := this
    obtain ⟨p, hp, rfl⟩ := List.mem_map.mp hl
    rw [mem_intRange] at hp
    rw [fp2lit_inRange dflt ⟨hf0, hfL⟩ hp, eval_mkLit] at hev
    exact ⟨p, hp.1, hp.2, hev⟩
  · intro h c hc
    obtain ⟨f, hf, rfl⟩ := List.mem_map.mp hc
    rw [mem_intRange] at hf
    obtain ⟨p, hp0, hpL, hev⟩ := h f hf.1 hf.2
    rw [clause_eval_iff]
    refine ⟨_, List.mem_map.mpr ⟨p, mem_intRange.mpr ⟨hp0, hpL⟩, rfl⟩, ?_⟩
    rw [fp2lit_inRange dflt hf ⟨hp0, hpL⟩, eval_mkLit]
    exact hev

theorem posCover_iff (dflt : Lit) (L : Int) (σ : Assignment) :
    Satisfies σ (posCoverClauses dflt L) ↔
      ∀ p, 0 ≤ p → p < L → ∃ f, 0 ≤ f ∧ f < L ∧ σ (Var.fp f p) = true := by
  unfold Satisfies posCoverClauses
  constructor
  · intro h p hp0 hpL
    have := h _ (List.mem_map.mpr ⟨p, mem_intRange.mpr ⟨hp0, hpL⟩, rfl⟩)
    rw [clause_eval_iff] at this
    obtain ⟨l, hl, hev⟩ := this
    obtain ⟨f, hf, rfl⟩ := List.mem_map.mp hl
    rw [mem_intRange] at hf
    rw [fp2lit_inRange dflt hf ⟨hp0, hpL⟩, eval_mkLit] at hev
    exact ⟨f, hf.1, hf.2, hev⟩
  · intro h c hc
    obtain ⟨p, hp, rfl⟩ := List.mem_map.mp hc
    rw [mem_intRange] at hp
    obtain ⟨f, hf0, hfL, hev⟩ := h p hp.1 hp.2
    rw [clause_eval_iff]
    refine ⟨_, List.mem_map.mpr ⟨f, mem_intRange.mpr ⟨hf0, hfL⟩, rfl⟩, ?_⟩
    rw [fp2lit_inRange dflt ⟨hf0, hfL⟩ hp, eval_mkLit]
    exact hev

theorem pair_clause_eval (σ : Assignment) (v1 v2 : Var) :
    Clause.eval σ [(mkLit v1).not, (mkLit v2).not] = true ↔
      ¬ (σ v1 = true ∧ σ v2 = true) := by
  simp only [Clause.eval, List.any_cons, List.any_nil, eval_not, eval_mkLit]
  cases σ v1 <;> cases σ v2 <;> simp

theorem fieldOnce_iff (dflt : Lit) (L : Int) (σ : Assignment) :
    Satisfies σ (fieldOnceClauses dflt L) ↔
      ∀ f, 0 ≤ f → f < L → ∀ p1 p2, 0 ≤ p1 → p1 < L → 0 ≤ p2 → p2 < L →
        σ (Var.fp f p1) = true → σ (Var.fp f p2) = true → p1 = p2 := by
  unfold Satisfies fieldOnceClauses
  constructor
  · intro h f hf0 hfL
    have key : ∀ p1 p2, 0 ≤ p1 → p1 < p2 → p2 < L →
        ¬ (σ (Var.fp f p1) = true ∧ σ (Var.fp f p2) = true) := by
      intro p1 p2 h1 h12 h2
      have hm : [(fp2lit dflt L f p1).not, (fp2lit dflt L f p2).not] ∈
          (intRange 0 L).flatMap fun field =>
            (intRange 0 L).flatMap fun pos1 =>
              (intRange (pos1 + 1) L).map fun pos2 =>
                [(fp2lit dflt L field pos1).not, (fp2lit dflt L field pos2).not] := by
        simp only [List.mem_flatMap, List.mem_map, mem_intRange]
        exact ⟨f, ⟨hf0, hfL⟩, p1, ⟨h1, by omega⟩, p2, ⟨by omega, h2⟩, rfl⟩
      have := h _ hm
      rw [fp2lit_inRange dflt ⟨hf0, hfL⟩ ⟨h1, by omega⟩,
        fp2lit_inRange dflt ⟨hf0, hfL⟩ ⟨by omega, h2⟩, pair_clause_eval] at this
      exact this
    intro p1 p2 h10 h1L h20 h2L e1 e2
    by_contra hne
    rcases lt_or_gt_of_ne hne with hlt | hgt
    · exact key p1 p2 h10 hlt h2L ⟨e1, e2⟩
    · exact key p2 p1 h20 hgt h1L ⟨e2, e1⟩
  · intro h c hc
    simp only [List.mem_flatMap, List.mem_map, mem_intRange] at hc
    obtain ⟨f, hf, p1, hp1, p2, hp2, rfl⟩ := hc
    rw [fp2lit_inRange dflt hf hp1, fp2lit_inRange dflt hf ⟨by omega, hp2.2⟩, pair_clause_eval]
    rintro ⟨e1, e2⟩
    have := h f hf.1 hf.2 p1 p2 hp1.1 hp1.2 (by omega) hp2.2 e1 e2
    omega

theorem posOnce_iff (dflt : Lit) (L : Int) (σ : Assignment) :
    Satisfies σ (posOnceClauses dflt L) ↔
      ∀ p, 0 ≤ p → p < L → ∀ f1 f2, 0 ≤ f1 → f1 < L → 0 ≤ f2 → f2 < L →
        σ (Var.fp f1 p) = true → σ (Var.fp f2 p) = true → f1 = f2 := by
  unfold Satisfies posOnceClauses
  constructor
  · intro h p hp0 hpL
    have key : ∀ f1 f2, 0 ≤ f1 → f1 < f2 → f2 < L →
        ¬ (σ (Var.fp f1 p) = true ∧ σ (Var.fp f2 p) = true) := by
      intro f1 f2 h1 h12 h2
      have hm : [(fp2lit dflt L f1 p).not, (fp2lit dflt L f2 p).not] ∈
          (intRange 0 L).flatMap fun pos =>
            (intRange 0 L).flatMap fun field1 =>
              (intRange (field1 + 1) L).map fun field2 =>
                [(fp2lit dflt L field1 pos).not, (fp2lit dflt L field2 pos).not] := by
        simp only [List.mem_flatMap, List.mem_map, mem_intRange]
        exact ⟨p, ⟨hp0, hpL⟩, f1, ⟨h1, by omega⟩, f2, ⟨by omega, h2⟩, rfl⟩
      have := h _ hm
      rw [fp2lit_inRange dflt ⟨h1, by omega⟩ ⟨hp0, hpL⟩,
        fp2lit_inRange dflt ⟨by omega, h2⟩ ⟨hp0, hpL⟩, pair_clause_eval] at this
      exact this
    intro f1 f2 h10 h1L h20 h2L e1 e2
    by_contra hne
    rcases lt_or_gt_of_ne hne with hlt | hgt
    · exact key f1 f2 h10 hlt h2L ⟨e1, e2⟩
    · exact key f2 f1 h20 hgt h1L ⟨e2, e1⟩
  · intro h c hc
    simp only [List.mem_flatMap, List.mem_map, mem_intRange] at hc
    obtain ⟨p, hp, f1, hf1, f2, hf2, rfl⟩ := hc
    rw [fp2lit_inRange dflt hf1 hp, fp2lit_inRange dflt ⟨by omega, hf2.2⟩ hp, pair_clause_eval]
    rintro ⟨e1, e2⟩
    have := h p hp.1 hp.2 f1 f2 hf1.1 hf1.2 (by omega) hf2.2 e1 e2
    omega

theorem hamilton_iff (dflt : Lit) (L : Int) (σ : Assignment) :
    Satisfies σ (hamiltonClauses dflt L) ↔ PathBijection L σ := by
  unfold hamiltonClauses PathBijection
  rw [satisfies_append, satisfies_append, satisfies_append, fieldCover_iff, fieldOnce_iff,
    posCover_iff, posOnce_iff]
  constructor
  · rintro ⟨⟨⟨h1, h2⟩, h3⟩, h4⟩
    exact ⟨fun f a b => ⟨h1 f a b, h2 f a b⟩, fun p a b => ⟨h3 p a b, h4 p a b⟩⟩
  · rintro ⟨h12, h34⟩
    exact ⟨⟨⟨fun f a b => (h12 f a b).1, fun f a b => (h12 f a b).2⟩,
      fun p a b => (h34 p a b).1⟩, fun p a b => (h34 p a b).2⟩

theorem bijection_of_formula {dflt : Lit} {width height : Int} {σ : Assignment}
    (h : Satisfies σ (buildFormula dflt width height)) :
    PathBijection (width * height) σ :=
  (hamilton_iff dflt _ σ).mp (satisfies_of_subset (hamilton_sub dflt width height) h)

/-! ## Cells and indices -/

theorem c2f_range {width height : Int} {c : Coordinates}
    (hx : 0 ≤ c.x ∧ c.x < width) (hy : 0 ≤ c.y ∧ c.y < height) :
    0 ≤ c2f c width ∧ c2f c width < width * height := by
  unfold c2f
  obtain ⟨hx0, hx1⟩ := hx
  obtain ⟨hy0, hy1⟩ := hy
  constructor
  · have : 0 ≤ c.y * width := mul_nonneg hy0 (by omega)
    omega
  · nlinarith

theorem f2c_c2f {width : Int} {c : Coordinates}
    (hx : 0 ≤ c.x ∧ c.x < width) (hy : 0 ≤ c.y) : f2c (c2f c width) width = c := by
  obtain ⟨hx0, hx1⟩ := hx
  have hW : 0 ≤ width := by omega
  have hnn : 0 ≤ c.x + c.y * width := by
    have : 0 ≤ c.y * width := mul_nonneg hy hW
    omega
  unfold f2c c2f
  rw [Int.tmod_eq_emod hnn hW, Int.tdiv_eq_ediv hnn hW, Int.add_mul_emod_self,
    Int.emod_eq_of_lt hx0 hx1, Int.add_mul_ediv_right _ _ (by omega),
    Int.ediv_eq_zero_of_lt hx0 hx1, zero_add]

theorem c2f_f2c (f width : Int) : c2f (f2c f width) width = f := by
  unfold f2c c2f
  have := Int.tmod_add_tdiv f width
  simp only
  rw [mul_comm]
  exact this

theorem f2c_range {width height f : Int} (hf : 0 ≤ f ∧ f < width * height)
    (hW : 0 < width) :
    (0 ≤ (f2c f width).x ∧ (f2c f width).x < width) ∧
    (0 ≤ (f2c f width).y ∧ (f2c f width).y < height) := by
  obtain ⟨hf0, hf1⟩ := hf
  unfold f2c
  simp only
  rw [Int.tmod_eq_emod hf0 (by omega), Int.tdiv_eq_ediv hf0 (by omega)]
  refine ⟨⟨Int.emod_nonneg _ (by omega), Int.emod_lt_of_pos _ hW⟩,
    ⟨Int.ediv_nonneg hf0 (by omega), ?_⟩⟩
  apply Int.ediv_lt_of_lt_mul hW
  rw [mul_comm]
  exact hf1

theorem mem_getEdgeFields {width height f : Int} (hW : 1 ≤ width) (hH : 1 ≤ height)
    (hf : f ∈ getEdgeFields width height) :
    ∃ c : Coordinates, (0 ≤ c.x ∧ c.x < width) ∧ (0 ≤ c.y ∧ c.y < height) ∧
      edgeCell width height c ∧ f = c2f c width := by
  unfold getEdgeFields at hf
  simp only [List.mem_append, List.mem_flatMap, mem_intRange, List.mem_cons,
    List.mem_singleton, List.not_mem_nil, or_false] at hf
  rcases hf with ⟨x, hx, rfl | rfl⟩ | ⟨y, hy, rfl | rfl⟩
  · refine ⟨⟨x, 0⟩, ?_, ?_, ?_, rfl⟩
    · exact hx
    · simp only; omega
    · simp [edgeCell]
  · refine ⟨⟨x, height - 1⟩, ?_, ?_, ?_, rfl⟩
    · exact hx
    · simp only; omega
    · simp [edgeCell]
  · refine ⟨⟨0, y⟩, ?_, ?_, ?_, rfl⟩
    · simp only; omega
    · simp only; omega
    · simp [edgeCell]
  · refine ⟨⟨width - 1, y⟩, ?_, ?_, ?_, rfl⟩
    · simp only; omega
    · simp only; omega
    · simp [edgeCell]

theorem dims_pos_of_edgeField {width height f : Int} (hL : 2 ≤ width * height)
    (hf : f ∈ getEdgeFields width height) : 1 ≤ width ∧ 1 ≤ height := by
  by_cases hW : 1 ≤ width
  · refine ⟨hW, ?_⟩
    by_contra hH
    have : width * height ≤ 0 := mul_nonpos_of_nonneg_of_nonpos (by omega) (by omega)
    omega
  · exfalso
    unfold getEdgeFields at hf
    simp only [List.mem_append, List.mem_flatMap, mem_intRange] at hf
    rcases hf with ⟨x, hx, -⟩ | ⟨y, hy, -⟩
    · omega
    · have : width * height ≤ 0 := mul_nonpos_of_nonpos_of_nonneg (by omega) (by omega)
      omega

theorem edgeField_range {width height f : Int} (hW : 1 ≤ width) (hH : 1 ≤ height)
    (hf : f ∈ getEdgeFields width height) : 0 ≤ f ∧ f < width * height := by
  obtain ⟨c, hx, hy, -, rfl⟩ := mem_getEdgeFields hW hH hf
  exact c2f_range hx hy

/-! ## Entry and exit -/

theorem entry_on_edge {dflt : Lit} {width height : Int} {σ : Assignment}
    (hW : 1 ≤ width) (hH : 1 ≤ height)
    (h : Satisfies σ (entryExitClauses dflt width height)) :
    (∃ f ∈ getEdgeFields width height, σ (Var.fp f 0) = true) ∧
    (∃ f ∈ getEdgeFields width height, σ (Var.fp f (width * height - 1)) = true) := by
  have hL : 1 ≤ width * height := by nlinarith
  unfold Satisfies entryExitClauses at h
  simp only [List.mem_cons, List.mem_singleton, List.not_mem_nil, or_false,
    forall_eq_or_imp, forall_eq] at h
  obtain ⟨h1, h2⟩ := h
  rw [clause_eval_iff] at h1 h2
  constructor
  · obtain ⟨l, hl, hev⟩ := h1
    obtain ⟨f, hf, rfl⟩ := List.mem_map.mp hl
    rw [fp2lit_inRange dflt (edgeField_range hW hH hf) ⟨le_refl _, by omega⟩,
      eval_mkLit] at hev
    exact ⟨f, hf, hev⟩
  · obtain ⟨l, hl, hev⟩ := h2
    obtain ⟨f, hf, rfl⟩ := List.mem_map.mp hl
    rw [fp2lit_inRange dflt (edgeField_range hW hH hf) ⟨by omega, by omega⟩,
      eval_mkLit] at hev
    exact ⟨f, hf, hev⟩

theorem entry_le_exit {dflt : Lit} {width height : Int} {σ : Assignment}
    (hW : 1 ≤ width) (hH : 1 ≤ height)
    (h : Satisfies σ (symmetryClauses dflt width height)) {f1 f2 : Int}
    (h1 : f1 ∈ getEdgeFields width height) (h2 : f2 ∈ getEdgeFields width height)
    (e1 : σ (Var.fp f1 0) = true) (e2 : σ (Var.fp f2 (width * height - 1)) = true) :
    f1 ≤ f2 := by
  have hL : 1 ≤ width * height := by nlinarith
  by_contra hlt
  have hlt : f2 < f1 := by omega
  have hm : [(fp2lit dflt (width * height) f1 0).not,
      (fp2lit dflt (width * height) f2 (width * height - 1)).not] ∈
      symmetryClauses dflt width height := by
    unfold symmetryClauses
    simp only [List.mem_flatMap]
    exact ⟨f1, h1, f2, h2, by rw [if_pos hlt]; exact List.mem_singleton.mpr rfl⟩
  have := h _ hm
  rw [fp2lit_inRange dflt (edgeField_range hW hH h1) ⟨le_refl _, by omega⟩,
    fp2lit_inRange dflt (edgeField_range hW hH h2) ⟨by omega, by omega⟩,
    pair_clause_eval] at this
  exact this ⟨e1, e2⟩

/-- What the formula forces on the two ends of the path. -/
theorem endpoints_of_formula {dflt : Lit} {width height : Int} {σ : Assignment}
    (hL : 2 ≤ width * height) (h : Satisfies σ (buildFormula dflt width height)) :
    ∃ entry exit : Int,
      (0 ≤ entry ∧ entry < width * height ∧ σ (Var.fp entry 0) = true) ∧
      (0 ≤ exit ∧ exit < width * height ∧ σ (Var.fp exit (width * height - 1)) = true) ∧
      entry ∈ getEdgeFields width height ∧ exit ∈ getEdgeFields width height ∧
      entry < exit := by
  have hee := satisfies_of_subset (entryExit_sub dflt width height) h
  have hsym := satisfies_of_subset (symmetry_sub dflt width height) h
  have hbij := bijection_of_formula h
  -- the entry clause is not empty, hence the grid has positive dimensions
  have hne : ∃ f, f ∈ getEdgeFields width height := by
    have := hee _ (List.mem_cons_self _ _)
    rw [clause_eval_iff] at this
    obtain ⟨l, hl, -⟩ := this
    obtain ⟨f, hf, -⟩ := List.mem_map.mp hl
    exact ⟨f, hf⟩
  obtain ⟨f0, hf0⟩ := hne
  obtain ⟨hW, hH⟩ := dims_pos_of_edgeField hL hf0
  obtain ⟨⟨entry, hin, hen⟩, ⟨exit, hout, hex⟩⟩ := entry_on_edge hW hH hee
  have r1 := edgeField_range hW hH hin
  have r2 := edgeField_range hW hH hout
  refine ⟨entry, exit, ⟨r1.1, r1.2, hen⟩, ⟨r2.1, r2.2, hex⟩, hin, hout, ?_⟩
  have hle := entry_le_exit hW hH hsym hin hout hen hex
  have hne : entry ≠ exit := by
    rintro rfl
    have := (hbij.1 entry r1.1 r1.2).2 0 (width * height - 1) (le_refl _) (by omega)
      (by omega) (by omega) hen hex
    omega
  omega

/-! ## Consecutive positions -/

theorem triple_clause_eval (σ : Assignment) (v1 v2 v3 : Var) :
    Clause.eval σ [(mkLit v1).not, (mkLit v2).not, (mkLit v3).not] = true ↔
      ¬ (σ v1 = true ∧ σ v2 = true ∧ σ v3 = true) := by
  simp only [Clause.eval, List.any_cons, List.any_nil, eval_not, eval_mkLit]
  cases σ v1 <;> cases σ v2 <;> cases σ v3 <;> simp

theorem mem_nonNeighbours {width height : Int} {c n : Coordinates}
    (hn : n ∈ allCoordinates width height) (hne : n ≠ c) (hadj : ¬ adjacent c n) :
    n ∈ nonNeighbours width height c := by
  have h1 : n ≠ c.offset (-1) 0 := by
    rintro rfl
    exact hadj (Or.inl ⟨by simp [Coordinates.offset], Or.inr (by simp [Coordinates.offset]; omega)⟩)
  have h2 : n ≠ c.offset 1 0 := by
    rintro rfl
    exact hadj (Or.inl ⟨by simp [Coordinates.offset], Or.inl (by simp [Coordinates.offset])⟩)
  have h3 : n ≠ c.offset 0 (-1) := by
    rintro rfl
    exact hadj (Or.inr ⟨by simp [Coordinates.offset], Or.inr (by simp [Coordinates.offset]; omega)⟩)
  have h4 : n ≠ c.offset 0 1 := by
    rintro rfl
    exact hadj (Or.inr ⟨by simp [Coordinates.offset], Or.inl (by simp [Coordinates.offset])⟩)
  unfold nonNeighbours
  simp only
  split_ifs <;>
    simp only [List.mem_erase_of_ne h1, List.mem_erase_of_ne h2, List.mem_erase_of_ne h3,
      List.mem_erase_of_ne h4, List.mem_erase_of_ne hne, hn]

theorem f2c_injective {width f g : Int} (h : f2c f width = f2c g width) : f = g := by
  rw [← c2f_f2c f width, ← c2f_f2c g width, h]

/-- Cells at consecutive positions are cardinal neighbours. -/
theorem consecutive_adjacent {dflt : Lit} {width height : Int} {σ : Assignment}
    (hW : 1 ≤ width)
    (hham : Satisfies σ (hamiltonClauses dflt (width * height)))
    (hnb : Satisfies σ (neighbourClauses dflt width height))
    {p f g : Int} (hp0 : 0 ≤ p) (hp1 : p + 1 < width * height)
    (hf : 0 ≤ f ∧ f < width * height) (hg : 0 ≤ g ∧ g < width * height)
    (ef : σ (Var.fp f p) = true) (eg : σ (Var.fp g (p + 1)) = true) :
    adjacent (f2c f width) (f2c g width) := by
  have hbij := (hamilton_iff dflt _ σ).mp hham
  by_contra hadj
  have hc := f2c_range hf (by omega)
  have hn := f2c_range hg (by omega)
  have hne : f2c g width ≠ f2c f width := by
    intro heq
    have hfg := f2c_injective heq
    subst hfg
    have := (hbij.1 g hg.1 hg.2).2 p (p + 1) hp0 (by omega) (by omega) hp1 ef eg
    omega
  have hmem := mem_nonNeighbours (mem_allCoordinates.mpr ⟨hn.1.1, hn.1.2, hn.2.1, hn.2.2⟩)
    hne hadj
  have hcl : [(fp2lit dflt (width * height) (c2f (f2c f width) width) p).not,
      (fp2lit dflt (width * height) (c2f (f2c g width) width) (p + 1)).not] ∈
      neighbourClauses dflt width height := by
    unfold neighbourClauses
    simp only [List.mem_flatMap, mem_intRange, List.mem_append, List.mem_map]
    exact ⟨f2c f width, mem_allCoordinates.mpr ⟨hc.1.1, hc.1.2, hc.2.1, hc.2.2⟩, p,
      ⟨hp0, by omega⟩, Or.inr ⟨f2c g width, hmem, rfl⟩⟩
  have := hnb _ hcl
  rw [c2f_f2c, c2f_f2c, fp2lit_inRange dflt hf ⟨hp0, by omega⟩,
    fp2lit_inRange dflt hg ⟨by omega, hp1⟩, pair_clause_eval] at this
  exact this ⟨ef, eg⟩

/-! ## Walls block transitions -/

theorem wallBlock_mem {dflt : Lit} {width height : Int} {c : Coordinates} {p : Int}
    {cl : Clause} (hc : c ∈ allCoordinates width height)
    (hp : 0 ≤ p ∧ p + 1 < width * height)
    (hcl : cl ∈ wallBlockClausesAt dflt width height c p) :
    cl ∈ wallBlockClauses dflt width height := by
  unfold wallBlockClauses
  simp only [List.mem_flatMap, mem_intRange]
  exact ⟨c, hc, p, ⟨hp.1, by omega⟩, hcl⟩

/-- A wall between `n` and `c` whose literal is true keeps `c` at `p` and `n` at `p + 1`
apart, whenever the source emits the clause `~litw | ~lit1 | ~lit2` for them. -/
theorem blocked_of_clause {dflt : Lit} {width height : Int} {σ : Assignment}
    (hwb : Satisfies σ (wallBlockClauses dflt width height))
    {c n : Coordinates} {w : Wall} {p : Int}
    (hc : c ∈ allCoordinates width height) (hn : n ∈ allCoordinates width height)
    (hw : w ∈ allWalls width height) (hp : 0 ≤ p ∧ p + 1 < width * height)
    (hcl : [(w2lit dflt width height w).not,
        (fp2lit dflt (width * height) (c2f c width) p).not,
        (fp2lit dflt (width * height) (c2f n width) (p + 1)).not] ∈
      wallBlockClausesAt dflt width height c p)
    (hwall : σ (Var.wall w) = true) :
    ¬ (σ (Var.fp (c2f c width) p) = true ∧ σ (Var.fp (c2f n width) (p + 1)) = true) := by
  have := hwb _ (wallBlock_mem hc hp hcl)
  rw [mem_allCoordinates] at hc hn
  rw [w2lit_mem dflt hw,
    fp2lit_inRange dflt (c2f_range ⟨hc.1, hc.2.1⟩ hc.2.2) ⟨hp.1, by omega⟩,
    fp2lit_inRange dflt (c2f_range ⟨hn.1, hn.2.1⟩ hn.2.2) ⟨by omega, hp.2⟩,
    triple_clause_eval] at this
  rintro ⟨e1, e2⟩
  exact this ⟨hwall, e1, e2⟩

theorem vwall_blocks {dflt : Lit} {width height : Int} {σ : Assignment}
    (hwb : Satisfies σ (wallBlockClauses dflt width height))
    {x y p : Int} (hx : 1 ≤ x ∧ x ≤ width - 1) (hy : 0 ≤ y ∧ y < height)
    (hp : 0 ≤ p ∧ p + 1 < width * height)
    (hwall : σ (Var.wall ⟨⟨x, y⟩, Orientation.V⟩) = true) :
    ¬ (σ (Var.fp (c2f ⟨x - 1, y⟩ width) p) = true ∧
        σ (Var.fp (c2f ⟨x, y⟩ width) (p + 1)) = true) ∧
    ¬ (σ (Var.fp (c2f ⟨x, y⟩ width) p) = true ∧
        σ (Var.fp (c2f ⟨x - 1, y⟩ width) (p + 1)) = true) := by
  have ha : (⟨x - 1, y⟩ : Coordinates) ∈ allCoordinates width height :=
    mem_allCoordinates.mpr ⟨by simp only; omega, by simp only; omega, hy.1, hy.2⟩
  have hb : (⟨x, y⟩ : Coordinates) ∈ allCoordinates width height :=
    mem_allCoordinates.mpr ⟨by simp only; omega, by simp only; omega, hy.1, hy.2⟩
  have hw : (⟨⟨x, y⟩, Orientation.V⟩ : Wall) ∈ allWalls width height :=
    mem_allWalls.mpr (Or.inl ⟨rfl, by simp only; omega, by simp only; omega, hy.1, hy.2⟩)
  constructor
  · -- the "right wall" clause of the cell `(x - 1, y)`
    refine blocked_of_clause hwb ha hb hw hp ?_ hwall
    have e : (Coordinates.mk (x - 1) y).offset 1 0 = ⟨x, y⟩ := by
      simp [Coordinates.offset]
    unfold wallBlockClausesAt
    simp only [e, List.mem_append]
    refine Or.inl (Or.inl (Or.inr ?_))
    rw [if_pos (show (Coordinates.mk (x - 1) y).x + 1 < width by dsimp only; omega)]
    exact List.mem_singleton.mpr rfl
  · -- the "left wall" clause of the cell `(x, y)`
    refine blocked_of_clause hwb hb ha hw hp ?_ hwall
    have e : (Coordinates.mk x y).offset (-1) 0 = ⟨x - 1, y⟩ := by
      simp [Coordinates.offset]; omega
    unfold wallBlockClausesAt
    simp only [e, List.mem_append]
    refine Or.inl (Or.inl (Or.inl ?_))
    rw [if_pos (show (Coordinates.mk x y).x > 0 by dsimp only; omega)]
    exact List.mem_singleton.mpr rfl

theorem hwall_blocks {dflt : Lit} {width height : Int} {σ : Assignment}
    (hwb : Satisfies σ (wallBlockClauses dflt width height))
    {x y p : Int} (hx : 0 ≤ x ∧ x < width) (hy : 1 ≤ y ∧ y ≤ height - 1)
    (hp : 0 ≤ p ∧ p + 1 < width * height)
    (hwall : σ (Var.wall ⟨⟨x, y⟩, Orientation.H⟩) = true) :
    ¬ (σ (Var.fp (c2f ⟨x, y - 1⟩ width) p) = true ∧
        σ (Var.fp (c2f ⟨x, y⟩ width) (p + 1)) = true) ∧
    ¬ (σ (Var.fp (c2f ⟨x, y⟩ width) p) = true ∧
        σ (Var.fp (c2f ⟨x, y - 1⟩ width) (p + 1)) = true) := by
  have ha : (⟨x, y - 1⟩ : Coordinates) ∈ allCoordinates width height :=
    mem_allCoordinates.mpr ⟨hx.1, hx.2, by simp only; omega, by simp only; omega⟩
  have hb : (⟨x, y⟩ : Coordinates) ∈ allCoordinates width height :=
    mem_allCoordinates.mpr ⟨hx.1, hx.2, by simp only; omega, by simp only; omega⟩
  have hw : (⟨⟨x, y⟩, Orientation.H⟩ : Wall) ∈ allWalls width height :=
    mem_allWalls.mpr (Or.inr ⟨rfl, hx.1, hx.2, by simp only; omega, by simp only; omega⟩)
  constructor
  · -- the "bottom wall" clause of the cell `(x, y - 1)`
    refine blocked_of_clause hwb ha hb hw hp ?_ hwall
    have e : (Coordinates.mk x (y - 1)).offset 0 1 = ⟨x, y⟩ := by
      simp [Coordinates.offset]
    unfold wallBlockClausesAt
    simp only [e, List.mem_append]
    refine Or.inr ?_
    rw [if_pos (show (Coordinates.mk x (y - 1)).y + 1 < height by dsimp only; omega)]
    exact List.mem_singleton.mpr rfl
  · -- the "top wall" clause of the cell `(x, y)`
    refine blocked_of_clause hwb hb ha hw hp ?_ hwall
    have e : (Coordinates.mk x y).offset 0 (-1) = ⟨x, y - 1⟩ := by
      simp [Coordinates.offset]; omega
    unfold wallBlockClausesAt
    simp only [e, List.mem_append]
    refine Or.inl (Or.inr ?_)
    rw [if_pos (show (Coordinates.mk x y).y > 0 by dsimp only; omega)]
    exact List.mem_singleton.mpr rfl

/-! ## The wall count of a cell -/

theorem cellWall_walls_mem {width height : Int} {c : Coordinates}
    (hx : 0 ≤ c.x ∧ c.x < width) (hy : 0 ≤ c.y ∧ c.y < height) :
    Wall.mk c Orientation.H ∈ allWalls width height ∧
    Wall.mk c Orientation.V ∈ allWalls width height ∧
    Wall.mk (c.offset 0 1) Orientation.H ∈ allWalls width height ∧
    Wall.mk (c.offset 1 0) Orientation.V ∈ allWalls width height := by
  refine ⟨mem_allWalls.mpr (Or.inr ⟨rfl, ?_⟩), mem_allWalls.mpr (Or.inl ⟨rfl, ?_⟩),
    mem_allWalls.mpr (Or.inr ⟨rfl, ?_⟩), mem_allWalls.mpr (Or.inl ⟨rfl, ?_⟩)⟩ <;>
    (simp only [Coordinates.offset]; omega)

theorem cellWall_iff (dflt : Lit) {width height : Int} {c : Coordinates}
    (hx : 0 ≤ c.x ∧ c.x < width) (hy : 0 ≤ c.y ∧ c.y < height) (σ : Assignment) :
    Satisfies σ (cellWallClauses dflt width height c) ↔
      [σ (Var.edge ⟨c, Orientation.H⟩), σ (Var.edge ⟨c.offset 0 1, Orientation.H⟩),
        σ (Var.edge ⟨c, Orientation.V⟩),
        σ (Var.edge ⟨c.offset 1 0, Orientation.V⟩)].count true = 2 := by
  obtain ⟨hn, hw, hs, he⟩ := cellWall_walls_mem hx hy
  unfold Satisfies cellWallClauses
  simp only [edge2lit_mem dflt hn, edge2lit_mem dflt hw, edge2lit_mem dflt hs,
    edge2lit_mem dflt he, List.mem_cons, List.mem_singleton, List.not_mem_nil, or_false,
    forall_eq_or_imp, forall_eq, Clause.eval, List.any_cons, List.any_nil, eval_not,
    eval_mkLit]
  cases σ (Var.edge ⟨c, Orientation.H⟩) <;>
    cases σ (Var.edge ⟨c.offset 0 1, Orientation.H⟩) <;>
    cases σ (Var.edge ⟨c, Orientation.V⟩) <;>
    cases σ (Var.edge ⟨c.offset 1 0, Orientation.V⟩) <;> decide

theorem cellWall_sub (dflt : Lit) {width height : Int} {c : Coordinates}
    (hx : 0 ≤ c.x ∧ c.x < width) (hy : 0 ≤ c.y ∧ c.y < height) :
    ∀ cl ∈ cellWallClauses dflt width height c, cl ∈ buildFormula dflt width height := by
  intro cl hcl
  apply cell_sub
  unfold cellClauses
  exact List.mem_flatMap.mpr ⟨c, mem_allCoordinates.mpr ⟨hx.1, hx.2, hy.1, hy.2⟩, hcl⟩

/-! ## Concrete models -/

set_option maxRecDepth 100000 in
theorem model21_satisfies : Satisfies model21 (buildFormula minisatDefault 2 1) :=
  (satisfiesB_iff _ _).mp (by decide)

set_option maxRecDepth 100000 in
theorem model22_satisfies : Satisfies model22 (buildFormula minisatDefault 2 2) :=
  (satisfiesB_iff _ _).mp (by decide)

set_option maxRecDepth 100000 in
theorem model22b_satisfies : Satisfies model22b (buildFormula minisatDefault 2 2) :=
  (satisfiesB_iff _ _).mp (by decide)

set_option maxRecDepth 100000 in
theorem model22w_satisfies : Satisfies model22w (buildFormula minisatDefault 2 2) :=
  (satisfiesB_iff _ _).mp (by decide)

/-! ## The example oracle: a sound solver that is complete on the formula of the grid -/

theorem intRange_nodup (lo hi : Int) : (intRange lo hi).Nodup := by
  unfold intRange
  apply List.Nodup.map _ (List.nodup_range _)
  intro a b hab
  simp only at hab
  omega

theorem intRange_length (lo hi : Int) : (intRange lo hi).length = (hi - lo).toNat := by
  simp [intRange]

/-- In a duplicate-free list with exactly one element satisfying `P`, the traversal that
keeps `g x` for the elements satisfying `P` yields that one element. -/
theorem flatMap_ite_unique {α β : Type} (P : α → Prop) [DecidablePred P] (g : α → β) :
    ∀ (l : List α), l.Nodup → ∀ a ∈ l, P a → (∀ b ∈ l, P b → b = a) →
      l.flatMap (fun x => if P x then [g x] else []) = [g a]
  | [], _, a, ha, _, _ => by cases ha
  | x :: xs, hnd, a, ha, hPa, huniq => by
    rw [List.nodup_cons] at hnd
    have hnone : ∀ ys : List α, (∀ b ∈ ys, ¬ P b) →
        ys.flatMap (fun x => if P x then [g x] else []) = [] := by
      intro ys hys
      induction ys with
      | nil => rfl
      | cons y ys ih =>
        rw [List.flatMap_cons, if_neg (hys y (List.mem_cons_self _ _)),
          ih (fun b hb => hys b (List.mem_cons_of_mem _ hb))]
        rfl
    rw [List.flatMap_cons]
    by_cases hxa : x = a
    · subst hxa
      rw [if_pos hPa, hnone xs]
      · rfl
      · intro b hb hPb
        have := huniq b (List.mem_cons_of_mem _ hb) hPb
        exact hnd.1 (this ▸ hb)
    · have hax : a ∈ xs := by
        rcases List.mem_cons.mp ha with h | h
        · exact absurd h.symm hxa
        · exact h
      have hPx : ¬ P x := fun h => hxa (huniq x (List.mem_cons_self _ _) h)
      rw [if_neg hPx, flatMap_ite_unique P g xs hnd.2 a hax hPa
        (fun b hb => huniq b (List.mem_cons_of_mem _ hb))]
      rfl

theorem flatMap_eq_map {α β : Type} (F : α → List β) (G : α → β) :
    ∀ l : List α, (∀ x ∈ l, F x = [G x]) → l.flatMap F = l.map G
  | [], _ => rfl
  | x :: xs, h => by
    rw [List.flatMap_cons, h x (List.mem_cons_self _ _), List.map_cons,
      flatMap_eq_map F G xs (fun y hy => h y (List.mem_cons_of_mem _ hy))]
    rfl

theorem filter_eq_singleton {α : Type} (P : α → Bool) :
    ∀ (l : List α), l.Nodup → ∀ a ∈ l, P a = true → (∀ b ∈ l, P b = true → b = a) →
      l.filter P = [a] := by
  intro l hnd a ha hPa huniq
  have h := flatMap_ite_unique (fun x => P x = true) id l hnd a ha hPa huniq
  have e : ∀ ys : List α, ys.flatMap (fun x => if P x = true then [id x] else []) =
      ys.filter P := by
    intro ys
    induction ys with
    | nil => rfl
    | cons y ys ih =>
      rw [List.flatMap_cons, ih, List.filter_cons]
      by_cases hy : P y = true <;> simp [hy]
  rw [← e, h]
  rfl

/-- The position function of a bijective assignment describes the hits of the extractor:
one hit per field, in the order of the fields. -/
theorem pathHits_eq_map (dflt : Lit) (L : Int) (m : Assignment) (pos : Int → Int)
    (hpos : ∀ f, 0 ≤ f → f < L → (0 ≤ pos f ∧ pos f < L) ∧ m (Var.fp f (pos f)) = true ∧
      ∀ p, 0 ≤ p → p < L → m (Var.fp f p) = true → p = pos f) :
    pathHits dflt L m = (intRange 0 L).map fun f => (f, pos f) := by
  unfold pathHits
  apply flatMap_eq_map
  intro f hf
  rw [mem_intRange] at hf
  obtain ⟨hr, hm, huniq⟩ := hpos f hf.1 hf.2
  have := flatMap_ite_unique
    (fun p => Lit.eval m (fp2lit dflt L f p) = true) (fun p => (f, p)) (intRange 0 L)
    (intRange_nodup 0 L) (pos f) (mem_intRange.mpr hr)
    (by simp only [fp2lit_inRange dflt hf hr, eval_mkLit]; exact hm)
    (by
      intro p hp hev
      rw [mem_intRange] at hp
      simp only [fp2lit_inRange dflt hf hp, eval_mkLit] at hev
      exact huniq p hp.1 hp.2 hev)
  exact this

theorem exists_pos_of_bijection {L : Int} {m : Assignment} (hm : PathBijection L m) :
    ∃ pos : Int → Int, ∀ f, 0 ≤ f → f < L →
      (0 ≤ pos f ∧ pos f < L) ∧ m (Var.fp f (pos f)) = true ∧
      ∀ p, 0 ≤ p → p < L → m (Var.fp f p) = true → p = pos f := by
  have h : ∀ f : Int, ∃ q : Int, 0 ≤ f → f < L →
      (0 ≤ q ∧ q < L) ∧ m (Var.fp f q) = true ∧
      ∀ p, 0 ≤ p → p < L → m (Var.fp f p) = true → p = q := by
    intro f
    by_cases hf : 0 ≤ f ∧ f < L
    · obtain ⟨⟨q, q0, q1, hq⟩, huniq⟩ := hm.1 f hf.1 hf.2
      exact ⟨q, fun _ _ => ⟨⟨q0, q1⟩, hq, fun p p0 p1 hp => huniq p q p0 p1 q0 q1 hp hq⟩⟩
    · exact ⟨0, fun a b => absurd ⟨a, b⟩ hf⟩
  choose pos hpos using h
  exact ⟨pos, hpos⟩

/-- The fold of `set` calls leaves an index untouched when no call targets it. -/
theorem foldl_set_untouched (i : Nat) :
    ∀ (sets : List (Int × Coordinates)) (init : List Coordinates),
      (∀ s ∈ sets, s.1.toNat ≠ i) →
      (sets.foldl (fun path s => path.set s.1.toNat s.2) init)[i]? = init[i]?
  | [], _, _ => rfl
  | s :: rest, init, h => by
    rw [List.foldl_cons, foldl_set_untouched i rest _
      (fun t ht => h t (List.mem_cons_of_mem _ ht)),
      List.getElem?_set_ne (h s (List.mem_cons_self _ _))]

/-- The fold of `set` calls stores the value of the only call that targets an index. -/
theorem foldl_set_once (i : Nat) (s0 : Int × Coordinates) :
    ∀ (sets : List (Int × Coordinates)) (init : List Coordinates), i < init.length →
      sets.filter (fun s => decide (s.1.toNat = i)) = [s0] →
      (sets.foldl (fun path s => path.set s.1.toNat s.2) init)[i]? = some s0.2
  | [], _, _, h => by simp at h
  | s :: rest, init, hi, h => by
    rw [List.foldl_cons]
    by_cases hs : s.1.toNat = i
    · rw [List.filter_cons, if_pos (by simpa using hs)] at h
      have h1 : s = s0 := (List.cons.inj h).1
      have h2 : rest.filter (fun s => decide (s.1.toNat = i)) = [] := (List.cons.inj h).2
      rw [foldl_set_untouched i rest]
      · rw [hs, List.getElem?_set_self hi, h1]
      · intro t ht hti
        have : t ∈ rest.filter (fun s => decide (s.1.toNat = i)) :=
          List.mem_filter.mpr ⟨ht, by simpa using hti⟩
        rw [h2] at this
        cases this
    · rw [List.filter_cons, if_neg (by simpa using hs)] at h
      exact foldl_set_once i s0 rest _ (by rw [List.length_set]; exact hi) h

theorem foldl_set_length :
    ∀ (sets : List (Int × Coordinates)) (init : List Coordinates),
      (sets.foldl (fun path s => path.set s.1.toNat s.2) init).length = init.length
  | [], _ => rfl
  | s :: rest, init => by
    rw [List.foldl_cons, foldl_set_length rest, List.length_set]

theorem extractPath_length (dflt : Lit) (w h : Int) (m : Assignment) :
    (extractPath dflt w h m).length = (w * h).toNat := by
  unfold extractPath buildPath
  rw [foldl_set_length, List.length_replicate]

/-- What the extractor does at one position of a bijective model. -/
theorem extract_at (dflt : Lit) {w h : Int} {m : Assignment}
    (hm : PathBijection (w * h) m) {p f : Int} (hp : 0 ≤ p ∧ p < w * h)
    (hf : 0 ≤ f ∧ f < w * h) (hfp : m (Var.fp f p) = true) :
    (pathSets dflt w h m).filter (fun s => decide (s.1 = p)) = [(p, f2c f w)] ∧
    (extractPath dflt w h m)[p.toNat]? = some (f2c f w) := by
  obtain ⟨pos, hpos⟩ := exists_pos_of_bijection hm
  have hposf : pos f = p := ((hpos f hf.1 hf.2).2.2 p hp.1 hp.2 hfp).symm
  have hsets : pathSets dflt w h m =
      (intRange 0 (w * h)).map fun g => (pos g, f2c g w) := by
    unfold pathSets
    rw [pathHits_eq_map dflt (w * h) m pos hpos, List.map_map]
    rfl
  have hfilter : ∀ (Q : Int → Bool), (∀ g, 0 ≤ g → g < w * h → (Q (pos g) = true ↔ pos g = p)) →
      (pathSets dflt w h m).filter (fun s => Q s.1) = [(p, f2c f w)] := by
    intro Q hQ
    rw [hsets, List.filter_map]
    rw [filter_eq_singleton _ (intRange 0 (w * h)) (intRange_nodup _ _) f
      (mem_intRange.mpr hf)]
    · simp [hposf]
    · simp only [Function.comp]
      exact (hQ f hf.1 hf.2).mpr hposf
    · intro g hg hQg
      rw [mem_intRange] at hg
      simp only [Function.comp] at hQg
      have hg' := (hQ g hg.1 hg.2).mp hQg
      have hmg := (hpos g hg.1 hg.2).2.1
      rw [hg'] at hmg
      exact (hm.2 p hp.1 hp.2).2 g f hg.1 hg.2 hf.1 hf.2 hmg hfp
  constructor
  · exact hfilter (fun q => decide (q = p)) (fun g _ _ => by simp)
  · unfold extractPath buildPath
    have := foldl_set_once p.toNat (p, f2c f w) (pathSets dflt w h m)
      (List.replicate (w * h).toNat (Coordinates.mk 0 0))
      (by rw [List.length_replicate]; omega)
      (hfilter (fun q => decide (q.toNat = p.toNat)) (fun g g0 g1 => by
        have := (hpos g g0 g1).1
        simp only [decide_eq_true_eq]
        omega))
    exact this

theorem mem_pathClause {dflt : Lit} {L : Int} {m : Assignment} {l : Lit} :
    l ∈ pathClause dflt L m ↔
      ∃ f p : Int, (0 ≤ f ∧ f < L) ∧ (0 ≤ p ∧ p < L) ∧ m (Var.fp f p) = true ∧
        l = (mkLit (Var.fp f p)).not := by
  unfold pathClause pathHits
  simp only [List.mem_map, List.mem_flatMap, mem_intRange]
  constructor
  · rintro ⟨hit, ⟨f, hf, p, hp, hmem⟩, rfl⟩
    rw [fp2lit_inRange dflt hf hp, eval_mkLit] at hmem
    by_cases hm : m (Var.fp f p) = true
    · rw [if_pos hm] at hmem
      rw [List.mem_singleton.mp hmem]
      exact ⟨f, p, hf, hp, hm, by rw [fp2lit_inRange dflt hf hp]⟩
    · rw [if_neg hm] at hmem
      cases hmem
  · rintro ⟨f, p, hf, hp, hm, rfl⟩
    refine ⟨(f, p), ⟨f, hf, p, hp, ?_⟩, by rw [fp2lit_inRange dflt hf hp]⟩
    rw [fp2lit_inRange dflt hf hp, eval_mkLit, if_pos hm]
    exact List.mem_singleton.mpr rfl

/-- An assignment falsifies the blocking clause exactly when it makes true every
`F[f, p]` that the model makes true. -/
theorem pathClause_false_iff {dflt : Lit} {L : Int} {m σ : Assignment} :
    Clause.eval σ (pathClause dflt L m) = false ↔
      ∀ f p : Int, 0 ≤ f → f < L → 0 ≤ p → p < L → m (Var.fp f p) = true →
        σ (Var.fp f p) = true := by
  constructor
  · intro h f p f0 f1 p0 p1 hm
    by_contra hσ
    have hmem : (mkLit (Var.fp f p)).not ∈ pathClause dflt L m :=
      mem_pathClause.mpr ⟨f, p, ⟨f0, f1⟩, ⟨p0, p1⟩, hm, rfl⟩
    have : Clause.eval σ (pathClause dflt L m) = true := by
      rw [clause_eval_iff]
      refine ⟨_, hmem, ?_⟩
      rw [eval_not, eval_mkLit]
      simpa using hσ
    rw [h] at this
    cases this
  · intro h
    by_contra hne
    have : Clause.eval σ (pathClause dflt L m) = true := by simpa using hne
    rw [clause_eval_iff] at this
    obtain ⟨l, hl, hev⟩ := this
    obtain ⟨f, p, hf, hp, hm, rfl⟩ := mem_pathClause.mp hl
    rw [eval_not, eval_mkLit, h f p hf.1 hf.2 hp.1 hp.2 hm] at hev
    cases hev

/-- Two bijective assignments agree on all `F[f, p]` as soon as one makes true whatever
the other makes true. -/
theorem same_path_iff {L : Int} {m σ : Assignment} (hm : PathBijection L m)
    (hσ : PathBijection L σ) :
    (∀ f p : Int, 0 ≤ f → f < L → 0 ≤ p → p < L → m (Var.fp f p) = true →
        σ (Var.fp f p) = true) ↔
    (∀ f p : Int, 0 ≤ f → f < L → 0 ≤ p → p < L → σ (Var.fp f p) = m (Var.fp f p)) := by
  constructor
  · intro h f p f0 f1 p0 p1
    by_cases hmfp : m (Var.fp f p) = true
    · rw [hmfp, h f p f0 f1 p0 p1 hmfp]
    · by_cases hσfp : σ (Var.fp f p) = true
      · exfalso
        obtain ⟨q, q0, q1, hq⟩ := (hm.1 f f0 f1).1
        have := (hσ.1 f f0 f1).2 p q p0 p1 q0 q1 hσfp (h f q f0 f1 q0 q1 hq)
        rw [this] at hmfp
        exact hmfp hq
      · simp only [Bool.not_eq_true] at hmfp hσfp
        rw [hmfp, hσfp]
  · intro h f p f0 f1 p0 p1 hmfp
    rw [h f p f0 f1 p0 p1, hmfp]

theorem pathClause_length {dflt : Lit} {L : Int} {m : Assignment}
    (hm : PathBijection L m) : (pathClause dflt L m).length = L.toNat := by
  obtain ⟨pos, hpos⟩ := exists_pos_of_bijection hm
  unfold pathClause
  rw [pathHits_eq_map dflt L m pos hpos, List.length_map, List.length_map, intRange_length]
  simp

theorem pathClause_nodup {dflt : Lit} {L : Int} {m : Assignment}
    (hm : PathBijection L m) : (pathClause dflt L m).Nodup := by
  obtain ⟨pos, hpos⟩ := exists_pos_of_bijection hm
  unfold pathClause
  rw [pathHits_eq_map dflt L m pos hpos, List.map_map]
  rw [List.nodup_map_iff_inj_on (intRange_nodup 0 L)]
  intro f hf g hg hfg
  rw [mem_intRange] at hf hg
  simp only [Function.comp] at hfg
  rw [fp2lit_inRange dflt hf (hpos f hf.1 hf.2).1,
    fp2lit_inRange dflt hg (hpos g hg.1 hg.2).1] at hfg
  simp only [Lit.not, mkLit, Lit.mk.injEq, Var.fp.injEq] at hfg
  exact hfg.1.1

/-! ## The wall-minimisation loop: the candidate list -/

theorem set_cons_perm {α : Type} (b : α) :
    ∀ (l : List α) (i : Nat) (h : i < l.length), (l.get ⟨i, h⟩ :: l.set i b).Perm (b :: l)
  | [], _, h => by simp at h
  | x :: xs, 0, _ => by
    simp only [List.get_eq_getElem, List.getElem_cons_zero, List.set_cons_zero]
    exact List.Perm.swap b x xs
  | x :: xs, i + 1, h => by
    simp only [List.get_eq_getElem, List.getElem_cons_succ, List.set_cons_succ]
    have hi : i < xs.length := by simpa using h
    have ih := set_cons_perm b xs i hi
    simp only [List.get_eq_getElem] at ih
    exact ((List.Perm.swap x (xs[i]) (xs.set i b)).trans (ih.cons x)).trans
      (List.Perm.swap b x xs)

theorem swapPop_perm (l : List Wall) (i : Nat) (h : i < l.length) :
    (l.get ⟨i, h⟩ :: swapPop l i h).Perm l := by
  have hne : l ≠ [] := by
    intro e
    rw [e] at h
    simp at h
  obtain ⟨dl, b, rfl⟩ : ∃ dl b, l = dl ++ [b] :=
    ⟨l.dropLast, l.getLast hne, (List.dropLast_append_getLast hne).symm⟩
  have hlen : (dl ++ [b]).length = dl.length + 1 := by simp
  unfold swapPop
  simp only [List.get_eq_getElem]
  by_cases hi : i + 1 = (dl ++ [b]).length
  · have hid : i = dl.length := by omega
    subst hid
    simp only [hi, ne_eq, not_true_eq_false, if_false, List.dropLast_concat]
    simp only [List.getElem_concat_length]
    exact (List.perm_append_singleton b dl).symm
  · have hid : i < dl.length := by omega
    rw [if_pos hi]
    have e1 : (dl ++ [b])[i] = dl[i] := List.getElem_append_left hid
    have e2 : (dl ++ [b])[(dl ++ [b]).length - 1] = b := by
      simp
    rw [e1, e2, List.set_append_left _ _ hid]
    have e3 : (dl.set i b ++ [b]).set ((dl ++ [b]).length - 1) dl[i] =
        dl.set i b ++ [dl[i]] := by
      rw [hlen, Nat.add_sub_cancel, List.set_append_right _ _ (by simp)]
      simp
    rw [e3, List.dropLast_concat]
    have := set_cons_perm b dl i hid
    simp only [List.get_eq_getElem] at this
    exact this.trans (List.perm_append_singleton b dl).symm

theorem swapPop_length (l : List Wall) (i : Nat) (h : i < l.length) :
    (swapPop l i h).length + 1 = l.length := by
  have := (swapPop_perm l i h).length_eq
  simpa using this

theorem minimizeStep_candidates (S : SatSolver) (cs : List Clause) (w2l : Wall → Lit)
    (rng : Nat → Nat) (st : LoopState) (h : st.candidateWalls ≠ []) :
    (minimizeStep S cs w2l rng st h).candidateWalls =
      swapPop st.candidateWalls (rng st.draws % st.candidateWalls.length)
        (Nat.mod_lt _ (List.length_pos.mpr h)) := by
  unfold minimizeStep
  simp only
  split <;> rfl

theorem minimizeStep_calls (S : SatSolver) (cs : List Clause) (w2l : Wall → Lit)
    (rng : Nat → Nat) (st : LoopState) (h : st.candidateWalls ≠ []) :
    (minimizeStep S cs w2l rng st h).calls = st.calls + 1 ∧
    (minimizeStep S cs w2l rng st h).draws = st.draws + 1 := by
  unfold minimizeStep
  simp only
  split <;> exact ⟨rfl, rfl⟩

theorem minimizeStep_length (S : SatSolver) (cs : List Clause) (w2l : Wall → Lit)
    (rng : Nat → Nat) (st : LoopState) (h : st.candidateWalls ≠ []) :
    (minimizeStep S cs w2l rng st h).candidateWalls.length + 1 =
      st.candidateWalls.length := by
  rw [minimizeStep_candidates]
  exact swapPop_length _ _ _

theorem minimizeLoop_nil (S : SatSolver) (cs : List Clause) (w2l : Wall → Lit)
    (rng : Nat → Nat) (fuel : Nat) (st : LoopState) (h : st.candidateWalls = []) :
    minimizeLoop S cs w2l rng fuel st = some st := by
  unfold minimizeLoop
  rw [dif_pos h]

theorem minimizeLoop_succ (S : SatSolver) (cs : List Clause) (w2l : Wall → Lit)
    (rng : Nat → Nat) (fuel : Nat) (st : LoopState) (h : st.candidateWalls ≠ []) :
    minimizeLoop S cs w2l rng (fuel + 1) st =
      minimizeLoop S cs w2l rng fuel (minimizeStep S cs w2l rng st h) := by
  rw [minimizeLoop, dif_neg h]

theorem minimizeLoop_zero (S : SatSolver) (cs : List Clause) (w2l : Wall → Lit)
    (rng : Nat → Nat) (st : LoopState) (h : st.candidateWalls ≠ []) :
    minimizeLoop S cs w2l rng 0 st = none := by
  rw [minimizeLoop, dif_neg h]

/-- With enough fuel the loop ends, with an empty candidate list, after as many passes
(and `solve` calls, and draws) as there were candidates. -/
theorem minimizeLoop_terminates (S : SatSolver) (cs : List Clause) (w2l : Wall → Lit)
    (rng : Nat → Nat) :
    ∀ (fuel : Nat) (st : LoopState), st.candidateWalls.length ≤ fuel →
      ∃ final, minimizeLoop S cs w2l rng fuel st = some final ∧
        final.candidateWalls = [] ∧
        final.calls = st.calls + st.candidateWalls.length ∧
        final.draws = st.draws + st.candidateWalls.length
  | fuel, st, hfuel => by
    by_cases h : st.candidateWalls = []
    · exact ⟨st, minimizeLoop_nil S cs w2l rng fuel st h, h, by simp [h], by simp [h]⟩
    · cases fuel with
      | zero =>
        exfalso
        have := List.length_pos.mpr h
        omega
      | succ n =>
        have hlen := minimizeStep_length S cs w2l rng st h
        have hc := minimizeStep_calls S cs w2l rng st h
        obtain ⟨final, hrun, hnil, hcalls, hdraws⟩ :=
          minimizeLoop_terminates S cs w2l rng n (minimizeStep S cs w2l rng st h)
            (by omega)
        refine ⟨final, ?_, hnil, ?_, ?_⟩
        · rw [minimizeLoop_succ S cs w2l rng n st h]
          exact hrun
        · rw [hcalls, hc.1]
          omega
        · rw [hdraws, hc.2]
          omega

/-- With less fuel than candidates the loop is cut short. -/
theorem minimizeLoop_needs_fuel (S : SatSolver) (cs : List Clause) (w2l : Wall → Lit)
    (rng : Nat → Nat) :
    ∀ (fuel : Nat) (st : LoopState), fuel < st.candidateWalls.length →
      minimizeLoop S cs w2l rng fuel st = none
  | 0, st, hfuel => by
    apply minimizeLoop_zero
    intro e
    rw [e] at hfuel
    simp at hfuel
  | n + 1, st, hfuel => by
    have h : st.candidateWalls ≠ [] := by
      intro e
      rw [e] at hfuel
      simp at hfuel
    rw [minimizeLoop_succ S cs w2l rng n st h]
    apply minimizeLoop_needs_fuel
    have := minimizeStep_length S cs w2l rng st h
    omega

/-! ## Wall literals occur only negated -/

theorem wallNegative_append {a b : List Clause} :
    WallNegative (a ++ b) ↔ WallNegative a ∧ WallNegative b := by
  simp only [WallNegative, List.mem_append]
  constructor
  · intro h
    exact ⟨fun c hc => h c (Or.inl hc), fun c hc => h c (Or.inr hc)⟩
  · rintro ⟨h1, h2⟩ c (hc | hc)
    · exact h1 c hc
    · exact h2 c hc

theorem wallNegative_flatMap {α : Type} {l : List α} {F : α → List Clause} :
    WallNegative (l.flatMap F) ↔ ∀ x ∈ l, WallNegative (F x) := by
  constructor
  · intro h x hx c hc
    exact h c (List.mem_flatMap.mpr ⟨x, hx, hc⟩)
  · intro h c hc
    obtain ⟨x, hx, hcx⟩ := List.mem_flatMap.mp hc
    exact h x hx c hcx

theorem wallNegative_map {α : Type} {l : List α} {F : α → Clause} :
    WallNegative (l.map F) ↔ ∀ x ∈ l, ∀ lit ∈ F x, Lit.wallNeg lit := by
  constructor
  · intro h x hx
    exact h _ (List.mem_map.mpr ⟨x, hx, rfl⟩)
  · intro h c hc
    obtain ⟨x, hx, rfl⟩ := List.mem_map.mp hc
    exact h x hx

theorem wallNegative_cons {c : Clause} {cs : List Clause} :
    WallNegative (c :: cs) ↔ (∀ lit ∈ c, Lit.wallNeg lit) ∧ WallNegative cs := by
  constructor
  · intro h
    exact ⟨h c (List.mem_cons_self _ _), fun d hd => h d (List.mem_cons_of_mem _ hd)⟩
  · rintro ⟨h1, h2⟩ d hd
    rcases List.mem_cons.mp hd with rfl | hd
    · exact h1
    · exact h2 d hd

theorem wallNegative_nil : WallNegative [] ↔ True := by
  constructor
  · intro _
    trivial
  · intro _ c hc
    cases hc

theorem wallNegative_ite {P : Prop} [Decidable P] {a b : List Clause} :
    WallNegative (if P then a else b) ↔ (P → WallNegative a) ∧ (¬ P → WallNegative b) := by
  split <;> simp_all

theorem wallNeg_fp {dflt : Lit} (hd : ∀ v : Wall, dflt.var ≠ Var.wall v) (L f p : Int) :
    Lit.wallNeg (fp2lit dflt L f p) := by
  unfold fp2lit
  split
  · intro v hv
    cases hv
  · exact fun v hv => absurd hv (hd v)

theorem wallNeg_fp_not {dflt : Lit} (hd : ∀ v : Wall, dflt.var ≠ Var.wall v)
    (L f p : Int) : Lit.wallNeg (fp2lit dflt L f p).not := by
  unfold fp2lit
  split
  · intro v hv
    cases hv
  · exact fun v hv => absurd hv (hd v)

theorem wallNeg_edge {dflt : Lit} (hd : ∀ v : Wall, dflt.var ≠ Var.wall v) (w h : Int)
    (v : Wall) : Lit.wallNeg (edge2lit dflt w h v) := by
  unfold edge2lit
  split
  · intro v hv
    cases hv
  · exact fun v hv => absurd hv (hd v)

theorem wallNeg_edge_not {dflt : Lit} (hd : ∀ v : Wall, dflt.var ≠ Var.wall v)
    (w h : Int) (v : Wall) : Lit.wallNeg (edge2lit dflt w h v).not := by
  unfold edge2lit
  split
  · intro v hv
    cases hv
  · exact fun v hv => absurd hv (hd v)

theorem wallNeg_node {dflt : Lit} (hd : ∀ v : Wall, dflt.var ≠ Var.wall v) (w h : Int)
    (c : Coordinates) (o : Orientation2) : Lit.wallNeg (node2lit dflt w h c o) := by
  unfold node2lit
  split
  · intro v hv
    cases hv
  · exact fun v hv => absurd hv (hd v)

theorem wallNeg_node_not {dflt : Lit} (hd : ∀ v : Wall, dflt.var ≠ Var.wall v)
    (w h : Int) (c : Coordinates) (o : Orientation2) :
    Lit.wallNeg (node2lit dflt w h c o).not := by
  unfold node2lit
  split
  · intro v hv
    cases hv
  · exact fun v hv => absurd hv (hd v)

theorem wallNeg_node_not_not {dflt : Lit} (hd : ∀ v : Wall, dflt.var ≠ Var.wall v)
    (w h : Int) (c : Coordinates) (o : Orientation2) :
    Lit.wallNeg (node2lit dflt w h c o).not.not := by
  unfold node2lit
  split
  · intro v hv
    cases hv
  · exact fun v hv => absurd hv (hd v)

theorem wallNeg_w_not {dflt : Lit} (hd : ∀ v : Wall, dflt.var ≠ Var.wall v) (w h : Int)
    (v : Wall) : Lit.wallNeg (w2lit dflt w h v).not := by
  unfold w2lit
  split
  · intro v hv
    rfl
  · exact fun v hv => absurd hv (hd v)

theorem buildFormula_wallNegative {dflt : Lit} (hd : ∀ v : Wall, dflt.var ≠ Var.wall v)
    (w h : Int) : WallNegative (buildFormula dflt w h) := by
  have a1 := wallNeg_fp hd
  have a2 := wallNeg_fp_not hd
  have a3 := wallNeg_edge hd
  have a4 := wallNeg_edge_not hd
  have a5 := wallNeg_node hd
  have a6 := wallNeg_node_not hd
  have a7 := wallNeg_node_not_not hd
  have a8 := wallNeg_w_not hd
  unfold buildFormula
  simp only [wallNegative_append]
  refine ⟨⟨⟨⟨⟨⟨⟨⟨⟨⟨⟨⟨⟨?_, ?_⟩, ?_⟩, ?_⟩, ?_⟩, ?_⟩, ?_⟩, ?_⟩, ?_⟩, ?_⟩, ?_⟩, ?_⟩, ?_⟩, ?_⟩
  · simp [wallEdgeClauses, wallNegative_map, a3, a8]
  · simp [cellClauses, cellWallClauses, wallNegative_flatMap, wallNegative_cons,
      wallNegative_nil, a3, a4]
  · simp [cornerClauses, wallNegative_cons, wallNegative_nil, a3]
  · simp [nodeClauses, nodeAlongClauses, nodeAwayClauses, wallNegative_flatMap,
      wallNegative_append, wallNegative_cons, wallNegative_nil, a3, a5, a6, a7]
  · simp [horizontalWallClauses, horizontalWallClausesAt, wallNegative_flatMap,
      wallNegative_cons, wallNegative_nil, a3, a4, a5, a6, a7]
  · simp [verticalWallClauses, verticalWallClausesAt, wallNegative_flatMap,
      wallNegative_cons, wallNegative_nil, a3, a4, a5, a6, a7]
  · simp [innerCellClauses, innerCellClausesAt, wallNegative_flatMap,
      wallNegative_cons, wallNegative_nil, a5, a6, a7]
  · simp [hamiltonClauses, fieldCoverClauses, fieldOnceClauses, posCoverClauses,
      posOnceClauses, wallNegative_append, wallNegative_flatMap, wallNegative_map,
      a1, a2]
  · simp [neighbourClauses, wallNegative_append, wallNegative_flatMap, wallNegative_map,
      wallNegative_cons, wallNegative_nil, a1, a2]
  · simp [wallBlockClauses, wallBlockClausesAt, wallNegative_append, wallNegative_flatMap,
      wallNegative_ite, wallNegative_cons, wallNegative_nil, a2, a8]
  · simp [entryExitClauses, wallNegative_cons, wallNegative_nil, a1]
  · simp [symmetryClauses, wallNegative_flatMap, wallNegative_ite, wallNegative_cons,
      wallNegative_nil, a2]
  · simp [borderClauses, borderPair, wallNegative_append, wallNegative_flatMap,
      wallNegative_cons, wallNegative_nil, a2, a8]
  · simp [cornerEntryClauses, cornerPair, wallNegative_append, wallNegative_cons,
      wallNegative_nil, a2, a8]

theorem eval_restrictWalls {σ : Assignment} {keep : Wall → Bool} {l : Lit}
    (hl : Lit.wallNeg l) (h : Lit.eval σ l = true) :
    Lit.eval (restrictWalls σ keep) l = true := by
  cases l with
  | mk x s =>
    cases x with
    | wall v =>
      have hs : s = true := hl v rfl
      subst hs
      simp only [Lit.eval, restrictWalls] at h ⊢
      cases hk : keep v <;> cases hσ : σ (Var.wall v) <;> simp_all
    | fp f p => exact h
    | edge v => exact h
    | node c o => exact h

theorem satisfies_restrictWalls {σ : Assignment} {cs : List Clause} (keep : Wall → Bool)
    (hcs : WallNegative cs) (h : Satisfies σ cs) : Satisfies (restrictWalls σ keep) cs := by
  intro c hc
  have := h c hc
  rw [clause_eval_iff] at this ⊢
  obtain ⟨l, hl, hev⟩ := this
  exact ⟨l, hl, eval_restrictWalls (hcs c hc l hl) hev⟩

theorem restrictWalls_fp (σ : Assignment) (keep : Wall → Bool) (f p : Int) :
    restrictWalls σ keep (Var.fp f p) = σ (Var.fp f p) := rfl

/-- Walls can be taken away from a satisfying assignment. -/
theorem satisfiableWith_shrink {cs : List Clause} (w h : Int) {σ : Assignment}
    (hcs : WallNegative cs) (hσ : Satisfies σ cs) (X : Wall → Prop) [DecidablePred X]
    (hX : ∀ v ∈ allWalls w h, X v → σ (Var.wall v) = true) :
    ∃ τ : Assignment, Satisfies τ cs ∧
      (∀ v ∈ allWalls w h, (τ (Var.wall v) = true ↔ X v)) ∧
      ∀ f p : Int, τ (Var.fp f p) = σ (Var.fp f p) := by
  refine ⟨restrictWalls σ (fun v => decide (X v)),
    satisfies_restrictWalls _ hcs hσ, ?_, fun f p => rfl⟩
  intro v hv
  simp only [restrictWalls, Bool.and_eq_true, decide_eq_true_eq]
  constructor
  · exact fun hh => hh.1
  · exact fun hh => ⟨hh, hX v hv hh⟩

theorem pathClause_wallNeg (dflt : Lit) (L : Int) (m : Assignment) :
    ∀ l ∈ pathClause dflt L m, Lit.wallNeg l := by
  intro l hl
  obtain ⟨f, p, -, -, -, rfl⟩ := mem_pathClause.mp hl
  intro v hv
  cases hv

theorem blocked_wallNegative {dflt : Lit} (hd : ∀ v : Wall, dflt.var ≠ Var.wall v)
    (w h : Int) (m : Assignment) :
    WallNegative (buildFormula dflt w h ++ [pathClause dflt (w * h) m]) := by
  rw [wallNegative_append, wallNegative_cons, wallNegative_nil]
  exact ⟨buildFormula_wallNegative hd w h, pathClause_wallNeg dflt _ m, trivial⟩

/-! ## The wall-minimisation loop: invariants -/

/-- One pass of the loop, without the bookkeeping of indices: a wall is taken out of the
candidate list, and it either joins the essential walls (the solver answered
"satisfiable") or the open walls (the solver answered "unsatisfiable"). -/
theorem minimizeStep_spec (S : SatSolver) (cs : List Clause) (w2l : Wall → Lit)
    (rng : Nat → Nat) (st : LoopState) (h : st.candidateWalls ≠ []) :
    ∃ (wall : Wall) (popped : List Wall), (wall :: popped).Perm st.candidateWalls ∧
      (minimizeStep S cs w2l rng st h).candidateWalls = popped ∧
      ((∃ m, S.solve st.calls cs
            (loopAssumptions w2l wall popped st.essentialWalls st.openWalls) = some m ∧
          (minimizeStep S cs w2l rng st h).essentialWalls = st.essentialWalls ++ [wall] ∧
          (minimizeStep S cs w2l rng st h).openWalls = st.openWalls) ∨
       (S.solve st.calls cs
            (loopAssumptions w2l wall popped st.essentialWalls st.openWalls) = none ∧
          (minimizeStep S cs w2l rng st h).essentialWalls = st.essentialWalls ∧
          (minimizeStep S cs w2l rng st h).openWalls = st.openWalls.insert wall)) := by
  have hidx : rng st.draws % st.candidateWalls.length < st.candidateWalls.length :=
    Nat.mod_lt _ (List.length_pos.mpr h)
  refine ⟨st.candidateWalls.get ⟨_, hidx⟩, swapPop st.candidateWalls _ hidx,
    swapPop_perm _ _ hidx, minimizeStep_candidates S cs w2l rng st h, ?_⟩
  unfold minimizeStep
  simp only
  cases hs : S.solve st.calls cs
      (loopAssumptions w2l (st.candidateWalls.get ⟨_, hidx⟩)
        (swapPop st.candidateWalls _ hidx) st.essentialWalls st.openWalls) with
  | none => exact Or.inr ⟨rfl, rfl, rfl⟩
  | some m => exact Or.inl ⟨m, rfl, rfl, rfl⟩

/-- A property kept by every pass holds when the loop ends. -/
theorem minimizeLoop_invariant (S : SatSolver) (cs : List Clause) (w2l : Wall → Lit)
    (rng : Nat → Nat) (Inv : LoopState → Prop)
    (hstep : ∀ st h, Inv st → Inv (minimizeStep S cs w2l rng st h)) :
    ∀ (fuel : Nat) (st final : LoopState), Inv st →
      minimizeLoop S cs w2l rng fuel st = some final →
      Inv final ∧ final.candidateWalls = []
  | fuel, st, final, hinv, hrun => by
    by_cases h : st.candidateWalls = []
    · rw [minimizeLoop_nil S cs w2l rng fuel st h] at hrun
      cases hrun
      exact ⟨hinv, h⟩
    · cases fuel with
      | zero =>
        rw [minimizeLoop_zero S cs w2l rng st h] at hrun
        cases hrun
      | succ n =>
        rw [minimizeLoop_succ S cs w2l rng n st h] at hrun
        exact minimizeLoop_invariant S cs w2l rng Inv hstep n _ final
          (hstep st h hinv) hrun

theorem holds_loopAssumptions {σ : Assignment} {w2l : Wall → Lit} {wall : Wall}
    {cand ess opn : List Wall} :
    Holds σ (loopAssumptions w2l wall cand ess opn) ↔
      Lit.eval σ (w2l wall).not = true ∧ (∀ v ∈ cand, Lit.eval σ (w2l v) = true) ∧
      (∀ v ∈ ess, Lit.eval σ (w2l v) = true) ∧
      (∀ v ∈ opn, Lit.eval σ (w2l v).not = true) := by
  unfold Holds loopAssumptions
  simp only [List.mem_cons, List.mem_append, List.mem_map]
  constructor
  · intro h
    refine ⟨h _ (Or.inl rfl), fun v hv => h _ (Or.inr (Or.inl (Or.inl ⟨v, hv, rfl⟩))),
      fun v hv => h _ (Or.inr (Or.inl (Or.inr ⟨v, hv, rfl⟩))),
      fun v hv => h _ (Or.inr (Or.inr ⟨v, hv, rfl⟩))⟩
  · rintro ⟨h1, h2, h3, h4⟩ l (rfl | (⟨v, hv, rfl⟩ | ⟨v, hv, rfl⟩) | ⟨v, hv, rfl⟩)
    · exact h1
    · exact h2 v hv
    · exact h3 v hv
    · exact h4 v hv

theorem eval_w2lit (dflt : Lit) {w h : Int} {v : Wall} (σ : Assignment)
    (hv : v ∈ allWalls w h) : Lit.eval σ (w2lit dflt w h v) = σ (Var.wall v) := by
  rw [w2lit_mem dflt hv, eval_mkLit]

theorem essentialInv_step (S : SatSolver) (cs : List Clause) (dflt : Lit) (w h : Int)
    (rng : Nat → Nat) (hsound : S.Sound) (hcs : WallNegative cs) (st : LoopState)
    (hne : st.candidateWalls ≠ []) (hinv : EssentialInv cs w h st) :
    EssentialInv cs w h (minimizeStep S cs (w2lit dflt w h) rng st hne) := by
  obtain ⟨hgrid, hess0⟩ := hinv
  obtain ⟨wall, popped, hperm, hcand, hcase⟩ :=
    minimizeStep_spec S cs (w2lit dflt w h) rng st hne
  have hmem : ∀ v, v ∈ st.candidateWalls ↔ v = wall ∨ v ∈ popped := by
    intro v
    rw [← hperm.mem_iff, List.mem_cons]
  rcases hcase with ⟨m, hsolve, hess, -⟩ | ⟨-, hess, -⟩
  · obtain ⟨hm, hA⟩ := hsound _ _ _ _ hsolve
    obtain ⟨-, hAc, hAe, -⟩ := holds_loopAssumptions.mp hA
    refine ⟨?_, ?_⟩
    · intro v hv
      rw [hcand, hess, List.mem_append, List.mem_singleton] at hv
      apply hgrid
      rcases hv with hv | hv | hv
      · exact Or.inl ((hmem v).mpr (Or.inr hv))
      · exact Or.inr hv
      · exact Or.inl ((hmem v).mpr (Or.inl hv))
    · intro u hu
      rw [hess, List.mem_append, List.mem_singleton] at hu
      rw [hcand, hess]
      rcases hu with hu | rfl
      · obtain ⟨σ, hσ, hw⟩ := hess0 u hu
        refine ⟨σ, hσ, fun v hv => ?_⟩
        have hw' := hw v hv
        simp only at hw'
        simp only [List.mem_append, List.mem_singleton]
        rw [hw', hmem]
        tauto
      · obtain ⟨τ, hτ, hw, -⟩ := satisfiableWith_shrink w h hcs hm
          (fun v => v ≠ u ∧ (v ∈ popped ∨ v ∈ st.essentialWalls ++ [u]))
          (by
            intro v hv hX
            simp only [List.mem_append, List.mem_singleton] at hX
            rcases hX with ⟨hvu, hp | he | hvu'⟩
            · rw [← eval_w2lit dflt m hv]
              exact hAc v hp
            · rw [← eval_w2lit dflt m hv]
              exact hAe v he
            · exact absurd hvu' hvu)
        exact ⟨τ, hτ, hw⟩
  · refine ⟨?_, ?_⟩
    · intro v hv
      rw [hcand, hess] at hv
      apply hgrid
      rcases hv with hv | hv
      · exact Or.inl ((hmem v).mpr (Or.inr hv))
      · exact Or.inr hv
    · intro u hu
      rw [hess] at hu
      rw [hcand, hess]
      obtain ⟨σ, hσ, hw⟩ := hess0 u hu
      obtain ⟨τ, hτ, hw2, -⟩ := satisfiableWith_shrink w h hcs hσ
        (fun v => v ≠ u ∧ (v ∈ popped ∨ v ∈ st.essentialWalls))
        (by
          intro v hv hX
          have hw' := hw v hv
          simp only at hw'
          rw [hw', hmem]
          tauto)
      exact ⟨τ, hτ, hw2⟩

/-! ## A Hamiltonian path inside a path is that path -/

theorem sampleLoop_model (S : SatSolver) (dflt : Lit) (w h : Int) (rng : Nat → Nat)
    (possibleWalls : List Wall) {m : Assignment} {d c : Nat} :
    ∀ (fuel draws calls : Nat),
      sampleLoop S dflt w h rng possibleWalls fuel draws calls = some (m, d, c) →
      ∃ k A, S.solve k (buildFormula dflt w h) A = some m
  | 0, _, _, hrun => by
    simp [sampleLoop] at hrun
  | fuel + 1, draws, calls, hrun => by
    unfold sampleLoop at hrun
    simp only at hrun
    split at hrun
    · split at hrun
      · rename_i m' hsolve
        simp only [Option.some.injEq, Prod.mk.injEq] at hrun
        rw [hrun.1] at hsolve
        exact ⟨_, _, hsolve⟩
      · exact sampleLoop_model S dflt w h rng possibleWalls fuel _ _ hrun
    · exact sampleLoop_model S dflt w h rng possibleWalls fuel _ _ hrun

theorem generateRun_some {S : SatSolver} {dflt : Lit} {rng : Nat → Nat}
    {possibleWalls openWalls0 : List Wall} {fuel : Nat} {w h : Int} {r : Run}
    (hrun : generateRun S dflt rng possibleWalls openWalls0 fuel w h = some r) :
    ∃ draws calls : Nat,
      sampleLoop S dflt w h rng possibleWalls fuel 0 0 = some (r.model, draws, calls) ∧
      r.path = extractPath dflt w h r.model ∧
      r.blocking = pathClause dflt (w * h) r.model ∧
      minimizeLoop S (buildFormula dflt w h ++ [r.blocking]) (w2lit dflt w h) rng fuel
        (initialLoopState r.path possibleWalls openWalls0 draws calls) = some r.final := by
  unfold generateRun at hrun
  split at hrun
  · cases hrun
  · rename_i m draws calls hsample
    simp only at hrun
    split at hrun
    · cases hrun
    · rename_i final hloop
      simp only [Option.some.injEq] at hrun
      subst hrun
      exact ⟨draws, calls, hsample, rfl, rfl, hloop⟩

theorem foldl_addWall (E : List Wall) :
    ∀ b : Board, (E.foldl Board.addWall b).walls = b.walls ++ E ∧
      (E.foldl Board.addWall b).width = b.width ∧
      (E.foldl Board.addWall b).height = b.height := by
  induction E with
  | nil => intro b; simp
  | cons x xs ih =>
    intro b
    rw [List.foldl_cons]
    obtain ⟨h1, h2, h3⟩ := ih (b.addWall x)
    refine ⟨?_, ?_, ?_⟩
    · rw [h1]
      simp [Board.addWall]
    · rw [h2]
      rfl
    · rw [h3]
      rfl

theorem generate_some {S : SatSolver} {dflt : Lit} {rng : Nat → Nat}
    {possibleWalls openWalls0 : List Wall} {fuel : Nat} {w h : Int} {b : Board}
    (hrun : generate S dflt rng possibleWalls openWalls0 fuel w h = some b) :
    ∃ r : Run, generateRun S dflt rng possibleWalls openWalls0 fuel w h = some r ∧
      b.walls = r.final.essentialWalls ∧ b.width = w ∧ b.height = h := by
  unfold generate at hrun
  cases hr : generateRun S dflt rng possibleWalls openWalls0 fuel w h with
  | none =>
    rw [hr] at hrun
    cases hrun
  | some r =>
    rw [hr] at hrun
    simp only [Option.map_some', Option.some.injEq] at hrun
    subst hrun
    obtain ⟨h1, h2, h3⟩ := foldl_addWall r.final.essentialWalls ⟨w, h, []⟩
    exact ⟨r, rfl, by rw [h1]; rfl, h2, h3⟩

theorem foldl_insert_mem (l : List Wall) :
    ∀ s : List Wall, ∀ v, v ∈ l.foldl (fun s v => s.insert v) s ↔ v ∈ s ∨ v ∈ l := by
  induction l with
  | nil => intro s v; simp
  | cons x xs ih =>
    intro s v
    rw [List.foldl_cons, ih, List.mem_insert_iff, List.mem_cons]
    tauto

theorem foldl_erase_mem (l : List Wall) :
    ∀ s : List Wall, ∀ v, v ∈ l.foldl (fun s v => s.erase v) s → v ∈ s := by
  induction l with
  | nil => intro s v hv; exact hv
  | cons x xs ih =>
    intro s v hv
    rw [List.foldl_cons] at hv
    exact List.mem_of_mem_erase (ih _ v hv)

theorem foldl_erase_not_mem (l : List Wall) :
    ∀ s : List Wall, s.Nodup → ∀ v, v ∈ l.foldl (fun s v => s.erase v) s → v ∉ l := by
  induction l with
  | nil => intro s _ v _; simp
  | cons x xs ih =>
    intro s hs v hv
    rw [List.foldl_cons] at hv
    have h1 := ih _ (hs.erase x) v hv
    have h2 := foldl_erase_mem xs _ v hv
    rw [hs.mem_erase_iff] at h2
    rw [List.mem_cons]
    tauto

theorem foldl_insert_nodup (l : List Wall) :
    ∀ s : List Wall, s.Nodup → (l.foldl (fun s v => s.insert v) s).Nodup := by
  induction l with
  | nil => intro s hs; exact hs
  | cons x xs ih =>
    intro s hs
    rw [List.foldl_cons]
    exact ih _ (hs.insert)

theorem mem_getNonblockingWalls {path : List Coordinates} {walls : List Wall} {v : Wall} :
    v ∈ getNonblockingWalls path walls ↔ v ∈ walls ∧ pathBlocking path v = false := by
  unfold getNonblockingWalls
  rw [List.mem_filter]
  simp

/-- The open walls with which the loop is entered are disjoint from the candidates. -/
theorem initial_open {path : List Coordinates} {possibleWalls openWalls0 : List Wall}
    {d c : Nat} {v : Wall}
    (hv : v ∈ (initialLoopState path possibleWalls openWalls0 d c).openWalls) :
    v ∈ openWalls0 ∧ v ∉ (initialLoopState path possibleWalls openWalls0 d c).candidateWalls := by
  unfold initialLoopState at hv ⊢
  simp only at hv ⊢
  constructor
  · have := foldl_erase_mem _ _ v hv
    rw [foldl_insert_mem] at this
    rcases this with h | h
    · cases h
    · exact h
  · exact foldl_erase_not_mem _ _ (foldl_insert_nodup _ _ List.nodup_nil) v hv

/-- Membership in the candidate or essential list is inherited from the state before. -/
theorem subset_step (S : SatSolver) (cs : List Clause) (w2l : Wall → Lit)
    (rng : Nat → Nat) (P : Wall → Prop) (st : LoopState) (hne : st.candidateWalls ≠ [])
    (hinv : ∀ v, v ∈ st.candidateWalls ∨ v ∈ st.essentialWalls → P v) :
    ∀ v, v ∈ (minimizeStep S cs w2l rng st hne).candidateWalls ∨
      v ∈ (minimizeStep S cs w2l rng st hne).essentialWalls → P v := by
  obtain ⟨wall, popped, hperm, hcand, hcase⟩ := minimizeStep_spec S cs w2l rng st hne
  have hmem : ∀ v, v ∈ st.candidateWalls ↔ v = wall ∨ v ∈ popped := by
    intro v
    rw [← hperm.mem_iff, List.mem_cons]
  intro v hv
  apply hinv
  rcases hcase with ⟨m, -, hess, -⟩ | ⟨-, hess, -⟩
  · rw [hcand, hess, List.mem_append, List.mem_singleton] at hv
    rw [hmem]
    tauto
  · rw [hcand, hess] at hv
    rw [hmem]
    tauto

theorem nodup_step (S : SatSolver) (cs : List Clause) (w2l : Wall → Lit)
    (rng : Nat → Nat) (st : LoopState) (hne : st.candidateWalls ≠ [])
    (hinv : (st.candidateWalls ++ st.essentialWalls).Nodup) :
    ((minimizeStep S cs w2l rng st hne).candidateWalls ++
      (minimizeStep S cs w2l rng st hne).essentialWalls).Nodup := by
  obtain ⟨wall, popped, hperm, hcand, hcase⟩ := minimizeStep_spec S cs w2l rng st hne
  have hnd' : (wall :: (popped ++ st.essentialWalls)).Nodup := by
    have : (wall :: (popped ++ st.essentialWalls)).Perm
        (st.candidateWalls ++ st.essentialWalls) := by
      rw [← List.cons_append]
      exact hperm.append_right _
    exact this.nodup_iff.mpr hinv
  rcases hcase with ⟨m, -, hess, -⟩ | ⟨-, hess, -⟩
  · rw [hcand, hess, ← List.append_assoc]
    exact (List.perm_append_singleton _ _).nodup_iff.mpr hnd'
  · rw [hcand, hess]
    exact (List.nodup_cons.mp hnd').2

theorem holds_boardAssumptions {dflt : Lit} {w h : Int} {σ : Assignment} {E : List Wall}
    (hE : ∀ v ∈ E, v ∈ allWalls w h) :
    Holds σ (boardAssumptions dflt w h E) ↔
      ∀ v ∈ allWalls w h, (σ (Var.wall v) = true ↔ v ∈ E) := by
  unfold Holds boardAssumptions
  simp only [List.mem_append, List.mem_map, List.mem_filter, decide_eq_true_eq]
  constructor
  · intro hA v hv
    constructor
    · intro hσ
      by_contra hvE
      have := hA _ (Or.inr ⟨v, ⟨hv, hvE⟩, rfl⟩)
      rw [eval_not, eval_w2lit dflt σ hv, hσ] at this
      cases this
    · intro hvE
      have := hA _ (Or.inl ⟨v, hvE, rfl⟩)
      rw [eval_w2lit dflt σ hv] at this
      exact this
  · rintro hw l (⟨v, hvE, rfl⟩ | ⟨v, ⟨hv, hvE⟩, rfl⟩)
    · rw [eval_w2lit dflt σ (hE v hvE)]
      exact (hw v (hE v hvE)).mpr hvE
    · rw [eval_not, eval_w2lit dflt σ hv]
      have := (hw v hv).not.mpr hvE
      simpa using this

theorem run_model {S : SatSolver} {dflt : Lit} {rng : Nat → Nat}
    {possibleWalls openWalls0 : List Wall} {fuel : Nat} {w h : Int} {r : Run}
    (hsound : S.Sound)
    (hrun : generateRun S dflt rng possibleWalls openWalls0 fuel w h = some r) :
    Satisfies r.model (buildFormula dflt w h) := by
  obtain ⟨draws, calls, hsample, -, -, -⟩ := generateRun_some hrun
  obtain ⟨k, A, hsolve⟩ := sampleLoop_model S dflt w h rng possibleWalls fuel 0 0 hsample
  exact (hsound _ _ _ _ hsolve).1

/-- The installed walls are candidates: walls of `possibleWalls` that do not block the
extracted path. -/
theorem run_candidates {S : SatSolver} {dflt : Lit} {rng : Nat → Nat}
    {possibleWalls openWalls0 : List Wall} {fuel : Nat} {w h : Int} {r : Run}
    (hrun : generateRun S dflt rng possibleWalls openWalls0 fuel w h = some r) :
    ∀ v ∈ r.final.essentialWalls, v ∈ possibleWalls ∧ pathBlocking r.path v = false := by
  obtain ⟨draws, calls, -, -, -, hloop⟩ := generateRun_some hrun
  have := (minimizeLoop_invariant S _ (w2lit dflt w h) rng
    (fun st => ∀ v, v ∈ st.candidateWalls ∨ v ∈ st.essentialWalls →
      v ∈ possibleWalls ∧ pathBlocking r.path v = false)
    (fun st hne hinv => subset_step S _ _ rng _ st hne hinv) fuel _ _
    (by
      intro v hv
      rcases hv with hv | hv
      · exact mem_getNonblockingWalls.mp hv
      · cases hv) hloop).1
  exact fun v hv => this v (Or.inr hv)

theorem run_nodup {S : SatSolver} {dflt : Lit} {rng : Nat → Nat}
    {possibleWalls openWalls0 : List Wall} {fuel : Nat} {w h : Int} {r : Run}
    (hnd : possibleWalls.Nodup)
    (hrun : generateRun S dflt rng possibleWalls openWalls0 fuel w h = some r) :
    r.final.essentialWalls.Nodup := by
  obtain ⟨draws, calls, -, -, -, hloop⟩ := generateRun_some hrun
  obtain ⟨hinv, hnil⟩ := minimizeLoop_invariant S _ (w2lit dflt w h) rng
    (fun st => (st.candidateWalls ++ st.essentialWalls).Nodup)
    (fun st hne hinv => nodup_step S _ _ rng st hne hinv) fuel _ _
    (by
      show (getNonblockingWalls r.path possibleWalls ++ []).Nodup
      rw [List.append_nil]
      exact hnd.filter _) hloop
  simp only [hnil, List.nil_append] at hinv
  exact hinv

/-- Every installed wall can be taken away: the blocked formula is satisfiable on the
final board without it. -/
theorem run_essential {S : SatSolver} {dflt : Lit} {rng : Nat → Nat}
    {possibleWalls openWalls0 : List Wall} {fuel : Nat} {w h : Int} {r : Run}
    (hd : ∀ v : Wall, dflt.var ≠ Var.wall v) (hsound : S.Sound)
    (hsub : ∀ v ∈ possibleWalls, v ∈ allWalls w h)
    (hrun : generateRun S dflt rng possibleWalls openWalls0 fuel w h = some r) :
    ∀ u ∈ r.final.essentialWalls,
      SatisfiableWith (buildFormula dflt w h ++ [r.blocking]) w h
        (fun v => v ≠ u ∧ v ∈ r.final.essentialWalls) := by
  obtain ⟨draws, calls, -, -, hblock, hloop⟩ := generateRun_some hrun
  have hcs : WallNegative (buildFormula dflt w h ++ [r.blocking]) := by
    rw [hblock]
    exact blocked_wallNegative hd w h r.model
  obtain ⟨⟨-, hess⟩, hnil⟩ := minimizeLoop_invariant S _ (w2lit dflt w h) rng
    (EssentialInv (buildFormula dflt w h ++ [r.blocking]) w h)
    (fun st hne hinv => essentialInv_step S _ dflt w h rng hsound hcs st hne hinv)
    fuel _ _ (by
      refine ⟨?_, ?_⟩
      · intro v hv
        rcases hv with hv | hv
        · exact hsub v (mem_getNonblockingWalls.mp hv).1
        · cases hv
      · intro u hu
        cases hu) hloop
  intro u hu
  obtain ⟨σ, hσ, hw⟩ := hess u hu
  refine ⟨σ, hσ, fun v hv => ?_⟩
  have := hw v hv
  simp only [hnil, List.not_mem_nil, false_or] at this
  exact this

theorem satisfiable_of_with {cs : List Clause} (dflt : Lit) {w h : Int} {E : List Wall}
    {u : Wall} (hE : ∀ v ∈ E, v ∈ allWalls w h)
    (hsat : SatisfiableWith cs w h (fun v => v ≠ u ∧ v ∈ E)) :
    Satisfiable cs (boardAssumptions dflt w h (E.filter fun v => v ≠ u)) := by
  obtain ⟨σ, hσ, hw⟩ := hsat
  refine ⟨σ, hσ, ?_⟩
  rw [holds_boardAssumptions (fun v hv => hE v (List.mem_filter.mp hv).1)]
  intro v hv
  rw [hw v hv, List.mem_filter]
  simp only [decide_eq_true_eq]
  tauto

/-- Run again on the final board, the loop keeps every wall. -/
theorem rerun_keeps_walls {cs : List Clause} {dflt : Lit} {w h : Int} {E : List Wall}
    (hE : ∀ v ∈ E, v ∈ allWalls w h) (hnd : E.Nodup)
    (hess : ∀ u ∈ E, SatisfiableWith cs w h (fun v => v ≠ u ∧ v ∈ E))
    (S : SatSolver) (hcomplete : S.CompleteOn cs) (rng : Nat → Nat) (st : LoopState)
    (hne : st.candidateWalls ≠ [])
    (hinv : (st.candidateWalls ++ st.essentialWalls).Perm E ∧
      st.openWalls = otherWalls w h E) :
    ((minimizeStep S cs (w2lit dflt w h) rng st hne).candidateWalls ++
        (minimizeStep S cs (w2lit dflt w h) rng st hne).essentialWalls).Perm E ∧
      (minimizeStep S cs (w2lit dflt w h) rng st hne).openWalls = otherWalls w h E := by
  obtain ⟨hperm0, hopen0⟩ := hinv
  obtain ⟨wall, popped, hperm, hcand, hcase⟩ :=
    minimizeStep_spec S cs (w2lit dflt w h) rng st hne
  have hall : (wall :: (popped ++ st.essentialWalls)).Perm E := by
    rw [← List.cons_append]
    exact (hperm.append_right _).trans hperm0
  have hnd' := hall.nodup_iff.mpr hnd
  rw [List.nodup_cons, List.mem_append] at hnd'
  have hmemE : ∀ v, v ∈ E ↔ v = wall ∨ v ∈ popped ∨ v ∈ st.essentialWalls := by
    intro v
    rw [← hall.mem_iff, List.mem_cons, List.mem_append]
  rcases hcase with ⟨m, -, hess', hopn⟩ | ⟨hnone, -, -⟩
  · refine ⟨?_, by rw [hopn, hopen0]⟩
    rw [hcand, hess', ← List.append_assoc]
    exact (List.perm_append_singleton _ _).trans hall
  · exfalso
    have hwallE : wall ∈ E := (hmemE wall).mpr (Or.inl rfl)
    obtain ⟨σ, hσ, hw⟩ := hess wall hwallE
    apply hcomplete _ _ hnone
    refine ⟨σ, hσ, holds_loopAssumptions.mpr ⟨?_, ?_, ?_, ?_⟩⟩
    · rw [eval_not, eval_w2lit dflt σ (hE wall hwallE)]
      have := (hw wall (hE wall hwallE)).not.mpr (fun hh => hh.1 rfl)
      simpa using this
    · intro v hv
      have hvE : v ∈ E := (hmemE v).mpr (Or.inr (Or.inl hv))
      rw [eval_w2lit dflt σ (hE v hvE), hw v (hE v hvE)]
      exact ⟨fun e => hnd'.1 (Or.inl (e ▸ hv)), hvE⟩
    · intro v hv
      have hvE : v ∈ E := (hmemE v).mpr (Or.inr (Or.inr hv))
      rw [eval_w2lit dflt σ (hE v hvE), hw v (hE v hvE)]
      exact ⟨fun e => hnd'.1 (Or.inr (e ▸ hv)), hvE⟩
    · intro v hv
      rw [hopen0] at hv
      unfold otherWalls at hv
      rw [List.mem_filter] at hv
      rw [eval_not, eval_w2lit dflt σ hv.1]
      have hvE : v ∉ E := by simpa using hv.2
      have := (hw v hv.1).not.mpr (fun hh => hvE hh.2)
      simpa using this

/-! ## The example solver -/

theorem tryingSolver_sound (candidates : List Assignment) :
    (tryingSolver candidates).Sound := by
  intro k cs A m hsolve
  have := List.find?_some hsolve
  simp only [Bool.and_eq_true, List.all_eq_true] at this
  exact ⟨(satisfiesB_iff m cs).mp this.1, this.2⟩

/-- On the 2×1 grid every model walks the path `0, 1`, so the formula blocked for the
path of a model is unsatisfiable and "unsatisfiable" is always the right answer. -/
theorem blocked21_unsat (dflt : Lit) (m : Assignment)
    (hm : Satisfies m (buildFormula dflt 2 1)) (A : List Lit) :
    ¬ Satisfiable (buildFormula dflt 2 1 ++ [pathClause dflt (2 * 1) m]) A := by
  rintro ⟨σ, hσ, -⟩
  rw [satisfies_append] at hσ
  obtain ⟨em, xm, ⟨em0, em1, hem⟩, ⟨xm0, xm1, hxm⟩, -, -, hmlt⟩ :=
    endpoints_of_formula (by decide) hm
  obtain ⟨eσ, xσ, ⟨eσ0, eσ1, heσ⟩, ⟨xσ0, xσ1, hxσ⟩, -, -, hσlt⟩ :=
    endpoints_of_formula (by decide) hσ.1
  have bm := bijection_of_formula hm
  have hfalse : Clause.eval σ (pathClause dflt (2 * 1) m) = false := by
    rw [pathClause_false_iff]
    intro f p f0 f1 p0 p1 hmfp
    have e1 : em = 0 := by omega
    have e2 : xm = 1 := by omega
    have e3 : eσ = 0 := by omega
    have e4 : xσ = 1 := by omega
    subst e1 e2 e3 e4
    have hf : f = 0 ∨ f = 1 := by omega
    rcases hf with rfl | rfl
    · have := (bm.1 0 (by decide) (by decide)).2 p 0 p0 p1 (by decide) (by decide) hmfp hem
      subst this
      exact heσ
    · have := (bm.1 1 (by decide) (by decide)).2 p (2 * 1 - 1) p0 p1 (by decide)
        (by decide) hmfp hxm
      subst this
      exact hxσ
  have := hσ.2 _ (List.mem_singleton.mpr rfl)
  rw [hfalse] at this
  cases this

set_option maxRecDepth 100000 in
theorem example_run21 :
    generate (tryingSolver [model21]) minisatDefault (fun i => 2 * i) (allWalls 2 1)
      (allWalls 2 1) 8 2 1 = some ⟨2, 1, []⟩ := by
  decide

set_option maxRecDepth 100000 in
theorem example_run22 :
    generate (tryingSolver [model22, model22b]) minisatDefault (fun i => i)
      interiorWalls22 interiorWalls22 4 2 2 = some ⟨2, 2, [⟨⟨0, 1⟩, Orientation.H⟩]⟩ := by
  decide


/-! ## The sampled path -/

theorem length_flatMap_const {α β : Type} (f : α → List β) (k : Nat) :
    ∀ l : List α, (∀ a ∈ l, (f a).length = k) → (l.flatMap f).length = l.length * k
  | [], _ => by simp
  | a :: l, h => by
    have ih := length_flatMap_const f k l (fun b hb => h b (List.mem_cons_of_mem _ hb))
    rw [List.flatMap_cons, List.length_append, ih, h a (List.mem_cons_self _ _),
      List.length_cons, Nat.succ_mul, Nat.add_comm]

theorem nodup_flatMap_of_disjoint {α β : Type} {f : α → List β} {l : List α}
    (hl : l.Nodup) (hf : ∀ a ∈ l, (f a).Nodup)
    (hd : ∀ a ∈ l, ∀ b ∈ l, a ≠ b → ∀ z, z ∈ f a → z ∈ f b → False) :
    (l.flatMap f).Nodup := by
  rw [List.nodup_flatMap]
  refine ⟨hf, ?_⟩
  apply List.Pairwise.imp_of_mem _ hl
  intro a b ha hb hab
  simp only [Function.onFun, List.disjoint_left]
  intro z hza hzb
  exact hd a ha b hb hab z hza hzb

theorem allWalls_nodup (width height : Int) : (allWalls width height).Nodup := by
  unfold allWalls
  rw [List.nodup_append]
  refine ⟨?_, ?_, ?_⟩
  · apply nodup_flatMap_of_disjoint (intRange_nodup _ _)
    · intro y _
      apply List.Nodup.map _ (intRange_nodup _ _)
      intro a b hab
      simp only [Wall.mk.injEq, Coordinates.mk.injEq, and_true] at hab
      exact hab
    · intro a _ b _ hab z hza hzb
      simp only [List.mem_map] at hza hzb
      obtain ⟨x, -, rfl⟩ := hza
      obtain ⟨x', -, h⟩ := hzb
      simp only [Wall.mk.injEq, Coordinates.mk.injEq, and_true] at h
      exact hab h.2.symm
  · apply nodup_flatMap_of_disjoint (intRange_nodup _ _)
    · intro y _
      apply List.Nodup.map _ (intRange_nodup _ _)
      intro a b hab
      simp only [Wall.mk.injEq, Coordinates.mk.injEq, and_true] at hab
      exact hab
    · intro a _ b _ hab z hza hzb
      simp only [List.mem_map] at hza hzb
      obtain ⟨x, -, rfl⟩ := hza
      obtain ⟨x', -, h⟩ := hzb
      simp only [Wall.mk.injEq, Coordinates.mk.injEq, and_true] at h
      exact hab h.2.symm
  · rw [List.disjoint_left]
    intro z hz1 hz2
    simp only [List.mem_flatMap, List.mem_map] at hz1 hz2
    obtain ⟨y, -, x, -, rfl⟩ := hz1
    obtain ⟨y', -, x', -, h⟩ := hz2
    simp at h

theorem allWalls_length (width height : Int) :
    (allWalls width height).length =
      height.toNat * (width + 1).toNat + (height + 1).toNat * width.toNat := by
  unfold allWalls
  rw [List.length_append,
    length_flatMap_const _ (width + 1).toNat _ (fun y _ => by
      rw [List.length_map, intRange_length]; simp),
    length_flatMap_const _ width.toNat _ (fun y _ => by
      rw [List.length_map, intRange_length]; simp),
    intRange_length, intRange_length]
  simp

theorem wrapInt_eq {z : Int} (h0 : -2147483648 ≤ z) (h1 : z ≤ 2147483647) :
    wrapInt z = z := by
  unfold wrapInt
  omega

/-- As long as the product and the sum stay in the range of `int`, the `int` arithmetic
of `c2f` yields the exact value. -/
theorem c2fInt_eq (c : Coordinates) (width : Int)
    (hp : -2147483648 ≤ c.y * width ∧ c.y * width ≤ 2147483647)
    (hs : -2147483648 ≤ c.x + c.y * width ∧ c.x + c.y * width ≤ 2147483647) :
    c2fInt c width = c2f c width := by
  unfold c2fInt c2f
  rw [wrapInt_eq hp.1 hp.2, wrapInt_eq hs.1 hs.2]

theorem c2fInt_cell {width x y : Int} (hx : 0 ≤ x ∧ x < width) (hy : 0 ≤ y)
    (hmax : x + y * width ≤ 2147483647) :
    c2fInt ⟨x, y⟩ width = x + y * width := by
  have hyw : 0 ≤ y * width := mul_nonneg hy (by omega)
  have := c2fInt_eq ⟨x, y⟩ width ⟨by simp only; omega, by simp only; omega⟩
    ⟨by simp only; omega, by simp only; omega⟩
  rw [this]
  rfl

theorem c2fInt_f2c {width f : Int} (hW : 1 ≤ width) (hf : 0 ≤ f ∧ f ≤ 2147483647) :
    c2fInt (f2c f width) width = f := by
  have hsum := c2f_f2c f width
  have hx : 0 ≤ (f2c f width).x := Int.tmod_nonneg _ hf.1
  have hy : 0 ≤ (f2c f width).y := Int.tdiv_nonneg hf.1 (by omega)
  have hyw : 0 ≤ (f2c f width).y * width := mul_nonneg hy (by omega)
  unfold c2f at hsum
  rw [c2fInt_eq _ _ ⟨by omega, by omega⟩ ⟨by omega, by omega⟩]
  unfold c2f
  exact hsum

/-! ## The node clauses -/

theorem nodeAlong_sub (dflt : Lit) {width height : Int} {c : Coordinates}
    (hc : c ∈ allCoordinates width height) :
    ∀ cl ∈ nodeAlongClauses dflt width height c, cl ∈ buildFormula dflt width height := by
  intro cl hcl
  have : cl ∈ nodeClauses dflt width height := by
    unfold nodeClauses
    exact List.mem_flatMap.mpr ⟨c, hc, List.mem_append_left _ hcl⟩
  simp only [buildFormula, List.mem_append]
  tauto

theorem horizontalWall_sub (dflt : Lit) {width height x y : Int}
    (hx : 1 ≤ x ∧ x ≤ width - 2) (hy : 1 ≤ y ∧ y ≤ height - 1) :
    ∀ cl ∈ horizontalWallClausesAt dflt width height x y,
      cl ∈ buildFormula dflt width height := by
  intro cl hcl
  have : cl ∈ horizontalWallClauses dflt width height := by
    unfold horizontalWallClauses
    exact List.mem_flatMap.mpr ⟨y, mem_intRange.mpr ⟨hy.1, by omega⟩,
      List.mem_flatMap.mpr ⟨x, mem_intRange.mpr ⟨hx.1, by omega⟩, hcl⟩⟩
  simp only [buildFormula, List.mem_append]
  tauto

theorem verticalWall_sub (dflt : Lit) {width height x y : Int}
    (hx : 1 ≤ x ∧ x ≤ width - 1) (hy : 1 ≤ y ∧ y ≤ height - 2) :
    ∀ cl ∈ verticalWallClausesAt dflt width height x y,
      cl ∈ buildFormula dflt width height := by
  intro cl hcl
  have : cl ∈ verticalWallClauses dflt width height := by
    unfold verticalWallClauses
    exact List.mem_flatMap.mpr ⟨y, mem_intRange.mpr ⟨hy.1, by omega⟩,
      List.mem_flatMap.mpr ⟨x, mem_intRange.mpr ⟨hx.1, by omega⟩, hcl⟩⟩
  simp only [buildFormula, List.mem_append]
  tauto

theorem innerCell_sub (dflt : Lit) {width height x y : Int}
    (hx : 1 ≤ x ∧ x ≤ width - 2) (hy : 1 ≤ y ∧ y ≤ height - 2) :
    ∀ cl ∈ innerCellClausesAt dflt width height x y,
      cl ∈ buildFormula dflt width height := by
  intro cl hcl
  have : cl ∈ innerCellClauses dflt width height := by
    unfold innerCellClauses
    exact List.mem_flatMap.mpr ⟨y, mem_intRange.mpr ⟨hy.1, by omega⟩,
      List.mem_flatMap.mpr ⟨x, mem_intRange.mpr ⟨hx.1, by omega⟩, hcl⟩⟩
  simp only [buildFormula, List.mem_append]
  tauto

theorem node2lit_mem (dflt : Lit) (width height : Int) (c : Coordinates)
    (hc : 0 ≤ c.x ∧ c.x < width ∧ 0 ≤ c.y ∧ c.y < height) (o : Orientation2) :
    node2lit dflt width height c o = mkLit (Var.node c o) := by
  unfold node2lit
  rw [if_pos hc]

/-- The four "oriented along a wall" clauses of a node hold exactly when the edge literal
looked up for the segment in the encoded direction is true. -/
theorem nodeAlong_iff (dflt : Lit) (width height : Int) (c : Coordinates) (σ : Assignment) :
    Satisfies σ (nodeAlongClauses dflt width height c) ↔
      Lit.eval σ (edge2lit dflt width height
        (nodeSegment c (nodeDirection dflt width height σ c))) = true := by
  unfold Satisfies nodeAlongClauses nodeDirection
  simp only [List.mem_cons, List.mem_singleton, List.not_mem_nil, or_false,
    forall_eq_or_imp, forall_eq, Clause.eval, List.any_cons, List.any_nil, eval_not]
  cases Lit.eval σ (node2lit dflt width height c Orientation2.NW) <;>
    cases Lit.eval σ (node2lit dflt width height c Orientation2.NE) <;>
    simp [direction, nodeSegment]

/-- For a node whose four segments are walls of the grid (the node is neither in the last
column nor in the last row), the four "oriented along a wall" clauses make the edge
variable of the segment in the encoded direction true. -/
theorem nodeAlong_inner (dflt : Lit) {width height : Int} {c : Coordinates}
    (hc : 0 ≤ c.x ∧ c.x + 1 < width ∧ 0 ≤ c.y ∧ c.y + 1 < height) (σ : Assignment)
    (hσ : Satisfies σ (nodeAlongClauses dflt width height c)) :
    σ (Var.edge (nodeSegment c (direction (σ (Var.node c Orientation2.NW))
      (σ (Var.node c Orientation2.NE))))) = true := by
  have hin : 0 ≤ c.x ∧ c.x < width ∧ 0 ≤ c.y ∧ c.y < height := by omega
  have hev := (nodeAlong_iff dflt width height c σ).mp hσ
  unfold nodeDirection at hev
  rw [node2lit_mem dflt width height c hin, node2lit_mem dflt width height c hin,
    eval_mkLit, eval_mkLit] at hev
  have hmem : ∀ d : Direction, nodeSegment c d ∈ allWalls width height := by
    intro d
    rw [mem_allWalls]
    cases d <;> simp only [nodeSegment, Coordinates.offset, true_and, false_and,
      or_false, false_or, reduceCtorEq] <;> omega
  rw [edge2lit_mem dflt (hmem _), eval_mkLit] at hev
  exact hev

/-- The seven clauses of a horizontal non-border wall, in terms of the node bits. -/
theorem horizontalWall_cover (dflt : Lit) {width height x y : Int}
    (hx : 1 ≤ x ∧ x ≤ width - 2) (hy : 1 ≤ y ∧ y ≤ height - 1) {σ : Assignment}
    (hσ : Satisfies σ (horizontalWallClausesAt dflt width height x y))
    (he : σ (Var.edge ⟨⟨x, y⟩, Orientation.H⟩) = true) :
    (direction (σ (Var.node ⟨x - 1, y - 1⟩ Orientation2.NW))
        (σ (Var.node ⟨x - 1, y - 1⟩ Orientation2.NE)) = Direction.E ∨
      direction (σ (Var.node ⟨x, y - 1⟩ Orientation2.NW))
        (σ (Var.node ⟨x, y - 1⟩ Orientation2.NE)) = Direction.W) ∧
    ¬ (direction (σ (Var.node ⟨x - 1, y - 1⟩ Orientation2.NW))
        (σ (Var.node ⟨x - 1, y - 1⟩ Orientation2.NE)) = Direction.E ∧
      direction (σ (Var.node ⟨x, y - 1⟩ Orientation2.NW))
        (σ (Var.node ⟨x, y - 1⟩ Orientation2.NE)) = Direction.W) := by
  have hw : Wall.mk ⟨x, y⟩ Orientation.H ∈ allWalls width height :=
    mem_allWalls.mpr (Or.inr ⟨rfl, by simp only; omega⟩)
  have n1 := node2lit_mem dflt width height ⟨x - 1, y - 1⟩ (by simp only; omega)
  have n2 := node2lit_mem dflt width height ⟨x, y - 1⟩ (by simp only; omega)
  unfold Satisfies horizontalWallClausesAt at hσ
  simp only [edge2lit_mem dflt hw, n1, n2, List.mem_cons, List.mem_singleton,
    List.not_mem_nil, or_false, forall_eq_or_imp, forall_eq, Clause.eval, List.any_cons,
    List.any_nil, eval_not, eval_mkLit, he] at hσ
  revert hσ
  cases σ (Var.node ⟨x - 1, y - 1⟩ Orientation2.NW) <;>
    cases σ (Var.node ⟨x - 1, y - 1⟩ Orientation2.NE) <;>
    cases σ (Var.node ⟨x, y - 1⟩ Orientation2.NW) <;>
    cases σ (Var.node ⟨x, y - 1⟩ Orientation2.NE) <;>
    simp [direction]

/-- The seven clauses of a vertical non-border wall, in terms of the node bits. -/
theorem verticalWall_cover (dflt : Lit) {width height x y : Int}
    (hx : 1 ≤ x ∧ x ≤ width - 1) (hy : 1 ≤ y ∧ y ≤ height - 2) {σ : Assignment}
    (hσ : Satisfies σ (verticalWallClausesAt dflt width height x y))
    (he : σ (Var.edge ⟨⟨x, y⟩, Orientation.V⟩) = true) :
    (direction (σ (Var.node ⟨x - 1, y - 1⟩ Orientation2.NW))
        (σ (Var.node ⟨x - 1, y - 1⟩ Orientation2.NE)) = Direction.S ∨
      direction (σ (Var.node ⟨x - 1, y⟩ Orientation2.NW))
        (σ (Var.node ⟨x - 1, y⟩ Orientation2.NE)) = Direction.N) ∧
    ¬ (direction (σ (Var.node ⟨x - 1, y - 1⟩ Orientation2.NW))
        (σ (Var.node ⟨x - 1, y - 1⟩ Orientation2.NE)) = Direction.S ∧
      direction (σ (Var.node ⟨x - 1, y⟩ Orientation2.NW))
        (σ (Var.node ⟨x - 1, y⟩ Orientation2.NE)) = Direction.N) := by
  have hw : Wall.mk ⟨x, y⟩ Orientation.V ∈ allWalls width height :=
    mem_allWalls.mpr (Or.inl ⟨rfl, by simp only; omega⟩)
  have n1 := node2lit_mem dflt width height ⟨x - 1, y - 1⟩ (by simp only; omega)
  have n2 := node2lit_mem dflt width height ⟨x - 1, y⟩ (by simp only; omega)
  unfold Satisfies verticalWallClausesAt at hσ
  simp only [edge2lit_mem dflt hw, n1, n2, List.mem_cons, List.mem_singleton,
    List.not_mem_nil, or_false, forall_eq_or_imp, forall_eq, Clause.eval, List.any_cons,
    List.any_nil, eval_not, eval_mkLit, he] at hσ
  revert hσ
  cases σ (Var.node ⟨x - 1, y - 1⟩ Orientation2.NW) <;>
    cases σ (Var.node ⟨x - 1, y - 1⟩ Orientation2.NE) <;>
    cases σ (Var.node ⟨x - 1, y⟩ Orientation2.NW) <;>
    cases σ (Var.node ⟨x - 1, y⟩ Orientation2.NE) <;>
    simp [direction]

theorem innerCellLits_eq (dflt : Lit) {width height x y : Int}
    (hx : 1 ≤ x ∧ x ≤ width - 2) (hy : 1 ≤ y ∧ y ≤ height - 2) :
    innerCellLits dflt width height x y =
      [ (mkLit (Var.node ⟨x, y⟩ Orientation2.NW)).not,
        mkLit (Var.node ⟨x, y + 1⟩ Orientation2.NE),
        (mkLit (Var.node ⟨x + 1, y⟩ Orientation2.NE)).not,
        mkLit (Var.node ⟨x + 1, y + 1⟩ Orientation2.NW) ] := by
  unfold innerCellLits
  rw [node2lit_mem dflt width height ⟨x, y⟩ (by simp only; omega),
    node2lit_mem dflt width height ⟨x, y + 1⟩ (by simp only; omega),
    node2lit_mem dflt width height ⟨x + 1, y⟩ (by simp only; omega),
    node2lit_mem dflt width height ⟨x + 1, y + 1⟩ (by simp only; omega)]

/-- The four clauses of a non-border cell hold exactly when at most two of its four
literals are true. -/
theorem innerCell_iff (dflt : Lit) (width height x y : Int) (σ : Assignment) :
    Satisfies σ (innerCellClausesAt dflt width height x y) ↔
      trueCount σ (innerCellLits dflt width height x y) ≤ 2 := by
  unfold Satisfies innerCellClausesAt trueCount innerCellLits
  simp only [List.mem_cons, List.mem_singleton, List.not_mem_nil, or_false,
    forall_eq_or_imp, forall_eq, Clause.eval, List.any_cons, List.any_nil, eval_not,
    List.countP_cons, List.countP_nil]
  cases Lit.eval σ (node2lit dflt width height ⟨x, y⟩ Orientation2.NW) <;>
    cases Lit.eval σ (node2lit dflt width height ⟨x, y + 1⟩ Orientation2.NE) <;>
    cases Lit.eval σ (node2lit dflt width height ⟨x + 1, y⟩ Orientation2.NE) <;>
    cases Lit.eval σ (node2lit dflt width height ⟨x + 1, y + 1⟩ Orientation2.NW) <;>
    decide

set_option maxRecDepth 100000 in
theorem model32w_satisfies : Satisfies model32w (buildFormula minisatDefault 3 2) :=
  (satisfiesB_iff _ _).mp (by decide)

set_option maxRecDepth 1000000 in
set_option maxHeartbeats 4000000 in
theorem model33w_satisfies : Satisfies model33w (buildFormula minisatDefault 3 3) :=
  (satisfiesB_iff _ _).mp (by decide)

set_option maxRecDepth 100000 in
theorem model22e_satisfies : Satisfies model22e (buildFormula minisatDefault 2 2) :=
  (satisfiesB_iff _ _).mp (by decide)

/-! ## The wall lists of the loop form a partition -/

theorem minimizeStep_solve (S : SatSolver) (cs : List Clause) (w2l : Wall → Lit)
    (rng : Nat → Nat) (st : LoopState) (h : st.candidateWalls ≠ []) :
    ∃ (wall : Wall) (popped : List Wall), (wall :: popped).Perm st.candidateWalls ∧
      stepAssumptions w2l rng st h =
        loopAssumptions w2l wall popped st.essentialWalls st.openWalls ∧
      (minimizeStep S cs w2l rng st h).candidateWalls = popped ∧
      (((S.solve st.calls cs (stepAssumptions w2l rng st h)).isSome = true ∧
          (minimizeStep S cs w2l rng st h).essentialWalls = st.essentialWalls ++ [wall] ∧
          (minimizeStep S cs w2l rng st h).openWalls = st.openWalls) ∨
       (S.solve st.calls cs (stepAssumptions w2l rng st h) = none ∧
          (minimizeStep S cs w2l rng st h).essentialWalls = st.essentialWalls ∧
          (minimizeStep S cs w2l rng st h).openWalls = st.openWalls.insert wall)) := by
  have hidx : rng st.draws % st.candidateWalls.length < st.candidateWalls.length :=
    Nat.mod_lt _ (List.length_pos.mpr h)
  refine ⟨st.candidateWalls.get ⟨_, hidx⟩, swapPop st.candidateWalls _ hidx,
    swapPop_perm _ _ hidx, rfl, minimizeStep_candidates S cs w2l rng st h, ?_⟩
  unfold minimizeStep stepAssumptions
  simp only
  cases hs : S.solve st.calls cs
      (loopAssumptions w2l (st.candidateWalls.get ⟨_, hidx⟩)
        (swapPop st.candidateWalls _ hidx) st.essentialWalls st.openWalls) with
  | none => exact Or.inr ⟨rfl, rfl, rfl⟩
  | some m => exact Or.inl ⟨rfl, rfl, rfl⟩

theorem loopAfter_nil (S : SatSolver) (cs : List Clause) (w2l : Wall → Lit)
    (rng : Nat → Nat) (k : Nat) (st : LoopState) (h : st.candidateWalls = []) :
    loopAfter S cs w2l rng k st = st := by
  cases k with
  | zero => rfl
  | succ n => simp [loopAfter, h]

theorem loopAfter_succ (S : SatSolver) (cs : List Clause) (w2l : Wall → Lit)
    (rng : Nat → Nat) (k : Nat) (st : LoopState) (h : st.candidateWalls ≠ []) :
    loopAfter S cs w2l rng (k + 1) st =
      loopAfter S cs w2l rng k (minimizeStep S cs w2l rng st h) := by
  simp [loopAfter, h]

/-- The state in which the loop ends is the state after `fuel` passes. -/
theorem minimizeLoop_eq_loopAfter (S : SatSolver) (cs : List Clause) (w2l : Wall → Lit)
    (rng : Nat → Nat) :
    ∀ (fuel : Nat) (st final : LoopState),
      minimizeLoop S cs w2l rng fuel st = some final →
      final = loopAfter S cs w2l rng fuel st
  | fuel, st, final, hrun => by
    by_cases h : st.candidateWalls = []
    · rw [minimizeLoop_nil S cs w2l rng fuel st h] at hrun
      cases hrun
      exact (loopAfter_nil S cs w2l rng fuel st h).symm
    · cases fuel with
      | zero =>
        rw [minimizeLoop_zero S cs w2l rng st h] at hrun
        cases hrun
      | succ n =>
        rw [minimizeLoop_succ S cs w2l rng n st h] at hrun
        rw [loopAfter_succ S cs w2l rng n st h]
        exact minimizeLoop_eq_loopAfter S cs w2l rng n _ final hrun

/-- A property kept by every pass holds after any number of passes. -/
theorem loopAfter_invariant (S : SatSolver) (cs : List Clause) (w2l : Wall → Lit)
    (rng : Nat → Nat) (Inv : LoopState → Prop)
    (hstep : ∀ st h, Inv st → Inv (minimizeStep S cs w2l rng st h)) :
    ∀ (k : Nat) (st : LoopState), Inv st → Inv (loopAfter S cs w2l rng k st)
  | 0, st, hinv => hinv
  | k + 1, st, hinv => by
    by_cases h : st.candidateWalls = []
    · rw [loopAfter_nil S cs w2l rng (k + 1) st h]
      exact hinv
    · rw [loopAfter_succ S cs w2l rng k st h]
      exact loopAfter_invariant S cs w2l rng Inv hstep k _ (hstep st h hinv)

/-- One pass permutes the concatenation of the three lists, as long as it has no
duplicates. -/
theorem perm_step (S : SatSolver) (cs : List Clause) (w2l : Wall → Lit)
    (rng : Nat → Nat) (L : List Wall) (hL : L.Nodup) (st : LoopState)
    (hne : st.candidateWalls ≠ [])
    (hinv : (st.candidateWalls ++ st.essentialWalls ++ st.openWalls).Perm L) :
    ((minimizeStep S cs w2l rng st hne).candidateWalls ++
      (minimizeStep S cs w2l rng st hne).essentialWalls ++
      (minimizeStep S cs w2l rng st hne).openWalls).Perm L := by
  obtain ⟨wall, popped, hperm, -, hcand, hcase⟩ := minimizeStep_solve S cs w2l rng st hne
  have hall : (wall :: (popped ++ st.essentialWalls ++ st.openWalls)).Perm L := by
    refine List.Perm.trans ?_ hinv
    rw [← List.cons_append, ← List.cons_append]
    exact (hperm.append_right _).append_right _
  have hnd : (wall :: (popped ++ st.essentialWalls ++ st.openWalls)).Nodup :=
    hall.nodup_iff.mpr hL
  rcases hcase with ⟨-, hess, hopen⟩ | ⟨-, hess, hopen⟩
  · rw [hcand, hess, hopen]
    refine List.Perm.trans ?_ hall
    rw [← List.append_assoc]
    exact List.Perm.append_right _ (List.perm_append_singleton _ _)
  · rw [hcand, hess, hopen]
    have hnot : wall ∉ st.openWalls := by
      intro hmem
      exact (List.nodup_cons.mp hnd).1 (List.mem_append_right _ hmem)
    rw [List.insert_of_not_mem hnot]
    refine List.Perm.trans ?_ hall
    exact List.perm_middle

theorem foldl_erase_nodup (l : List Wall) :
    ∀ s : List Wall, s.Nodup → (l.foldl (fun s v => s.erase v) s).Nodup := by
  induction l with
  | nil => intro s hs; exact hs
  | cons x xs ih =>
    intro s hs
    rw [List.foldl_cons]
    exact ih _ (hs.erase x)

/-- The loop is entered with duplicate-free, disjoint lists when the candidates have no
duplicates. -/
theorem initial_nodup {path : List Coordinates} {possibleWalls openWalls0 : List Wall}
    (d c : Nat) (hnd : (getNonblockingWalls path possibleWalls).Nodup) :
    ((initialLoopState path possibleWalls openWalls0 d c).candidateWalls ++
      (initialLoopState path possibleWalls openWalls0 d c).openWalls).Nodup := by
  rw [List.nodup_append]
  refine ⟨hnd, ?_, ?_⟩
  · exact foldl_erase_nodup _ _ (foldl_insert_nodup _ _ List.nodup_nil)
  · rw [List.disjoint_right]
    intro v hv
    exact (initial_open hv).2

theorem partitioned_of_perm {cand0 open0 : List Wall} {st : LoopState}
    (hperm : (st.candidateWalls ++ st.essentialWalls ++ st.openWalls).Perm (cand0 ++ open0))
    (hnd : (cand0 ++ open0).Nodup) : Partitioned cand0 open0 st := by
  have h := hperm.nodup_iff.mpr hnd
  rw [List.nodup_append, List.nodup_append] at h
  obtain ⟨⟨hc, he, hce⟩, ho, hceo⟩ := h
  refine ⟨⟨hc, he, ho⟩, ⟨?_, ?_, ?_⟩, ?_⟩
  · exact fun v hv => List.disjoint_left.mp hce hv
  · exact fun v hv => List.disjoint_left.mp hceo (List.mem_append_left _ hv)
  · exact fun v hv => List.disjoint_left.mp hceo (List.mem_append_right _ hv)
  · intro v
    have := hperm.mem_iff (a := v)
    simp only [List.mem_append] at this
    rw [← this]
    tauto

theorem var_w2lit (dflt : Lit) {w h : Int} {v : Wall} (hv : v ∈ allWalls w h) :
    (w2lit dflt w h v).var = Var.wall v := by
  rw [w2lit_mem dflt hv]
  rfl

theorem loopAssumptions_vars (dflt : Lit) (w h : Int) (wall : Wall)
    (popped ess opn : List Wall)
    (hg : ∀ v ∈ wall :: (popped ++ ess ++ opn), v ∈ allWalls w h) :
    (loopAssumptions (w2lit dflt w h) wall popped ess opn).map Lit.var =
      (wall :: (popped ++ ess ++ opn)).map Var.wall := by
  have key : ∀ l : List Wall, (∀ v ∈ l, v ∈ wall :: (popped ++ ess ++ opn)) →
      (l.map (w2lit dflt w h)).map Lit.var = l.map Var.wall ∧
      (l.map fun v => (w2lit dflt w h v).not).map Lit.var = l.map Var.wall := by
    intro l hl
    constructor
    · rw [List.map_map]
      exact List.map_congr_left fun v hv => var_w2lit dflt (hg v (hl v hv))
    · rw [List.map_map]
      exact List.map_congr_left fun v hv => var_w2lit dflt (hg v (hl v hv))
  unfold loopAssumptions
  simp only [List.map_cons, List.map_append]
  rw [(key popped (by intro v hv; simp [hv])).1, (key ess (by intro v hv; simp [hv])).1,
    (key opn (by intro v hv; simp [hv])).2]
  congr 1
  exact var_w2lit dflt (hg wall (List.mem_cons_self _ _))

theorem mentionsOnce_of_vars {A : List Lit} {M cand0 open0 : List Wall}
    (hA : A.map Lit.var = M.map Var.wall) (hM : M.Nodup)
    (hmem : ∀ v, v ∈ M ↔ v ∈ cand0 ∨ v ∈ open0) : MentionsOnce cand0 open0 A := by
  have hnd : (A.map Lit.var).Nodup := by
    rw [hA]
    apply List.Nodup.map _ hM
    intro a b hab
    exact Var.wall.inj hab
  refine ⟨hnd, ?_, ?_⟩
  · intro x
    rw [hA, List.mem_map]
    constructor
    · rintro ⟨v, hv, rfl⟩
      exact ⟨v, (hmem v).mp hv, rfl⟩
    · rintro ⟨v, hv, rfl⟩
      exact ⟨v, (hmem v).mpr hv, rfl⟩
  · intro l hl hnot
    have := List.inj_on_of_nodup_map hnd hnot hl rfl
    cases l with
    | mk x s =>
      simp only [Lit.not, Lit.mk.injEq, true_and] at this
      cases s <;> cases this

/-- The assumptions of the pass entered in a state whose three lists are a permutation of
a duplicate-free list of grid walls mention each of these walls exactly once. -/
theorem stepAssumptions_once (dflt : Lit) (w h : Int) (rng : Nat → Nat)
    {cand0 open0 : List Wall} (hnd : (cand0 ++ open0).Nodup)
    (hgrid : ∀ v ∈ cand0 ++ open0, v ∈ allWalls w h) (st : LoopState)
    (hperm : (st.candidateWalls ++ st.essentialWalls ++ st.openWalls).Perm (cand0 ++ open0))
    (hne : st.candidateWalls ≠ []) :
    MentionsOnce cand0 open0 (stepAssumptions (w2lit dflt w h) rng st hne) := by
  obtain ⟨wall, popped, hp, hA, -, -⟩ :=
    minimizeStep_solve ⟨fun _ _ _ => none⟩ [] (w2lit dflt w h) rng st hne
  have hall : (wall :: (popped ++ st.essentialWalls ++ st.openWalls)).Perm
      (cand0 ++ open0) := by
    refine List.Perm.trans ?_ hperm
    rw [← List.cons_append, ← List.cons_append]
    exact (hp.append_right _).append_right _
  rw [hA]
  apply mentionsOnce_of_vars
    (loopAssumptions_vars dflt w h wall popped st.essentialWalls st.openWalls
      (fun v hv => hgrid v (hall.mem_iff.mp hv)))
    (hall.nodup_iff.mpr hnd)
  intro v
  rw [hall.mem_iff, List.mem_append]

/-! ## Redundant node clauses and registry lookups -/

theorem satisfies_flatMap {α : Type} (σ : Assignment) (l : List α) (F : α → List Clause) :
    Satisfies σ (l.flatMap F) ↔ ∀ x ∈ l, Satisfies σ (F x) := by
  unfold Satisfies
  simp only [List.mem_flatMap]
  constructor
  · intro h x hx c hc
    exact h c ⟨x, hx, hc⟩
  · rintro h c ⟨x, hx, hc⟩
    exact h x hx c hc

/-- The "away from a corner" clauses of a node follow from its "oriented along a wall"
clauses, whatever the six literals are. -/
theorem nodeAway_of_along (dflt : Lit) (width height : Int) (c : Coordinates)
    (σ : Assignment) (h : Satisfies σ (nodeAlongClauses dflt width height c)) :
    Satisfies σ (nodeAwayClauses dflt width height c) := by
  unfold Satisfies nodeAlongClauses at h
  unfold Satisfies nodeAwayClauses
  simp only [List.mem_cons, List.mem_singleton, List.not_mem_nil, or_false,
    forall_eq_or_imp, forall_eq, Clause.eval, List.any_cons, List.any_nil, eval_not] at h ⊢
  revert h
  cases Lit.eval σ (node2lit dflt width height c Orientation2.NW) <;>
    cases Lit.eval σ (node2lit dflt width height c Orientation2.NE) <;>
    cases Lit.eval σ (edge2lit dflt width height (Wall.mk (c.offset 1 0) Orientation.V)) <;>
    cases Lit.eval σ (edge2lit dflt width height (Wall.mk (c.offset 0 1) Orientation.H)) <;>
    cases Lit.eval σ (edge2lit dflt width height (Wall.mk (c.offset 1 1) Orientation.H)) <;>
    cases Lit.eval σ (edge2lit dflt width height (Wall.mk (c.offset 1 1) Orientation.V)) <;>
    decide

theorem nodeClauses_iff (dflt : Lit) (width height : Int) (σ : Assignment) :
    Satisfies σ (nodeClauses dflt width height) ↔
      Satisfies σ ((allCoordinates width height).flatMap fun nc =>
        nodeAlongClauses dflt width height nc) := by
  unfold nodeClauses
  rw [satisfies_flatMap, satisfies_flatMap]
  constructor
  · intro h x hx
    exact ((satisfies_append σ _ _).mp (h x hx)).1
  · intro h x hx
    exact (satisfies_append σ _ _).mpr
      ⟨h x hx, nodeAway_of_along dflt width height x σ (h x hx)⟩

/-- For the node in the last column and last row, the E and S segments that the node
block looks up are not walls of the grid, and the literal that the lookup falls back to
is a literal of an emitted clause. -/
theorem lastNode_lookup_default (dflt : Lit) (width height : Int)
    (hW : 1 ≤ width) (hH : 1 ≤ height) :
    (⟨width - 1, height - 1⟩ : Coordinates) ∈ allCoordinates width height ∧
    nodeSegment ⟨width - 1, height - 1⟩ Direction.E ∉ allWalls width height ∧
    nodeSegment ⟨width - 1, height - 1⟩ Direction.S ∉ allWalls width height ∧
    [(mkLit (Var.node ⟨width - 1, height - 1⟩ Orientation2.NE)).not,
      (mkLit (Var.node ⟨width - 1, height - 1⟩ Orientation2.NW)).not.not, dflt] ∈
      buildFormula dflt width height := by
  have hc : (⟨width - 1, height - 1⟩ : Coordinates) ∈ allCoordinates width height :=
    mem_allCoordinates.mpr ⟨by simp only; omega, by simp only; omega, by simp only; omega,
      by simp only; omega⟩
  have hE : nodeSegment ⟨width - 1, height - 1⟩ Direction.E ∉ allWalls width height := by
    rw [mem_allWalls]
    simp only [nodeSegment, Coordinates.offset]
    rintro (⟨h, -⟩ | ⟨-, -, h, -⟩)
    · cases h
    · omega
  have hS : nodeSegment ⟨width - 1, height - 1⟩ Direction.S ∉ allWalls width height := by
    rw [mem_allWalls]
    simp only [nodeSegment, Coordinates.offset]
    rintro (⟨-, -, -, -, h⟩ | ⟨h, -⟩)
    · omega
    · cases h
  refine ⟨hc, hE, hS, nodeAlong_sub dflt hc _ ?_⟩
  unfold nodeAlongClauses
  have hn := node2lit_mem dflt width height ⟨width - 1, height - 1⟩
    (mem_allCoordinates.mp hc)
  have he : edge2lit dflt width height
      (Wall.mk ((Coordinates.mk (width - 1) (height - 1)).offset 1 1) Orientation.H) =
      dflt := by
    unfold edge2lit
    exact if_neg hE
  simp only [hn, he]
  simp

/-! ## Properties of the encoder -/

/-- C4: for every `W`, `H` with `W·H ≥ 2` and every assignment satisfying all clauses of
`buildFormula(W, H)`, position `0` holds exactly one cell (the entry) and position `L-1`
exactly one cell (the exit); both are edge cells of the grid (members of
`getEdgeFields`, lying on the first or last row or column), they are distinct, and the
index of the entry is strictly less than the index of the exit. -/
theorem entry_exit_ordered (dflt : Lit) (width height : Int) (σ : Assignment)
    (hL : 2 ≤ width * height) (hσ : Satisfies σ (buildFormula dflt width height)) :
    ∃ entry exit : Int,
      (0 ≤ entry ∧ entry < width * height ∧ σ (Var.fp entry 0) = true ∧
        ∀ f, 0 ≤ f → f < width * height → σ (Var.fp f 0) = true → f = entry) ∧
      (0 ≤ exit ∧ exit < width * height ∧ σ (Var.fp exit (width * height - 1)) = true ∧
        ∀ f, 0 ≤ f → f < width * height → σ (Var.fp f (width * height - 1)) = true →
          f = exit) ∧
      (entry ∈ getEdgeFields width height ∧ edgeCell width height (f2c entry width)) ∧
      (exit ∈ getEdgeFields width height ∧ edgeCell width height (f2c exit width)) ∧
      entry ≠ exit ∧ entry < exit := by
  obtain ⟨entry, exit, ⟨a0, a1, a2⟩, ⟨b0, b1, b2⟩, hin, hout, hlt⟩ :=
    endpoints_of_formula hL hσ
  have hbij := bijection_of_formula hσ
  obtain ⟨hW, hH⟩ := dims_pos_of_edgeField hL hin
  have edge_of : ∀ f, f ∈ getEdgeFields width height →
      edgeCell width height (f2c f width) := by
    intro f hf
    obtain ⟨c, hx, hy, hedge, rfl⟩ := mem_getEdgeFields hW hH hf
    rw [f2c_c2f hx hy.1]
    exact hedge
  refine ⟨entry, exit, ⟨a0, a1, a2, ?_⟩, ⟨b0, b1, b2, ?_⟩, ⟨hin, edge_of _ hin⟩,
    ⟨hout, edge_of _ hout⟩, by omega, hlt⟩
  · intro f hf0 hf1 hf
    exact (hbij.2 0 (le_refl _) (by omega)).2 f entry hf0 hf1 a0 a1 hf a2
  · intro f hf0 hf1 hf
    exact (hbij.2 (width * height - 1) (by omega) (by omega)).2 f exit hf0 hf1 b0 b1 hf b2

/-- Witness of C4 on the 2×2 grid with the model of the path `0, 1, 3, 2`. -/
theorem entry_exit_ordered_witness :
    ∃ entry exit : Int,
      (0 ≤ entry ∧ entry < 2 * 2 ∧ model22 (Var.fp entry 0) = true ∧
        ∀ f, 0 ≤ f → f < 2 * 2 → model22 (Var.fp f 0) = true → f = entry) ∧
      (0 ≤ exit ∧ exit < 2 * 2 ∧ model22 (Var.fp exit (2 * 2 - 1)) = true ∧
        ∀ f, 0 ≤ f → f < 2 * 2 → model22 (Var.fp f (2 * 2 - 1)) = true → f = exit) ∧
      (entry ∈ getEdgeFields 2 2 ∧ edgeCell 2 2 (f2c entry 2)) ∧
      (exit ∈ getEdgeFields 2 2 ∧ edgeCell 2 2 (f2c exit 2)) ∧
      entry ≠ exit ∧ entry < exit :=
  entry_exit_ordered minisatDefault 2 2 model22 (by decide) model22_satisfies

/-- C5: for every `W`, `H` and every assignment, the four Hamiltonian-path clause
families of `buildFormula` (cover, uniqueness per cell, cover dual, uniqueness per
position) are all satisfied if and only if the `F[f, p]` values form a bijection between
cells and path positions; the families are part of `buildFormula`, so the formula is
unsatisfiable under assumptions that put two different cells at the same position, in
particular for `W = H = 2` under `F[0,0] ∧ F[3,L-1] ∧ F[1,0]`. -/
theorem hamilton_bijection (dflt : Lit) (width height : Int) (σ : Assignment) :
    (Satisfies σ (hamiltonClauses dflt (width * height)) ↔
      PathBijection (width * height) σ) ∧
    (∀ c ∈ hamiltonClauses dflt (width * height), c ∈ buildFormula dflt width height) ∧
    (∀ f1 f2 p : Int, 0 ≤ f1 → f1 < width * height → 0 ≤ f2 → f2 < width * height →
      0 ≤ p → p < width * height → f1 ≠ f2 → ∀ rest : List Lit,
      ¬ Satisfiable (buildFormula dflt width height)
        (fp2lit dflt (width * height) f1 p :: fp2lit dflt (width * height) f2 p :: rest)) ∧
    ¬ Satisfiable (buildFormula dflt 2 2)
      [fp2lit dflt (2 * 2) 0 0, fp2lit dflt (2 * 2) 3 (2 * 2 - 1), fp2lit dflt (2 * 2) 1 0] := by
  have two : ∀ (w h f1 f2 p : Int), 0 ≤ f1 → f1 < w * h → 0 ≤ f2 → f2 < w * h →
      0 ≤ p → p < w * h → f1 ≠ f2 → ∀ τ : Assignment,
      Satisfies τ (buildFormula dflt w h) →
      Lit.eval τ (fp2lit dflt (w * h) f1 p) = true →
      Lit.eval τ (fp2lit dflt (w * h) f2 p) = true → False := by
    intro w h f1 f2 p a0 a1 b0 b1 p0 p1 hne τ hτ e1 e2
    rw [fp2lit_inRange dflt ⟨a0, a1⟩ ⟨p0, p1⟩, eval_mkLit] at e1
    rw [fp2lit_inRange dflt ⟨b0, b1⟩ ⟨p0, p1⟩, eval_mkLit] at e2
    exact hne (((bijection_of_formula hτ).2 p p0 p1).2 f1 f2 a0 a1 b0 b1 e1 e2)
  refine ⟨hamilton_iff dflt _ σ, hamilton_sub dflt width height, ?_, ?_⟩
  · rintro f1 f2 p a0 a1 b0 b1 p0 p1 hne rest ⟨τ, hτ, hA⟩
    exact two width height f1 f2 p a0 a1 b0 b1 p0 p1 hne τ hτ
      (hA _ (List.mem_cons_self _ _))
      (hA _ (List.mem_cons_of_mem _ (List.mem_cons_self _ _)))
  · rintro ⟨τ, hτ, hA⟩
    exact two 2 2 0 1 0 (by decide) (by decide) (by decide) (by decide) (by decide)
      (by decide) (by decide) τ hτ (hA _ (by simp)) (hA _ (by simp))

/-- C6: for every `W ≥ 1`, every `H` and every assignment satisfying the Hamiltonian-path clauses
and the adjacency clauses of `buildFormula`, every position `p` with `0 ≤ p < L-1` and
its successor hold cells (they exist, by the bijection), and the cell at position `p` and
the cell at position `p+1` are cardinal neighbours: they differ by exactly 1 in exactly
one coordinate. -/
theorem consecutive_cells_adjacent (dflt : Lit) (width height : Int) (σ : Assignment)
    (hW : 1 ≤ width)
    (hham : Satisfies σ (hamiltonClauses dflt (width * height)))
    (hnb : Satisfies σ (neighbourClauses dflt width height)) :
    ∀ p : Int, 0 ≤ p → p < width * height - 1 →
      (∃ f g : Int, (0 ≤ f ∧ f < width * height) ∧ (0 ≤ g ∧ g < width * height) ∧
        σ (Var.fp f p) = true ∧ σ (Var.fp g (p + 1)) = true) ∧
      ∀ f g : Int, 0 ≤ f → f < width * height → 0 ≤ g → g < width * height →
        σ (Var.fp f p) = true → σ (Var.fp g (p + 1)) = true →
        adjacent (f2c f width) (f2c g width) := by
  intro p hp0 hp1
  have hbij := (hamilton_iff dflt _ σ).mp hham
  constructor
  · obtain ⟨f, f0, f1, ef⟩ := (hbij.2 p hp0 (by omega)).1
    obtain ⟨g, g0, g1, eg⟩ := (hbij.2 (p + 1) (by omega) (by omega)).1
    exact ⟨f, g, ⟨f0, f1⟩, ⟨g0, g1⟩, ef, eg⟩
  · intro f g f0 f1 g0 g1 ef eg
    exact consecutive_adjacent hW hham hnb hp0 (by omega) ⟨f0, f1⟩ ⟨g0, g1⟩ ef eg

/-- Witness of C6 on the 2×2 grid with the model of the path `0, 1, 3, 2`, at the
position `p = 1`. -/
theorem consecutive_cells_adjacent_witness :
    (∃ f g : Int, (0 ≤ f ∧ f < 2 * 2) ∧ (0 ≤ g ∧ g < 2 * 2) ∧
      model22 (Var.fp f 1) = true ∧ model22 (Var.fp g (1 + 1)) = true) ∧
    ∀ f g : Int, 0 ≤ f → f < 2 * 2 → 0 ≤ g → g < 2 * 2 →
      model22 (Var.fp f 1) = true → model22 (Var.fp g (1 + 1)) = true →
      adjacent (f2c f 2) (f2c g 2) :=
  consecutive_cells_adjacent minisatDefault 2 2 model22 (by decide)
    (satisfies_of_subset (hamilton_sub minisatDefault 2 2) model22_satisfies)
    (satisfies_of_subset (neighbour_sub minisatDefault 2 2) model22_satisfies)
    1 (by decide) (by decide)

/-- C7: for every `W`, `H`, every assignment satisfying the wall-blocking clauses of
`buildFormula` and every interior wall (V-wall at `(x, y)` between the cells `(x-1, y)`
and `(x, y)` with `1 ≤ x ≤ W-1`, `0 ≤ y < H`; H-wall at `(x, y)` between the cells
`(x, y-1)` and `(x, y)` with `0 ≤ x < W`, `1 ≤ y ≤ H-1`): if the wall literal is true,
the two cells separated by the wall do not occupy the positions `p`, `p+1` in either
order, for any `p` in `[0, L-2]`. -/
theorem wall_blocks_transition (dflt : Lit) (width height : Int) (σ : Assignment)
    (hwb : Satisfies σ (wallBlockClauses dflt width height)) :
    (∀ x y p : Int, 1 ≤ x → x ≤ width - 1 → 0 ≤ y → y < height →
      0 ≤ p → p ≤ width * height - 2 →
      σ (Var.wall ⟨⟨x, y⟩, Orientation.V⟩) = true →
      ¬ (σ (Var.fp (c2f ⟨x - 1, y⟩ width) p) = true ∧
          σ (Var.fp (c2f ⟨x, y⟩ width) (p + 1)) = true) ∧
      ¬ (σ (Var.fp (c2f ⟨x, y⟩ width) p) = true ∧
          σ (Var.fp (c2f ⟨x - 1, y⟩ width) (p + 1)) = true)) ∧
    (∀ x y p : Int, 0 ≤ x → x < width → 1 ≤ y → y ≤ height - 1 →
      0 ≤ p → p ≤ width * height - 2 →
      σ (Var.wall ⟨⟨x, y⟩, Orientation.H⟩) = true →
      ¬ (σ (Var.fp (c2f ⟨x, y - 1⟩ width) p) = true ∧
          σ (Var.fp (c2f ⟨x, y⟩ width) (p + 1)) = true) ∧
      ¬ (σ (Var.fp (c2f ⟨x, y⟩ width) p) = true ∧
          σ (Var.fp (c2f ⟨x, y - 1⟩ width) (p + 1)) = true)) := by
  constructor
  · intro x y p x1 x2 y1 y2 p1 p2 hwall
    exact vwall_blocks hwb ⟨x1, x2⟩ ⟨y1, y2⟩ ⟨p1, by omega⟩ hwall
  · intro x y p x1 x2 y1 y2 p1 p2 hwall
    exact hwall_blocks hwb ⟨x1, x2⟩ ⟨y1, y2⟩ ⟨p1, by omega⟩ hwall

/-- Witness of C7 on the 2×2 grid with a model in which the H-wall at `(0, 1)` is
installed. -/
theorem wall_blocks_transition_witness :
    (∀ x y p : Int, 1 ≤ x → x ≤ 2 - 1 → 0 ≤ y → y < 2 → 0 ≤ p → p ≤ 2 * 2 - 2 →
      model22w (Var.wall ⟨⟨x, y⟩, Orientation.V⟩) = true →
      ¬ (model22w (Var.fp (c2f ⟨x - 1, y⟩ 2) p) = true ∧
          model22w (Var.fp (c2f ⟨x, y⟩ 2) (p + 1)) = true) ∧
      ¬ (model22w (Var.fp (c2f ⟨x, y⟩ 2) p) = true ∧
          model22w (Var.fp (c2f ⟨x - 1, y⟩ 2) (p + 1)) = true)) ∧
    (∀ x y p : Int, 0 ≤ x → x < 2 → 1 ≤ y → y ≤ 2 - 1 → 0 ≤ p → p ≤ 2 * 2 - 2 →
      model22w (Var.wall ⟨⟨x, y⟩, Orientation.H⟩) = true →
      ¬ (model22w (Var.fp (c2f ⟨x, y - 1⟩ 2) p) = true ∧
          model22w (Var.fp (c2f ⟨x, y⟩ 2) (p + 1)) = true) ∧
      ¬ (model22w (Var.fp (c2f ⟨x, y⟩ 2) p) = true ∧
          model22w (Var.fp (c2f ⟨x, y - 1⟩ 2) (p + 1)) = true)) :=
  wall_blocks_transition minisatDefault 2 2 model22w
    (satisfies_of_subset (wallBlock_sub minisatDefault 2 2) model22w_satisfies)

/-- C10: for every grid, every cell `c = (x, y)` of the grid (`0 ≤ x < W`, `0 ≤ y < H`, so
`W, H ≥ 1`) and every assignment,
the eight clauses that `buildFormula` emits for `c` in its wall-count block (they are
clauses of the formula) are all satisfied if and only if exactly two of the four edge
literals around `c` are true (N = H-wall at `(x, y)`, S = H-wall at `(x, y+1)`,
W = V-wall at `(x, y)`, E = V-wall at `(x+1, y)`). -/
theorem cell_has_two_edges (dflt : Lit) (width height : Int) (c : Coordinates)
    (σ : Assignment) (hx : 0 ≤ c.x ∧ c.x < width) (hy : 0 ≤ c.y ∧ c.y < height) :
    (∀ cl ∈ cellWallClauses dflt width height c, cl ∈ buildFormula dflt width height) ∧
    (cellWallClauses dflt width height c).length = 8 ∧
    (Satisfies σ (cellWallClauses dflt width height c) ↔
      [σ (Var.edge ⟨c, Orientation.H⟩), σ (Var.edge ⟨c.offset 0 1, Orientation.H⟩),
        σ (Var.edge ⟨c, Orientation.V⟩),
        σ (Var.edge ⟨c.offset 1 0, Orientation.V⟩)].count true = 2) := by
  exact ⟨cellWall_sub dflt hx hy, rfl, cellWall_iff dflt hx hy σ⟩

/-- Witness of C10 at the cell `(0, 0)` of the 2×2 grid. -/
theorem cell_has_two_edges_witness :
    (∀ cl ∈ cellWallClauses minisatDefault 2 2 ⟨0, 0⟩, cl ∈ buildFormula minisatDefault 2 2) ∧
    (cellWallClauses minisatDefault 2 2 ⟨0, 0⟩).length = 8 ∧
    (Satisfies model22 (cellWallClauses minisatDefault 2 2 ⟨0, 0⟩) ↔
      [model22 (Var.edge ⟨⟨0, 0⟩, Orientation.H⟩),
        model22 (Var.edge ⟨(Coordinates.mk 0 0).offset 0 1, Orientation.H⟩),
        model22 (Var.edge ⟨⟨0, 0⟩, Orientation.V⟩),
        model22 (Var.edge ⟨(Coordinates.mk 0 0).offset 1 0, Orientation.V⟩)].count true
        = 2) :=
  cell_has_two_edges minisatDefault 2 2 ⟨0, 0⟩ model22 (by decide) (by decide)

/-! ## Properties of the generator -/

/-- C8: for every model whose `F`-values form a bijection between cells and positions,
the extractor of `generate` sets every position `p` of the path exactly once (among its
`set` calls exactly one targets `p`), to `f2c` of the cell at that position, which is
what the path then holds at `p`; the blocking clause has exactly `L` literals, without
repetition, namely the literals `¬F[f, p]` with `F[f, p]` true in the model; and an
assignment that satisfies the Hamiltonian-path clauses (is a bijection) falsifies the
blocking clause if and only if it has the same `F`-values as the model. -/
theorem extractor_blocks_path (dflt : Lit) (w h : Int) (m : Assignment)
    (hm : PathBijection (w * h) m) :
    (∀ p : Int, 0 ≤ p → p < w * h →
      ∃ f : Int, 0 ≤ f ∧ f < w * h ∧ m (Var.fp f p) = true ∧
        (pathSets dflt w h m).filter (fun s => decide (s.1 = p)) = [(p, f2c f w)] ∧
        (extractPath dflt w h m)[p.toNat]? = some (f2c f w)) ∧
    (extractPath dflt w h m).length = (w * h).toNat ∧
    ((pathClause dflt (w * h) m).length = (w * h).toNat ∧
      (pathClause dflt (w * h) m).Nodup ∧
      ∀ l : Lit, l ∈ pathClause dflt (w * h) m ↔
        ∃ f p : Int, (0 ≤ f ∧ f < w * h) ∧ (0 ≤ p ∧ p < w * h) ∧
          m (Var.fp f p) = true ∧ l = (mkLit (Var.fp f p)).not) ∧
    (∀ σ : Assignment, Satisfies σ (hamiltonClauses dflt (w * h)) →
      (Clause.eval σ (pathClause dflt (w * h) m) = false ↔
        ∀ f p : Int, 0 ≤ f → f < w * h → 0 ≤ p → p < w * h →
          σ (Var.fp f p) = m (Var.fp f p))) := by
  refine ⟨?_, extractPath_length dflt w h m,
    ⟨pathClause_length hm, pathClause_nodup hm, fun l => mem_pathClause⟩, ?_⟩
  · intro p p0 p1
    obtain ⟨f, f0, f1, hfp⟩ := (hm.2 p p0 p1).1
    obtain ⟨h1, h2⟩ := extract_at dflt hm ⟨p0, p1⟩ ⟨f0, f1⟩ hfp
    exact ⟨f, f0, f1, hfp, h1, h2⟩
  · intro σ hσ
    rw [pathClause_false_iff]
    exact same_path_iff hm ((hamilton_iff dflt _ σ).mp hσ)

/-- Witness of C8 on the 2×2 grid with the model of the path `0, 1, 3, 2`. -/
theorem extractor_blocks_path_witness :
    (∀ p : Int, 0 ≤ p → p < 2 * 2 →
      ∃ f : Int, 0 ≤ f ∧ f < 2 * 2 ∧ model22 (Var.fp f p) = true ∧
        (pathSets minisatDefault 2 2 model22).filter (fun s => decide (s.1 = p)) =
          [(p, f2c f 2)] ∧
        (extractPath minisatDefault 2 2 model22)[p.toNat]? = some (f2c f 2)) ∧
    (extractPath minisatDefault 2 2 model22).length = (2 * 2 : Int).toNat ∧
    ((pathClause minisatDefault (2 * 2) model22).length = (2 * 2 : Int).toNat ∧
      (pathClause minisatDefault (2 * 2) model22).Nodup ∧
      ∀ l : Lit, l ∈ pathClause minisatDefault (2 * 2) model22 ↔
        ∃ f p : Int, (0 ≤ f ∧ f < 2 * 2) ∧ (0 ≤ p ∧ p < 2 * 2) ∧
          model22 (Var.fp f p) = true ∧ l = (mkLit (Var.fp f p)).not) ∧
    (∀ σ : Assignment, Satisfies σ (hamiltonClauses minisatDefault (2 * 2)) →
      (Clause.eval σ (pathClause minisatDefault (2 * 2) model22) = false ↔
        ∀ f p : Int, 0 ≤ f → f < 2 * 2 → 0 ≤ p → p < 2 * 2 →
          σ (Var.fp f p) = model22 (Var.fp f p))) :=
  extractor_blocks_path minisatDefault 2 2 model22 (bijection_of_formula model22_satisfies)

/-- C9: for every state in which the wall-minimisation loop of `generate` is entered
(every initial candidate list), every solver (every sequence of answers, the answer may
depend on the number of the call) and every sequence of random picks: each pass removes
exactly one wall, the picked one, from the candidate list and makes exactly one `solve`
call; the loop ends with an empty candidate list after exactly as many passes and `solve`
calls as there were candidates (any fuel of at least that many passes is enough, any
smaller fuel is not). -/
theorem minimize_loop_terminates (S : SatSolver) (cs : List Clause) (w2l : Wall → Lit)
    (rng : Nat → Nat) (st : LoopState) :
    (∀ fuel : Nat, st.candidateWalls.length ≤ fuel →
      ∃ final, minimizeLoop S cs w2l rng fuel st = some final ∧
        final.candidateWalls = [] ∧
        final.calls = st.calls + st.candidateWalls.length ∧
        final.draws = st.draws + st.candidateWalls.length) ∧
    (∀ fuel : Nat, fuel < st.candidateWalls.length →
      minimizeLoop S cs w2l rng fuel st = none) ∧
    (∀ hne : st.candidateWalls ≠ [],
      (minimizeStep S cs w2l rng st hne).candidateWalls.length + 1 =
        st.candidateWalls.length ∧
      (st.candidateWalls.get ⟨rng st.draws % st.candidateWalls.length,
          Nat.mod_lt _ (List.length_pos.mpr hne)⟩ ::
        (minimizeStep S cs w2l rng st hne).candidateWalls).Perm st.candidateWalls ∧
      (minimizeStep S cs w2l rng st hne).calls = st.calls + 1) := by
  refine ⟨fun fuel hfuel => minimizeLoop_terminates S cs w2l rng fuel st hfuel,
    fun fuel hfuel => minimizeLoop_needs_fuel S cs w2l rng fuel st hfuel, ?_⟩
  intro hne
  refine ⟨minimizeStep_length S cs w2l rng st hne, ?_,
    (minimizeStep_calls S cs w2l rng st hne).1⟩
  rw [minimizeStep_candidates]
  exact swapPop_perm _ _ _

/-- C2: for every run of `generate` that returns a board (solver sound; the default
literal of the registries not a wall literal; `getPossibleWalls` a list of walls of the
grid) and every essential wall `u` it returns: the formula with the blocking clause is
satisfiable under `wall(v)` for every returned essential wall `v ≠ u` and `¬wall(·)` for
`u` and all other walls; the satisfying assignment is a solution on the board without `u`
whose path differs from the sampled path, which does not cross the remaining walls
either. -/
theorem essential_wall_needed (S : SatSolver) (dflt : Lit) (rng : Nat → Nat)
    (possibleWalls openWalls0 : List Wall) (fuel : Nat) (w h : Int) (b : Board)
    (hd : ∀ v : Wall, dflt.var ≠ Var.wall v) (hsound : S.Sound)
    (hsub : ∀ v ∈ possibleWalls, v ∈ allWalls w h)
    (hrun : generate S dflt rng possibleWalls openWalls0 fuel w h = some b) :
    ∃ r : Run, generateRun S dflt rng possibleWalls openWalls0 fuel w h = some r ∧
      b.walls = r.final.essentialWalls ∧
      r.blocking = pathClause dflt (w * h) r.model ∧
      Satisfies r.model (buildFormula dflt w h) ∧
      ∀ u ∈ b.walls,
        Satisfiable (buildFormula dflt w h ++ [r.blocking])
          (boardAssumptions dflt w h (b.walls.filter fun v => v ≠ u)) ∧
        (∃ σ : Assignment, Satisfies σ (buildFormula dflt w h) ∧
          Holds σ (boardAssumptions dflt w h (b.walls.filter fun v => v ≠ u)) ∧
          ∃ f p : Int, (0 ≤ f ∧ f < w * h) ∧ (0 ≤ p ∧ p < w * h) ∧
            σ (Var.fp f p) ≠ r.model (Var.fp f p)) ∧
        ∀ v ∈ b.walls.filter (fun v => v ≠ u), pathBlocking r.path v = false := by
  obtain ⟨r, hr, hwalls, -, -⟩ := generate_some hrun
  obtain ⟨draws, calls, -, -, hblock, -⟩ := generateRun_some hr
  have hm := run_model hsound hr
  have hcand := run_candidates hr
  have hE : ∀ v ∈ r.final.essentialWalls, v ∈ allWalls w h :=
    fun v hv => hsub v (hcand v hv).1
  refine ⟨r, hr, hwalls, hblock, hm, ?_⟩
  intro u hu
  rw [hwalls] at hu ⊢
  have hsat := satisfiable_of_with dflt hE (run_essential hd hsound hsub hr u hu)
  refine ⟨hsat, ?_, fun v hv => (hcand v (List.mem_filter.mp hv).1).2⟩
  obtain ⟨σ, hσ, hA⟩ := hsat
  rw [satisfies_append] at hσ
  refine ⟨σ, hσ.1, hA, ?_⟩
  by_contra hno
  have hsame : ∀ f p : Int, 0 ≤ f → f < w * h → 0 ≤ p → p < w * h →
      σ (Var.fp f p) = r.model (Var.fp f p) := by
    intro f p f0 f1 p0 p1
    by_contra hne
    exact hno ⟨f, p, ⟨f0, f1⟩, ⟨p0, p1⟩, hne⟩
  have hfalse : Clause.eval σ r.blocking = false := by
    rw [hblock, pathClause_false_iff]
    exact (same_path_iff (bijection_of_formula hm) (bijection_of_formula hσ.1)).mpr hsame
  have := hσ.2 _ (List.mem_singleton.mpr rfl)
  rw [hfalse] at this
  cases this

/-- Witness of C2: a run on the 2×2 grid that samples the path `0, 1, 3, 2` and returns
the board with the wall between the cells `0` and `2`. -/
theorem essential_wall_needed_witness :
    ∃ r : Run, generateRun (tryingSolver [model22, model22b]) minisatDefault (fun i => i)
        interiorWalls22 interiorWalls22 4 2 2 = some r ∧
      (Board.mk 2 2 [⟨⟨0, 1⟩, Orientation.H⟩]).walls = r.final.essentialWalls ∧
      r.blocking = pathClause minisatDefault (2 * 2) r.model ∧
      Satisfies r.model (buildFormula minisatDefault 2 2) ∧
      ∀ u ∈ (Board.mk 2 2 [⟨⟨0, 1⟩, Orientation.H⟩]).walls,
        Satisfiable (buildFormula minisatDefault 2 2 ++ [r.blocking])
          (boardAssumptions minisatDefault 2 2
            ((Board.mk 2 2 [⟨⟨0, 1⟩, Orientation.H⟩]).walls.filter fun v => v ≠ u)) ∧
        (∃ σ : Assignment, Satisfies σ (buildFormula minisatDefault 2 2) ∧
          Holds σ (boardAssumptions minisatDefault 2 2
            ((Board.mk 2 2 [⟨⟨0, 1⟩, Orientation.H⟩]).walls.filter fun v => v ≠ u)) ∧
          ∃ f p : Int, (0 ≤ f ∧ f < 2 * 2) ∧ (0 ≤ p ∧ p < 2 * 2) ∧
            σ (Var.fp f p) ≠ r.model (Var.fp f p)) ∧
        ∀ v ∈ (Board.mk 2 2 [⟨⟨0, 1⟩, Orientation.H⟩]).walls.filter (fun v => v ≠ u),
          pathBlocking r.path v = false :=
  essential_wall_needed (tryingSolver [model22, model22b]) minisatDefault (fun i => i)
    interiorWalls22 interiorWalls22 4 2 2 ⟨2, 2, [⟨⟨0, 1⟩, Orientation.H⟩]⟩
    (by intro v hv; cases hv) (tryingSolver_sound _) (by decide) example_run22

/-- C3: wall minimisation is idempotent.  For every run of `generate` that returns a
board with essential wall set `E` (solver sound; the default literal not a wall literal;
`getPossibleWalls` a duplicate-free list of walls of the grid), running the loop again on
the same formula with the same blocking clause, with candidate list `E`, no essential
wall yet and every other wall of the grid open, with any random picks, any solver that is
complete on this formula and enough fuel, returns a state whose essential walls are the
walls of `E` again (in the order of the picks), whose open walls are unchanged and whose
candidate list is empty: no further wall is removed. -/
theorem minimization_idempotent (S : SatSolver) (dflt : Lit) (rng : Nat → Nat)
    (possibleWalls openWalls0 : List Wall) (fuel : Nat) (w h : Int) (b : Board)
    (hd : ∀ v : Wall, dflt.var ≠ Var.wall v) (hsound : S.Sound)
    (hnd : possibleWalls.Nodup) (hsub : ∀ v ∈ possibleWalls, v ∈ allWalls w h)
    (hrun : generate S dflt rng possibleWalls openWalls0 fuel w h = some b) :
    ∃ r : Run, generateRun S dflt rng possibleWalls openWalls0 fuel w h = some r ∧
      b.walls = r.final.essentialWalls ∧
      ∀ (S2 : SatSolver) (rng2 : Nat → Nat) (fuel2 draws2 calls2 : Nat),
        S2.CompleteOn (buildFormula dflt w h ++ [r.blocking]) →
        b.walls.length ≤ fuel2 →
        ∃ final : LoopState,
          minimizeLoop S2 (buildFormula dflt w h ++ [r.blocking]) (w2lit dflt w h) rng2
            fuel2 ⟨b.walls, [], otherWalls w h b.walls, draws2, calls2⟩ = some final ∧
          final.candidateWalls = [] ∧
          final.essentialWalls.Perm b.walls ∧
          final.openWalls = otherWalls w h b.walls := by
  obtain ⟨r, hr, hwalls, -, -⟩ := generate_some hrun
  have hcand := run_candidates hr
  have hE : ∀ v ∈ r.final.essentialWalls, v ∈ allWalls w h :=
    fun v hv => hsub v (hcand v hv).1
  have hess := run_essential hd hsound hsub hr
  have hEnd := run_nodup hnd hr
  refine ⟨r, hr, hwalls, ?_⟩
  intro S2 rng2 fuel2 draws2 calls2 hcomplete hfuel
  rw [hwalls] at hfuel ⊢
  obtain ⟨final, hloop, hnil, -, -⟩ := minimizeLoop_terminates S2
    (buildFormula dflt w h ++ [r.blocking]) (w2lit dflt w h) rng2 fuel2
    ⟨r.final.essentialWalls, [], otherWalls w h r.final.essentialWalls, draws2, calls2⟩
    hfuel
  obtain ⟨⟨hperm, hopen⟩, -⟩ := minimizeLoop_invariant S2 _ (w2lit dflt w h) rng2
    (fun st => (st.candidateWalls ++ st.essentialWalls).Perm r.final.essentialWalls ∧
      st.openWalls = otherWalls w h r.final.essentialWalls)
    (fun st hne hinv => rerun_keeps_walls hE hEnd hess S2 hcomplete rng2 st hne hinv)
    fuel2 _ _ (by simp) hloop
  rw [hnil, List.nil_append] at hperm
  exact ⟨final, hloop, hnil, hperm, hopen⟩

/-- Witness of C3: the run on the 2×2 grid that returns the board with the wall between
the cells `0` and `2`. -/
theorem minimization_idempotent_witness :
    ∃ r : Run, generateRun (tryingSolver [model22, model22b]) minisatDefault (fun i => i)
        interiorWalls22 interiorWalls22 4 2 2 = some r ∧
      (Board.mk 2 2 [⟨⟨0, 1⟩, Orientation.H⟩]).walls = r.final.essentialWalls ∧
      ∀ (S2 : SatSolver) (rng2 : Nat → Nat) (fuel2 draws2 calls2 : Nat),
        S2.CompleteOn (buildFormula minisatDefault 2 2 ++ [r.blocking]) →
        (Board.mk 2 2 [⟨⟨0, 1⟩, Orientation.H⟩]).walls.length ≤ fuel2 →
        ∃ final : LoopState,
          minimizeLoop S2 (buildFormula minisatDefault 2 2 ++ [r.blocking])
            (w2lit minisatDefault 2 2) rng2 fuel2
            ⟨(Board.mk 2 2 [⟨⟨0, 1⟩, Orientation.H⟩]).walls, [],
              otherWalls 2 2 (Board.mk 2 2 [⟨⟨0, 1⟩, Orientation.H⟩]).walls,
              draws2, calls2⟩ = some final ∧
          final.candidateWalls = [] ∧
          final.essentialWalls.Perm (Board.mk 2 2 [⟨⟨0, 1⟩, Orientation.H⟩]).walls ∧
          final.openWalls = otherWalls 2 2 (Board.mk 2 2 [⟨⟨0, 1⟩, Orientation.H⟩]).walls :=
  minimization_idempotent (tryingSolver [model22, model22b]) minisatDefault (fun i => i)
    interiorWalls22 interiorWalls22 4 2 2 ⟨2, 2, [⟨⟨0, 1⟩, Orientation.H⟩]⟩
    (by intro v hv; cases hv) (tryingSolver_sound _) (by decide) (by decide) example_run22

/-! ## Properties of the geometry helpers -/

/-- C13: for every `W, H ≥ 0` the list `allWalls W H` has no duplicates, contains a wall
exactly when it is a V-wall at `(x, y)` with `0 ≤ x ≤ W`, `0 ≤ y < H` or an H-wall at
`(x, y)` with `0 ≤ x < W`, `0 ≤ y ≤ H`, and has `W·(H+1) + (W+1)·H` entries. -/
theorem allWalls_complete (W H : Int) (hW : 0 ≤ W) (hH : 0 ≤ H) :
    (allWalls W H).Nodup ∧
    (∀ w : Wall, w ∈ allWalls W H ↔
      (w.orientation = Orientation.V ∧ 0 ≤ w.pos.x ∧ w.pos.x ≤ W ∧
        0 ≤ w.pos.y ∧ w.pos.y < H) ∨
      (w.orientation = Orientation.H ∧ 0 ≤ w.pos.x ∧ w.pos.x < W ∧
        0 ≤ w.pos.y ∧ w.pos.y ≤ H)) ∧
    ((allWalls W H).length : Int) = W * (H + 1) + (W + 1) * H := by
  refine ⟨allWalls_nodup W H, fun w => mem_allWalls, ?_⟩
  rw [allWalls_length]
  push_cast
  rw [Int.toNat_of_nonneg hH, Int.toNat_of_nonneg hW,
    Int.toNat_of_nonneg (show 0 ≤ W + 1 by omega),
    Int.toNat_of_nonneg (show 0 ≤ H + 1 by omega)]
  ring

/-- Witness of C13 on the 2×2 grid, which has 12 walls. -/
theorem allWalls_complete_witness :
    (allWalls 2 2).Nodup ∧
    (∀ w : Wall, w ∈ allWalls 2 2 ↔
      (w.orientation = Orientation.V ∧ 0 ≤ w.pos.x ∧ w.pos.x ≤ 2 ∧
        0 ≤ w.pos.y ∧ w.pos.y < 2) ∨
      (w.orientation = Orientation.H ∧ 0 ≤ w.pos.x ∧ w.pos.x < 2 ∧
        0 ≤ w.pos.y ∧ w.pos.y ≤ 2)) ∧
    ((allWalls 2 2).length : Int) = 2 * (2 + 1) + (2 + 1) * 2 :=
  allWalls_complete 2 2 (by decide) (by decide)

/-- Counterexample to C16: for the width `W = 65536` and the coordinate `(0, 65536)`, all
values of an `int` with `0 ≤ x < W` and `y ≥ 0`, the product `y * W = 2^32` wraps to `0`
in the arithmetic of `int`, so `c2f` returns `0` and `f2c` gives back `(0, 0)`. -/
theorem c2f_wraps :
    ((1 : Int) ≤ 65536 ∧ (65536 : Int) ≤ 2147483647 ∧ (0 : Int) ≤ 0 ∧ (0 : Int) < 65536 ∧
      (0 : Int) ≤ 65536) ∧
    c2fInt ⟨0, 65536⟩ 65536 = 0 ∧
    f2c (c2fInt ⟨0, 65536⟩ 65536) 65536 = ⟨0, 0⟩ ∧
    f2c (c2fInt ⟨0, 65536⟩ 65536) 65536 ≠ ⟨0, 65536⟩ := by
  decide

/-- C16 (amended): for every width `W ≥ 1`, with `c2f` computed in `int`:
`f2c (c2f (x, y) W) W = (x, y)` for every coordinate with `0 ≤ x < W`, `y ≥ 0` and
`x + y·W ≤ INT_MAX`; `c2f (f2c f W) W = f` for every index `0 ≤ f ≤ INT_MAX`; and for
`0 ≤ x < W`, `0 ≤ y < H` with `W·H ≤ INT_MAX` the index `c2f (x, y) W` is `x + y·W` and
lies in `[0, W·H)`.  Within these bounds the `int` value is the exact value. -/
theorem c2f_f2c_inverse (W : Int) (hW : 1 ≤ W) :
    (∀ x y : Int, 0 ≤ x → x < W → 0 ≤ y → x + y * W ≤ 2147483647 →
      c2fInt ⟨x, y⟩ W = c2f ⟨x, y⟩ W ∧ f2c (c2fInt ⟨x, y⟩ W) W = ⟨x, y⟩) ∧
    (∀ f : Int, 0 ≤ f → f ≤ 2147483647 → c2fInt (f2c f W) W = f) ∧
    (∀ H x y : Int, 0 ≤ x → x < W → 0 ≤ y → y < H → W * H ≤ 2147483647 →
      c2fInt ⟨x, y⟩ W = x + y * W ∧ 0 ≤ c2fInt ⟨x, y⟩ W ∧ c2fInt ⟨x, y⟩ W < W * H) := by
  refine ⟨?_, ?_, ?_⟩
  · intro x y hx0 hx1 hy hmax
    have h := c2fInt_cell ⟨hx0, hx1⟩ hy hmax
    refine ⟨h, ?_⟩
    rw [h]
    exact f2c_c2f (c := ⟨x, y⟩) ⟨hx0, hx1⟩ hy
  · intro f hf0 hf1
    exact c2fInt_f2c hW ⟨hf0, hf1⟩
  · intro H x y hx0 hx1 hy0 hy1 hmax
    have hr := c2f_range (c := ⟨x, y⟩) ⟨hx0, hx1⟩ ⟨hy0, hy1⟩
    unfold c2f at hr
    simp only at hr
    have h := c2fInt_cell ⟨hx0, hx1⟩ hy0 (by omega)
    rw [h]
    exact ⟨rfl, hr.1, hr.2⟩

/-- Witness of the amended C16 at width 3: the cell `(2, 1)` has index 5 on a grid of
height 2. -/
theorem c2f_f2c_inverse_witness :
    (c2fInt ⟨2, 1⟩ 3 = c2f ⟨2, 1⟩ 3 ∧ f2c (c2fInt ⟨2, 1⟩ 3) 3 = ⟨2, 1⟩) ∧
    c2fInt (f2c 5 3) 3 = 5 ∧
    (c2fInt ⟨2, 1⟩ 3 = 2 + 1 * 3 ∧ 0 ≤ c2fInt ⟨2, 1⟩ 3 ∧ c2fInt ⟨2, 1⟩ 3 < 3 * 2) :=
  ⟨(c2f_f2c_inverse 3 (by decide)).1 2 1 (by decide) (by decide) (by decide) (by decide),
    (c2f_f2c_inverse 3 (by decide)).2.1 5 (by decide) (by decide),
    (c2f_f2c_inverse 3 (by decide)).2.2 2 2 1 (by decide) (by decide) (by decide)
      (by decide) (by decide)⟩

/-! ## Properties of the node encoding -/

/-- C17: on the 2×2 grid a model of the whole formula gives the node `(1, 0)` of the last
column the bits `NW = 0`, `NE = 1`, which encode the direction E under the table; the E
segment of that node, the H-wall at `(2, 1)`, is not a wall of the grid, so it has no
edge literal, and its edge variable is false in the model: the "oriented along a wall"
clause `¬ne ∨ ¬se ∨ walle` of the node reads the default literal, the literal of
`F[0, 0]`, in its place. -/
theorem border_node_points_outside :
    Satisfies model22e (buildFormula minisatDefault 2 2) ∧
    (⟨1, 0⟩ : Coordinates) ∈ allCoordinates 2 2 ∧
    Satisfies model22e (nodeAlongClauses minisatDefault 2 2 ⟨1, 0⟩) ∧
    direction (model22e (Var.node ⟨1, 0⟩ Orientation2.NW))
      (model22e (Var.node ⟨1, 0⟩ Orientation2.NE)) = Direction.E ∧
    nodeSegment ⟨1, 0⟩ Direction.E = ⟨⟨2, 1⟩, Orientation.H⟩ ∧
    Wall.mk ⟨2, 1⟩ Orientation.H ∉ allWalls 2 2 ∧
    model22e (Var.edge ⟨⟨2, 1⟩, Orientation.H⟩) = false ∧
    edge2lit minisatDefault 2 2 ⟨⟨2, 1⟩, Orientation.H⟩ = mkLit (Var.fp 0 0) :=
  ⟨model22e_satisfies, by decide,
    satisfies_of_subset (nodeAlong_sub minisatDefault (mem_allCoordinates.mpr (by decide)))
      model22e_satisfies,
    by decide, by decide, by decide, by decide, by decide⟩

/-- C18: for every interior wall handled by the two "non-border wall" loops (H-wall at
`(x, y)` with `1 ≤ x ≤ W−2`, `1 ≤ y ≤ H−1`; V-wall at `(x, y)` with `1 ≤ x ≤ W−1`,
`1 ≤ y ≤ H−2`) and every assignment satisfying the seven clauses emitted for that wall
(they are clauses of the formula): if the edge literal of the wall is true, then exactly
one of the two nodes at the ends of the segment is oriented along it.  For an H-wall the
west node `(x−1, y−1)` encodes E or the east node `(x, y−1)` encodes W, never both; for a
V-wall the north node `(x−1, y−1)` encodes S or the south node `(x−1, y)` encodes N,
never both. -/
theorem wall_covered_by_one_node (dflt : Lit) (W H : Int) (σ : Assignment) :
    (∀ x y : Int, 1 ≤ x → x ≤ W - 2 → 1 ≤ y → y ≤ H - 1 →
      Satisfies σ (horizontalWallClausesAt dflt W H x y) →
      σ (Var.edge ⟨⟨x, y⟩, Orientation.H⟩) = true →
      (∀ cl ∈ horizontalWallClausesAt dflt W H x y, cl ∈ buildFormula dflt W H) ∧
      (nodeSegment ⟨x - 1, y - 1⟩ Direction.E = ⟨⟨x, y⟩, Orientation.H⟩ ∧
        nodeSegment ⟨x, y - 1⟩ Direction.W = ⟨⟨x, y⟩, Orientation.H⟩) ∧
      (direction (σ (Var.node ⟨x - 1, y - 1⟩ Orientation2.NW))
          (σ (Var.node ⟨x - 1, y - 1⟩ Orientation2.NE)) = Direction.E ∨
        direction (σ (Var.node ⟨x, y - 1⟩ Orientation2.NW))
          (σ (Var.node ⟨x, y - 1⟩ Orientation2.NE)) = Direction.W) ∧
      ¬ (direction (σ (Var.node ⟨x - 1, y - 1⟩ Orientation2.NW))
          (σ (Var.node ⟨x - 1, y - 1⟩ Orientation2.NE)) = Direction.E ∧
        direction (σ (Var.node ⟨x, y - 1⟩ Orientation2.NW))
          (σ (Var.node ⟨x, y - 1⟩ Orientation2.NE)) = Direction.W)) ∧
    (∀ x y : Int, 1 ≤ x → x ≤ W - 1 → 1 ≤ y → y ≤ H - 2 →
      Satisfies σ (verticalWallClausesAt dflt W H x y) →
      σ (Var.edge ⟨⟨x, y⟩, Orientation.V⟩) = true →
      (∀ cl ∈ verticalWallClausesAt dflt W H x y, cl ∈ buildFormula dflt W H) ∧
      (nodeSegment ⟨x - 1, y - 1⟩ Direction.S = ⟨⟨x, y⟩, Orientation.V⟩ ∧
        nodeSegment ⟨x - 1, y⟩ Direction.N = ⟨⟨x, y⟩, Orientation.V⟩) ∧
      (direction (σ (Var.node ⟨x - 1, y - 1⟩ Orientation2.NW))
          (σ (Var.node ⟨x - 1, y - 1⟩ Orientation2.NE)) = Direction.S ∨
        direction (σ (Var.node ⟨x - 1, y⟩ Orientation2.NW))
          (σ (Var.node ⟨x - 1, y⟩ Orientation2.NE)) = Direction.N) ∧
      ¬ (direction (σ (Var.node ⟨x - 1, y - 1⟩ Orientation2.NW))
          (σ (Var.node ⟨x - 1, y - 1⟩ Orientation2.NE)) = Direction.S ∧
        direction (σ (Var.node ⟨x - 1, y⟩ Orientation2.NW))
          (σ (Var.node ⟨x - 1, y⟩ Orientation2.NE)) = Direction.N)) := by
  constructor
  · intro x y x1 x2 y1 y2 hσ he
    have hc := horizontalWall_cover dflt ⟨x1, x2⟩ ⟨y1, y2⟩ hσ he
    refine ⟨horizontalWall_sub dflt ⟨x1, x2⟩ ⟨y1, y2⟩, ⟨?_, ?_⟩, hc.1, hc.2⟩ <;>
      simp [nodeSegment, Coordinates.offset]
  · intro x y x1 x2 y1 y2 hσ he
    have hc := verticalWall_cover dflt ⟨x1, x2⟩ ⟨y1, y2⟩ hσ he
    refine ⟨verticalWall_sub dflt ⟨x1, x2⟩ ⟨y1, y2⟩, ⟨?_, ?_⟩, hc.1, hc.2⟩ <;>
      simp [nodeSegment, Coordinates.offset]

/-- Witness of C18 on the 3×3 grid with a model in which the H-wall at `(1, 2)` and the
V-wall at `(1, 1)` are installed: the H-wall is covered by its east node only, the V-wall
by its south node only. -/
theorem wall_covered_by_one_node_witness :
    ((direction (model33w (Var.node ⟨1 - 1, 2 - 1⟩ Orientation2.NW))
          (model33w (Var.node ⟨1 - 1, 2 - 1⟩ Orientation2.NE)) = Direction.E ∨
        direction (model33w (Var.node ⟨1, 2 - 1⟩ Orientation2.NW))
          (model33w (Var.node ⟨1, 2 - 1⟩ Orientation2.NE)) = Direction.W) ∧
      ¬ (direction (model33w (Var.node ⟨1 - 1, 2 - 1⟩ Orientation2.NW))
          (model33w (Var.node ⟨1 - 1, 2 - 1⟩ Orientation2.NE)) = Direction.E ∧
        direction (model33w (Var.node ⟨1, 2 - 1⟩ Orientation2.NW))
          (model33w (Var.node ⟨1, 2 - 1⟩ Orientation2.NE)) = Direction.W)) ∧
    ((direction (model33w (Var.node ⟨1 - 1, 1 - 1⟩ Orientation2.NW))
          (model33w (Var.node ⟨1 - 1, 1 - 1⟩ Orientation2.NE)) = Direction.S ∨
        direction (model33w (Var.node ⟨1 - 1, 1⟩ Orientation2.NW))
          (model33w (Var.node ⟨1 - 1, 1⟩ Orientation2.NE)) = Direction.N) ∧
      ¬ (direction (model33w (Var.node ⟨1 - 1, 1 - 1⟩ Orientation2.NW))
          (model33w (Var.node ⟨1 - 1, 1 - 1⟩ Orientation2.NE)) = Direction.S ∧
        direction (model33w (Var.node ⟨1 - 1, 1⟩ Orientation2.NW))
          (model33w (Var.node ⟨1 - 1, 1⟩ Orientation2.NE)) = Direction.N)) :=
  ⟨((wall_covered_by_one_node minisatDefault 3 3 model33w).1 1 2
      (by decide) (by decide) (by decide) (by decide)
      (satisfies_of_subset
        (horizontalWall_sub minisatDefault ⟨by decide, by decide⟩ ⟨by decide, by decide⟩)
        model33w_satisfies) (by decide)).2.2,
    ((wall_covered_by_one_node minisatDefault 3 3 model33w).2 1 1
      (by decide) (by decide) (by decide) (by decide)
      (satisfies_of_subset
        (verticalWall_sub minisatDefault ⟨by decide, by decide⟩ ⟨by decide, by decide⟩)
        model33w_satisfies) (by decide)).2.2⟩

/-- Counterexample to C19: at the interior cell `(1, 1)` of the 3×3 grid, an assignment
that makes exactly three of the four literals true (so "at most three" holds) violates
the clauses emitted for the cell. -/
theorem three_inward_rejected :
    ((1 : Int) ≤ 1 ∧ (1 : Int) ≤ 3 - 2) ∧
    trueCount threeInward (innerCellLits minisatDefault 3 3 1 1) = 3 ∧
    ¬ Satisfies threeInward (innerCellClausesAt minisatDefault 3 3 1 1) :=
  ⟨by decide, by decide, fun h => absurd ((satisfiesB_iff _ _).mpr h) (by decide)⟩

/-- C19 (amended): for every interior cell `(x, y)` with `1 ≤ x ≤ W−2`, `1 ≤ y ≤ H−2` and
every assignment, the four clauses that `buildFormula` emits for the cell (they are
clauses of the formula) are all satisfied if and only if at most two of the four
literals `¬NW(x,y)`, `NE(x,y+1)`, `¬NE(x+1,y)`, `NW(x+1,y+1)` are true: they forbid every
configuration with three or four of them true. -/
theorem inner_cell_at_most_two (dflt : Lit) (W H x y : Int) (σ : Assignment)
    (hx : 1 ≤ x ∧ x ≤ W - 2) (hy : 1 ≤ y ∧ y ≤ H - 2) :
    (∀ cl ∈ innerCellClausesAt dflt W H x y, cl ∈ buildFormula dflt W H) ∧
    innerCellLits dflt W H x y =
      [ (mkLit (Var.node ⟨x, y⟩ Orientation2.NW)).not,
        mkLit (Var.node ⟨x, y + 1⟩ Orientation2.NE),
        (mkLit (Var.node ⟨x + 1, y⟩ Orientation2.NE)).not,
        mkLit (Var.node ⟨x + 1, y + 1⟩ Orientation2.NW) ] ∧
    (Satisfies σ (innerCellClausesAt dflt W H x y) ↔
      trueCount σ (innerCellLits dflt W H x y) ≤ 2) :=
  ⟨innerCell_sub dflt hx hy, innerCellLits_eq dflt hx hy, innerCell_iff dflt W H x y σ⟩

/-- Witness of the amended C19 at the centre cell of the 3×3 grid, where the model makes
one of the four literals true. -/
theorem inner_cell_at_most_two_witness :
    trueCount model33w (innerCellLits minisatDefault 3 3 1 1) = 1 ∧
    (Satisfies model33w (innerCellClausesAt minisatDefault 3 3 1 1) ↔
      trueCount model33w (innerCellLits minisatDefault 3 3 1 1) ≤ 2) :=
  ⟨by decide,
    (inner_cell_at_most_two minisatDefault 3 3 1 1 model33w
      ⟨by decide, by decide⟩ ⟨by decide, by decide⟩).2.2⟩

/-! ## Properties of the formula as a whole -/

/-- C12: for `W = 2`, `H = 2` the clause set of `buildFormula` is satisfiable together with
the assumptions `¬wall(w)` for every wall `w` of `allWalls 2 2`: some assignment of the
`F`, wall, edge and node variables satisfies every clause and makes every wall variable
false. -/
theorem no_walls_satisfiable :
    ∃ σ : Assignment, Satisfies σ (buildFormula minisatDefault 2 2) ∧
      Holds σ ((allWalls 2 2).map fun w => (w2lit minisatDefault 2 2 w).not) ∧
      ∀ w ∈ allWalls 2 2, σ (Var.wall w) = false := by
  refine ⟨model22, model22_satisfies, ?_, by decide⟩
  unfold Holds
  decide

/-- C11: on the 3×2 grid the H-wall at `(1, 0)` is the border wall of the non-corner edge
cell `(1, 0)` with index 1, but `buildFormula` emits neither `¬wall ∨ ¬F[1, 0]` nor
`¬wall ∨ ¬F[1, L−1]` for it (the loop over the top and bottom border runs over
`1 ≤ x < W−2`, which is empty here), and the formula has a model in which this wall is
installed and the cell 1 is the entry of the path. -/
theorem border_wall_not_blocking :
    (Wall.mk ⟨1, 0⟩ Orientation.H ∈ allWalls 3 2 ∧ c2f ⟨1, 0⟩ 3 = 1 ∧
      (1 : Int) ∈ getEdgeFields 3 2) ∧
    [(mkLit (Var.wall ⟨⟨1, 0⟩, Orientation.H⟩)).not, (mkLit (Var.fp 1 0)).not] ∉
      buildFormula minisatDefault 3 2 ∧
    [(mkLit (Var.wall ⟨⟨1, 0⟩, Orientation.H⟩)).not, (mkLit (Var.fp 1 (3 * 2 - 1))).not] ∉
      buildFormula minisatDefault 3 2 ∧
    borderClauses minisatDefault 3 2 = [] ∧
    Satisfies model32w (buildFormula minisatDefault 3 2) ∧
    model32w (Var.wall ⟨⟨1, 0⟩, Orientation.H⟩) = true ∧
    model32w (Var.fp 1 0) = true := by
  refine ⟨by decide, ?_, ?_, by decide, model32w_satisfies, by decide, by decide⟩
  · set_option maxRecDepth 100000 in decide
  · set_option maxRecDepth 100000 in decide

/-- C20: every occurrence of a wall literal in a clause of `buildFormula`, and in any
blocking clause added to it, is negated (the default literal of the registries not
being a wall literal, as in the code), and the formula is monotone in the installed
walls: for every `W`, `H`, any blocking clauses and any two wall sets `S' ⊆ S`, if the
clause set is satisfiable with `wall(w)` true exactly for the walls of `S`, it is
satisfiable with `wall(w)` true exactly for the walls of `S'`. -/
theorem formula_monotone_in_walls (dflt : Lit) (hd : ∀ v : Wall, dflt.var ≠ Var.wall v)
    (W H : Int) (models : List Assignment) (S S' : Wall → Prop)
    (hsub : ∀ v, S' v → S v)
    (hsat : SatisfiableWith
      (buildFormula dflt W H ++ models.map (pathClause dflt (W * H))) W H S) :
    WallNegative (buildFormula dflt W H ++ models.map (pathClause dflt (W * H))) ∧
    SatisfiableWith
      (buildFormula dflt W H ++ models.map (pathClause dflt (W * H))) W H S' := by
  have hneg : WallNegative
      (buildFormula dflt W H ++ models.map (pathClause dflt (W * H))) := by
    rw [wallNegative_append, wallNegative_map]
    exact ⟨buildFormula_wallNegative hd W H, fun m _ => pathClause_wallNeg dflt _ m⟩
  refine ⟨hneg, ?_⟩
  obtain ⟨σ, hσ, hw⟩ := hsat
  haveI : DecidablePred S' := Classical.decPred S'
  obtain ⟨τ, hτ, hτw, -⟩ := satisfiableWith_shrink W H hneg hσ S'
    (fun v hv hS => (hw v hv).mpr (hsub v hS))
  exact ⟨τ, hτ, hτw⟩

/-- Witness of C20 on the 2×2 grid with the blocking clause of the path `0, 2, 3, 1`: the
formula is satisfiable with exactly the wall between the cells `0` and `2` installed,
hence also with no wall installed. -/
theorem formula_monotone_in_walls_witness :
    WallNegative (buildFormula minisatDefault 2 2 ++
      [model22b].map (pathClause minisatDefault (2 * 2))) ∧
    SatisfiableWith (buildFormula minisatDefault 2 2 ++
      [model22b].map (pathClause minisatDefault (2 * 2))) 2 2 (fun _ => False) :=
  formula_monotone_in_walls minisatDefault (by intro v hv; cases hv) 2 2 [model22b]
    (fun v => v = ⟨⟨0, 1⟩, Orientation.H⟩) (fun _ => False) (fun _ h => h.elim)
    ⟨model22w, (satisfiesB_iff _ _).mp (by set_option maxRecDepth 100000 in decide),
      by decide⟩

/-! ## Properties of the registries, the loop bookkeeping and the node clauses -/

/-- C21: on the 2×2 grid the node block of `buildFormula` reads `edge2lit` for the node
`(1, 0)` of the last column at the H-wall at `(2, 1)`, which is not a wall of
`allWalls 2 2`: the lookup falls back to the default literal, that literal is a literal
of the emitted clause `¬ne ∨ ¬se ∨ walle` of the node, and the clause set changes when
the default literal changes. -/
theorem node_lookup_defaults :
    (⟨1, 0⟩ : Coordinates) ∈ allCoordinates 2 2 ∧
    nodeSegment ⟨1, 0⟩ Direction.E = ⟨⟨2, 1⟩, Orientation.H⟩ ∧
    Wall.mk ⟨2, 1⟩ Orientation.H ∉ allWalls 2 2 ∧
    edge2lit minisatDefault 2 2 ⟨⟨2, 1⟩, Orientation.H⟩ = minisatDefault ∧
    [(mkLit (Var.node ⟨1, 0⟩ Orientation2.NE)).not,
      (mkLit (Var.node ⟨1, 0⟩ Orientation2.NW)).not.not, minisatDefault] ∈
      nodeAlongClauses minisatDefault 2 2 ⟨1, 0⟩ ∧
    [(mkLit (Var.node ⟨1, 0⟩ Orientation2.NE)).not,
      (mkLit (Var.node ⟨1, 0⟩ Orientation2.NW)).not.not, minisatDefault] ∈
      buildFormula minisatDefault 2 2 ∧
    buildFormula minisatDefault 2 2 ≠ buildFormula minisatDefault.not 2 2 := by
  set_option maxRecDepth 100000 in decide

/-- C22: for every run of `generate` that returns a board (`getPossibleWalls` and
`getOpenWalls` lists of walls of the grid), the final state of the wall-minimisation loop
is the state after `fuel` passes, and, provided the initial candidate list has no
duplicates, after any number of passes the candidate list, the essential list and the
open set are duplicate-free and pairwise disjoint and together hold exactly the initial
candidates and the initial open set; the assumption list of the `solve` call of every
pass has pairwise different variables, which are exactly the wall variables of these
walls, and never holds a literal together with its negation.  Every wall installed on
the returned board is one of the initial candidates returned by `getNonblockingWalls`. -/
theorem loop_walls_partitioned (S : SatSolver) (dflt : Lit) (rng : Nat → Nat)
    (possibleWalls openWalls0 : List Wall) (fuel : Nat) (w h : Int) (b : Board)
    (hsub : ∀ v ∈ possibleWalls, v ∈ allWalls w h)
    (hopen : ∀ v ∈ openWalls0, v ∈ allWalls w h)
    (hrun : generate S dflt rng possibleWalls openWalls0 fuel w h = some b) :
    ∃ (r : Run) (draws calls : Nat),
      generateRun S dflt rng possibleWalls openWalls0 fuel w h = some r ∧
      b.walls = r.final.essentialWalls ∧
      (initialLoopState r.path possibleWalls openWalls0 draws calls).candidateWalls =
        getNonblockingWalls r.path possibleWalls ∧
      minimizeLoop S (buildFormula dflt w h ++ [r.blocking]) (w2lit dflt w h) rng fuel
        (initialLoopState r.path possibleWalls openWalls0 draws calls) = some r.final ∧
      r.final = loopAfter S (buildFormula dflt w h ++ [r.blocking]) (w2lit dflt w h) rng
        fuel (initialLoopState r.path possibleWalls openWalls0 draws calls) ∧
      ((getNonblockingWalls r.path possibleWalls).Nodup →
        ∀ k : Nat,
          Partitioned
            (initialLoopState r.path possibleWalls openWalls0 draws calls).candidateWalls
            (initialLoopState r.path possibleWalls openWalls0 draws calls).openWalls
            (loopAfter S (buildFormula dflt w h ++ [r.blocking]) (w2lit dflt w h) rng k
              (initialLoopState r.path possibleWalls openWalls0 draws calls)) ∧
          ∀ hne : (loopAfter S (buildFormula dflt w h ++ [r.blocking]) (w2lit dflt w h)
              rng k (initialLoopState r.path possibleWalls openWalls0 draws calls)
              ).candidateWalls ≠ [],
            MentionsOnce
              (initialLoopState r.path possibleWalls openWalls0 draws calls).candidateWalls
              (initialLoopState r.path possibleWalls openWalls0 draws calls).openWalls
              (stepAssumptions (w2lit dflt w h) rng
                (loopAfter S (buildFormula dflt w h ++ [r.blocking]) (w2lit dflt w h) rng
                  k (initialLoopState r.path possibleWalls openWalls0 draws calls)) hne)) ∧
      ∀ v ∈ b.walls, v ∈ getNonblockingWalls r.path possibleWalls := by
  obtain ⟨r, hr, hwalls, -, -⟩ := generate_some hrun
  obtain ⟨draws, calls, -, -, -, hloop⟩ := generateRun_some hr
  refine ⟨r, draws, calls, hr, hwalls, rfl, hloop,
    minimizeLoop_eq_loopAfter S _ _ rng fuel _ _ hloop, ?_, ?_⟩
  · intro hnd k
    have hnd0 : ((initialLoopState r.path possibleWalls openWalls0 draws calls).candidateWalls
        ++ (initialLoopState r.path possibleWalls openWalls0 draws calls).openWalls).Nodup :=
      initial_nodup draws calls hnd
    have hgrid : ∀ v ∈
        (initialLoopState r.path possibleWalls openWalls0 draws calls).candidateWalls ++
          (initialLoopState r.path possibleWalls openWalls0 draws calls).openWalls,
        v ∈ allWalls w h := by
      intro v hv
      rcases List.mem_append.mp hv with hc | ho
      · exact hsub v (mem_getNonblockingWalls.mp hc).1
      · exact hopen v (initial_open ho).1
    have hperm := loopAfter_invariant S (buildFormula dflt w h ++ [r.blocking])
      (w2lit dflt w h) rng
      (fun st => (st.candidateWalls ++ st.essentialWalls ++ st.openWalls).Perm
        ((initialLoopState r.path possibleWalls openWalls0 draws calls).candidateWalls ++
          (initialLoopState r.path possibleWalls openWalls0 draws calls).openWalls))
      (fun st hne hinv => perm_step S _ _ rng _ hnd0 st hne hinv) k
      (initialLoopState r.path possibleWalls openWalls0 draws calls)
      (by
        show (getNonblockingWalls r.path possibleWalls ++ [] ++ _).Perm _
        rw [List.append_nil]
        exact List.Perm.refl _)
    exact ⟨partitioned_of_perm hperm hnd0,
      fun hne => stepAssumptions_once dflt w h rng hnd0 hgrid _ hperm hne⟩
  · intro v hv
    rw [hwalls] at hv
    exact mem_getNonblockingWalls.mpr (run_candidates hr v hv)

/-- Witness of C22: the run on the 2×2 grid that samples the path `0, 1, 3, 2` with the
four interior walls (a duplicate-free list) as possible walls and returns the board with
the wall between the cells `0` and `2`. -/
theorem loop_walls_partitioned_witness :
    ∃ (r : Run) (draws calls : Nat),
      generateRun (tryingSolver [model22, model22b]) minisatDefault (fun i => i)
        interiorWalls22 interiorWalls22 4 2 2 = some r ∧
      (Board.mk 2 2 [⟨⟨0, 1⟩, Orientation.H⟩]).walls = r.final.essentialWalls ∧
      (∀ k : Nat,
          Partitioned
            (initialLoopState r.path interiorWalls22 interiorWalls22 draws calls).candidateWalls
            (initialLoopState r.path interiorWalls22 interiorWalls22 draws calls).openWalls
            (loopAfter (tryingSolver [model22, model22b])
              (buildFormula minisatDefault 2 2 ++ [r.blocking]) (w2lit minisatDefault 2 2)
              (fun i => i) k
              (initialLoopState r.path interiorWalls22 interiorWalls22 draws calls)) ∧
          ∀ hne : (loopAfter (tryingSolver [model22, model22b])
              (buildFormula minisatDefault 2 2 ++ [r.blocking]) (w2lit minisatDefault 2 2)
              (fun i => i) k
              (initialLoopState r.path interiorWalls22 interiorWalls22 draws calls)
              ).candidateWalls ≠ [],
            MentionsOnce
              (initialLoopState r.path interiorWalls22 interiorWalls22 draws
                calls).candidateWalls
              (initialLoopState r.path interiorWalls22 interiorWalls22 draws
                calls).openWalls
              (stepAssumptions (w2lit minisatDefault 2 2) (fun i => i)
                (loopAfter (tryingSolver [model22, model22b])
                  (buildFormula minisatDefault 2 2 ++ [r.blocking])
                  (w2lit minisatDefault 2 2) (fun i => i) k
                  (initialLoopState r.path interiorWalls22 interiorWalls22 draws calls))
                hne)) ∧
      ∀ v ∈ (Board.mk 2 2 [⟨⟨0, 1⟩, Orientation.H⟩]).walls,
        v ∈ getNonblockingWalls r.path interiorWalls22 := by
  obtain ⟨r, draws, calls, hr, hwalls, -, -, -, hpart, hmem⟩ :=
    loop_walls_partitioned (tryingSolver [model22, model22b]) minisatDefault (fun i => i)
      interiorWalls22 interiorWalls22 4 2 2 ⟨2, 2, [⟨⟨0, 1⟩, Orientation.H⟩]⟩
      (by decide) (by decide) example_run22
  refine ⟨r, draws, calls, hr, hwalls, hpart ?_, hmem⟩
  unfold getNonblockingWalls
  exact List.Nodup.filter _ (by decide)

/-- C23: for every node, the four "away from a corner" clauses are implied by the four
"oriented along a wall" clauses of the same node: every assignment that satisfies the
first four clauses satisfies the last four, so the formula without the "away from a
corner" clauses has the same models as `buildFormula`. -/
theorem away_clauses_redundant (dflt : Lit) (W H : Int) :
    (∀ (c : Coordinates) (σ : Assignment),
      Satisfies σ (nodeAlongClauses dflt W H c) →
      Satisfies σ (nodeAwayClauses dflt W H c)) ∧
    (∀ σ : Assignment,
      Satisfies σ (buildFormula dflt W H) ↔
        Satisfies σ (buildFormulaWithoutAway dflt W H)) := by
  refine ⟨fun c σ h => nodeAway_of_along dflt W H c σ h, fun σ => ?_⟩
  unfold buildFormula buildFormulaWithoutAway
  simp only [satisfies_append, nodeClauses_iff]

/-- Witness of C23 on the 3×3 grid: the model satisfies the "away from a corner" clauses
of the node `(1, 1)` and the formula without these clauses. -/
theorem away_clauses_redundant_witness :
    Satisfies model33w (nodeAwayClauses minisatDefault 3 3 ⟨1, 1⟩) ∧
    Satisfies model33w (buildFormulaWithoutAway minisatDefault 3 3) :=
  ⟨(away_clauses_redundant minisatDefault 3 3).1 ⟨1, 1⟩ model33w
      (satisfies_of_subset
        (nodeAlong_sub minisatDefault (mem_allCoordinates.mpr (by decide)))
        model33w_satisfies),
    ((away_clauses_redundant minisatDefault 3 3).2 model33w).mp model33w_satisfies⟩

end Alcazar
